import Mathlib

/-!
# The entity-to-relational mapping engine of the discovery model (`table.go`)

A shallow embedding of `pkg/controller/discovery/model/table.go`: field
descriptor extraction by reflection, the SQL statement templates, the value
binder, and the table gateway (`Insert`, `Update`, `Delete`, `Get`, `List`,
`Count`) over a backing store reached through the `DB` interface.

Go strings are Lean strings, Go `int`/`int64` values are Lean integers (the
engine never does arithmetic on them), a function returning `error` returns
`Except Error`, and a method that mutates its receiver returns the new receiver.
-/

namespace Model

/-! ## Reflection -/

/-- The kinds of reflected values that `table.go` tells apart. -/
inductive Kind where
  | string
  | int
  | struct
  | other
  deriving DecidableEq, Repr

mutual
/-- A Go value as `reflect` shows it: a string, an `int`, a struct with its
type name and declared fields, or a value of any other kind (named by `kind`:
`bool`, `int64`, a slice, a pointer, ...). -/
inductive GoValue where
  | string (s : String)
  | int (i : Int)
  | struct (typeName : String) (fields : GoFields)
  | other (kind : String)
/-- The declared fields of a struct, in declaration order: field name, the
whole `sql` struct tag and the field value. -/
inductive GoFields where
  | nil
  | cons (name : String) (tag : String) (value : GoValue) (rest : GoFields)
end

deriving instance DecidableEq for GoValue, GoFields

deriving instance DecidableEq for Except

/-- The method set `Model` of a record type, as far as `table.go` calls it:
`Pk()` and `Labels()` (a Go map, listed here in the order a `range` visits
it). -/
structure ModelMethods where
  Pk : String
  Labels : List (String × String)
  deriving DecidableEq

/-- A Go `interface{}` argument that is neither the nil interface nor a nil
pointer: a pointer to a value (together with the `Model` methods of its
dynamic type, when that type has them) or a plain value. The nil arguments are
those of `Input`. -/
inductive Any where
  | ptr (v : GoValue) (model : Option ModelMethods)
  | val (v : GoValue)
  deriving DecidableEq

/-- The errors the gateway can return. -/
inductive Error where
  | mustBePointer
  | mustBeObject
  | mustBeStringOrInt
  | template (msg : String)
  | constraint
  | noRows
  | engine (msg : String)
  deriving DecidableEq, Repr

/-- The method `reflect.Value.Kind`. -/
def GoValue.Kind : GoValue → Kind
  | .string _ => .string
  | .int _ => .int
  | .struct _ _ => .struct
  | .other _ => .other

/-- The method `reflect.Type.Name` of the value's type. -/
def GoValue.typeName : GoValue → String
  | .string _ => "string"
  | .int _ => "int"
  | .struct n _ => n
  | .other k => k

/-! ## Field descriptors -/

/-- The struct `Field`: the reflected field (`Value` is a handle on the
record's own field, so `Push` is seen by the record), its tag and name, the two
staging cells and the parameter mark. -/
structure Field where
  Value : GoValue
  Tag : String
  Name : String
  string : String
  int : Int
  isParam : Bool
  deriving DecidableEq

/-- Go's `unicode.IsSpace`, which `strings.TrimSpace` trims. -/
def isSpace (c : Char) : Bool :=
  c = '\t' || c = '\n' || c = '\x0b' || c = '\x0c' || c = '\r' || c = ' ' ||
  c.val = 0x85 || c.val = 0xA0 || c.val = 0x1680 ||
  (0x2000 ≤ c.val && c.val ≤ 0x200a) ||
  c.val = 0x2028 || c.val = 0x2029 || c.val = 0x202f || c.val = 0x205f ||
  c.val = 0x3000

/-- Go's `strings.TrimSpace`, on the characters of a string. -/
def trimSpace (s : List Char) : List Char :=
  ((s.dropWhile isSpace).reverse.dropWhile isSpace).reverse

/-- Helper of `splitComma`: `cur` is the option being read, reversed. -/
def splitCommaAux : List Char → List Char → List (List Char)
  | [], cur => [cur.reverse]
  | c :: cs, cur =>
    if c = ',' then cur.reverse :: splitCommaAux cs [] else splitCommaAux cs (c :: cur)

/-- Go's `strings.Split(s, ",")`. -/
def splitComma (s : List Char) : List (List Char) :=
  splitCommaAux s []

/-- The options of a tag: `strings.Split(f.Tag, ",")`, each through
`strings.TrimSpace`. -/
def tagOptions (tag : String) : List (List Char) :=
  (splitComma tag.toList).map trimSpace

/-- The method `Field.hasOpt`. -/
def Field.hasOpt (f : Field) (name : String) : Bool :=
  (tagOptions f.Tag).any (fun opt => opt = name.toList)

/-- The method `Field.Pk`. -/
def Field.Pk (f : Field) : Bool :=
  f.hasOpt "pk"

/-- The method `Field.Mutable`. -/
def Field.Mutable (f : Field) : Bool :=
  if f.Pk then false else !f.hasOpt "const"

/-- The method `Field.Key`. -/
def Field.Key (f : Field) : Bool :=
  f.hasOpt "key"

/-- The method `Field.Validate`. -/
def Field.Validate (f : Field) : Except Error Unit :=
  match f.Value.Kind with
  | .string => .ok ()
  | .int => .ok ()
  | _ => .error .mustBeStringOrInt

/-! ## The value binder -/

/-- A value bound to a statement or stored in a column: text or integer. -/
inductive SqlValue where
  | text (s : String)
  | int (i : Int)
  deriving DecidableEq, Repr

/-- A scan destination, as `Ptr` returns it: the address of the string staging
cell or of the int staging cell (shown with what the cell holds), or `nil`. -/
inductive Cell where
  | string (s : String)
  | int (i : Int)
  | nil
  deriving DecidableEq, Repr

/-- A named argument, `sql.Named(name, value)`; `none` is Go's `nil`. -/
structure NamedArg where
  Name : String
  Value : Option SqlValue
  deriving DecidableEq, Repr

/-- The method `Field.Pull`: fills the staging cell of the field's kind from
the record and returns what it staged. -/
def Field.Pull (f : Field) : Option SqlValue × Field :=
  match f.Value with
  | .string s => (some (.text s), { f with string := s })
  | .int i => (some (.int i), { f with int := i })
  | _ => (none, f)

/-- The method `Field.Ptr`. -/
def Field.Ptr (f : Field) : Cell :=
  match f.Value.Kind with
  | .string => .string f.string
  | .int => .int f.int
  | _ => .nil

/-- The method `Field.Push` where `SetString` or `SetInt` returns: sets the
record's field from the staging cell. The panic of the set on a field reached
through a name that is not exported is that of `Field.PushCall`. -/
def Field.Push (f : Field) : Field :=
  match f.Value.Kind with
  | .string => { f with Value := .string f.string }
  | .int => { f with Value := .int f.int }
  | _ => f

/-- The method `Field.DDL`: the column definition. -/
def Field.DDL (f : Field) : String :=
  String.intercalate " "
    [f.Name,
     (match f.Value.Kind with
      | .string => "TEXT"
      | .int => "INTEGER"
      | _ => ""),
     (if f.Pk then "PRIMARY KEY" else "NOT NULL")]

/-- The method `Field.Param`: marks the field as referenced and returns its
placeholder. -/
def Field.Param (f : Field) : String × Field :=
  (":" ++ f.Name, { f with isParam := true })

/-- The method `Field.Empty`. -/
def Field.Empty (f : Field) : Bool × Field :=
  let g := f.Pull.2
  match g.Value.Kind with
  | .string => (g.string.length == 0, g)
  | .int => (g.int == 0, g)
  | _ => (false, g)

/-! ## Descriptor extraction -/

/-- The loop of `Table.Fields` over the declared fields of a struct: a nested
struct is flattened in place, a string or an int yields a descriptor, and a
field of any other kind matches no case of the `switch`. The loop reads a
field whether its name is exported or not; the recursion into a nested struct
in a field that is not exported panics, which is `GoFields.sealed`. -/
def GoFields.descriptors : GoFields → List Field
  | .nil => []
  | .cons name tag value rest =>
    (match value with
     | .struct _ sub => sub.descriptors
     | .string s => [⟨.string s, tag, name, "", 0, false⟩]
     | .int i => [⟨.int i, tag, name, "", 0, false⟩]
     | .other _ => []) ++ rest.descriptors

/-- The method `Table.Fields`, where it returns. The call that may panic is
`Table.FieldsCall`. -/
def Table.Fields (model : Any) : Except Error (List Field) :=
  match model with
  | .val _ => .error .mustBePointer
  | .ptr (.struct _ fs) _ => .ok fs.descriptors
  | .ptr _ _ => .error .mustBeObject

/-- The method `Table.Name`. -/
def Table.Name (model : Any) : String :=
  match model with
  | .ptr v _ => v.typeName
  | .val v => v.typeName

/-- The type assertion `model.(Model)`. -/
def Any.asModel : Any → Option ModelMethods
  | .ptr _ m => m
  | .val _ => none

/-- The method `Table.NotEmptyFields`. -/
def Table.NotEmptyFields (fields : List Field) : List Field :=
  (fields.map (fun f => f.Empty.2)).filter (fun f => !f.Empty.1)

/-- The method `Table.Params`: the fields marked by `Param`, each pulled. -/
def Table.Params (fields : List Field) : List NamedArg :=
  (fields.filter (fun f => f.isParam)).map (fun f => ⟨f.Name, f.Pull.1⟩)

/-- The method `Table.MutableFields`. -/
def Table.MutableFields (fields : List Field) : List Field :=
  fields.filter (fun f => f.Mutable)

/-- The method `Table.KeyFields`. -/
def Table.KeyFields (fields : List Field) : List Field :=
  fields.filter (fun f => f.Key)

/-- The method `Table.PkField`: the first field tagged `pk`, or `nil`. -/
def Table.PkField (fields : List Field) : Option Field :=
  fields.find? (fun f => f.Pk)

/-! ## Statements -/

/-- Modelled from the spec: the struct `Page` that `ListOptions.Page` points
to is declared outside `table.go`; the spec gives it a limit and an offset, both
counts of rows. -/
structure Page where
  Limit : Nat
  Offset : Nat
  deriving DecidableEq, Repr

/-- The struct `ListOptions`; `Labels` is a Go map, listed in the order a
`range` visits it, and `SortKeys` is the field `Sort`. -/
structure ListOptions where
  Count : Bool
  Labels : List (String × String)
  Page : Option Page
  SortKeys : List Int

/-- The struct `TmplData`. -/
structure TmplData where
  Table : String
  Index : String
  Fields : List Field
  Constraints : List String
  Keys : List Field
  NotEmpty : List Field
  Pk : Option Field
  Options : ListOptions
  Count : Bool

/-- No list options. -/
def ListOptions.none : ListOptions :=
  ⟨false, [], Option.none, []⟩

/-- The zero value of `TmplData` for a table. -/
def TmplData.zero (table : String) : TmplData :=
  ⟨table, "", [], [], [], [], Option.none, ListOptions.none, false⟩

/-- The method `TmplData.Labels`: the label filter as a list of
(name, value). -/
def TmplData.Labels (d : TmplData) : List (String × String) :=
  d.Options.Labels

/-- What a statement template writes, kept with its structure: the text sent
to the store is `Stmt.text`. A condition or assignment is a column and the
placeholder it is compared with or set to. -/
inductive Stmt where
  | insert (table : String) (columns : List String) (values : List String)
  | update (table : String) (set : List (String × String)) (cond : List (String × String))
  | delete (table : String) (cond : List (String × String))
  | get (table : String) (columns : List String) (cond : List (String × String))
  | list (table : String) (columns : Option (List String)) (cond : List (String × String))
      (labels : Option (String × List (String × String))) (sort : List Int)
      (page : Option Page)
  deriving DecidableEq

/-- The output of a `range` whose body is one line, after the first
element: each line is led by the separator that `if $i` writes. -/
def rangeRest (sep : String) : List String → String
  | [] => ""
  | x :: xs => sep ++ x ++ "\n" ++ rangeRest sep xs

/-- The output of a `range` whose body is `if $i` sep `end` and one line. -/
def rangeLines (sep : String) : List String → String
  | [] => ""
  | x :: xs => x ++ "\n" ++ rangeRest sep xs

/-- The line `name = :name` of an assignment or a condition. -/
def eqLine (c : String × String) : String :=
  c.1 ++ " = " ++ c.2

/-- The body of the `range` over the labels in `ListSQL`. -/
def labelSelect (kind : String) (l : String × String) : String :=
  "SELECT parent\nFROM Label\nWHERE kind = '" ++ kind ++ "' AND\nname = '" ++ l.1 ++
    "' AND\nvalue = '" ++ l.2 ++ "'"

/-- The `ORDER BY` block of `ListSQL`. -/
def orderByText (sort : List Int) : String :=
  if sort.isEmpty then "" else "ORDER BY\n" ++ rangeLines "," (sort.map toString)

/-- The `LIMIT` block of `ListSQL`. -/
def limitText : Option Page → String
  | none => ""
  | some p => "LIMIT " ++ toString p.Limit ++ " OFFSET " ++ toString p.Offset ++ "\n"

/-- The label block of `ListSQL`: written when the filter has a label. -/
def labelText (table : String) (nCond : Nat) : Option (String × List (String × String)) → String
  | none => ""
  | some (pk, labels) =>
    (if nCond = 0 then "" else "AND ") ++ pk ++ " IN\n(\n" ++
      rangeLines "\nINTERSECT\n" (labels.map (labelSelect table)) ++ ")\n"

/-- The text of a statement: the output of the templates `InsertSQL`,
`UpdateSQL`, `DeleteSQL`, `GetSQL` and `ListSQL`, with the white space that the
trim markers leave. -/
def Stmt.text : Stmt → String
  | .insert table columns values =>
    "\nINSERT INTO " ++ table ++ " (\n" ++ rangeLines "," columns ++ ")\nVALUES (\n" ++
      rangeLines "," values ++ ");\n"
  | .update table set cond =>
    "\nUPDATE " ++ table ++ "\nSET\n" ++ rangeLines "," (set.map eqLine) ++ "WHERE\n" ++
      rangeLines "AND " (cond.map eqLine) ++ ";\n"
  | .delete table cond =>
    "\nDELETE FROM " ++ table ++ "\nWHERE\n" ++ rangeLines "AND " (cond.map eqLine) ++ ";\n"
  | .get table columns cond =>
    "\nSELECT\n" ++ rangeLines "," columns ++ "FROM " ++ table ++ "\nWHERE\n" ++
      rangeLines "AND " (cond.map eqLine) ++ ";\n"
  | .list table columns cond labels sort page =>
    "\nSELECT\n" ++
      (match columns with
       | none => "COUNT(*)\n"
       | some cs => rangeLines "," cs) ++
      "FROM " ++ table ++ "\n" ++
      (if cond.isEmpty && labels.isNone then "" else "WHERE\n") ++
      rangeLines "AND " (cond.map eqLine) ++
      labelText table cond.length labels ++
      orderByText sort ++ limitText page ++ ";\n"

/-- A column compared with, or set to, the field's own placeholder. -/
def Field.eqParam (f : Field) : String × String :=
  (f.Name, f.Param.1)

/-- The `WHERE` block of `UpdateSQL` and `DeleteSQL`: the pk when `.Pk` is
set, else the natural keys. -/
def TmplData.where (d : TmplData) : List (String × String) :=
  match d.Pk with
  | some pk => [pk.eqParam]
  | none => d.Keys.map Field.eqParam

/-- The `WHERE` block of `GetSQL`: the pk when `and .Pk (not .Pk.Empty)`, else
the natural keys. -/
def TmplData.getWhere (d : TmplData) : List (String × String) :=
  match d.Pk with
  | some pk => if !pk.Empty.1 then [pk.eqParam] else d.Keys.map Field.eqParam
  | none => d.Keys.map Field.eqParam

/-- The template `InsertSQL`. -/
def InsertSQL (d : TmplData) : Stmt :=
  .insert d.Table (d.Fields.map (fun f => f.Name)) (d.Fields.map (fun f => f.Param.1))

/-- The template `UpdateSQL`. -/
def UpdateSQL (d : TmplData) : Stmt :=
  .update d.Table (d.Fields.map Field.eqParam) d.where

/-- The template `DeleteSQL`. -/
def DeleteSQL (d : TmplData) : Stmt :=
  .delete d.Table d.where

/-- The template `GetSQL`. -/
def GetSQL (d : TmplData) : Stmt :=
  .get d.Table (d.Fields.map (fun f => f.Name)) d.getWhere

/-- The template `ListSQL`. With a label filter it evaluates `.Pk.Name`, which
fails on a nil `.Pk`. -/
def ListSQL (d : TmplData) : Except Error Stmt :=
  let columns := if d.Count then none else some (d.Fields.map (fun f => f.Name))
  let cond := d.NotEmpty.map Field.eqParam
  if d.Labels.isEmpty then
    .ok (.list d.Table columns cond none d.Options.SortKeys d.Options.Page)
  else
    match d.Pk with
    | none => .error (.template "nil pointer evaluating *model.Field.Name")
    | some pk =>
      .ok (.list d.Table columns cond (some (pk.Name, d.Labels)) d.Options.SortKeys d.Options.Page)

/-- The field after a template called `Param` on it. -/
def Field.mark (f : Field) : Field :=
  f.Param.2

/-- Marks the first field that satisfies `p`. -/
def markFirst (p : Field → Bool) : List Field → List Field
  | [] => []
  | f :: fs => if p f then f.mark :: fs else f :: markFirst p fs

/-- Marks every field that satisfies `p`. -/
def markAll (p : Field → Bool) (fields : List Field) : List Field :=
  fields.map (fun f => if p f then f.mark else f)

/-- The fields after the `WHERE` block of `UpdateSQL` or `DeleteSQL` ran: the
pk is marked, or without a pk every natural key. -/
def markWhere (fields : List Field) : List Field :=
  if (Table.PkField fields).isSome then markFirst Field.Pk fields
  else markAll Field.Key fields

/-- The fields after the `WHERE` block of `GetSQL` ran: the pk is pulled by
`Empty` and marked when it is not empty, else every natural key is marked. -/
def markGetWhere (fields : List Field) : List Field :=
  match Table.PkField fields with
  | some pk =>
    if !pk.Empty.1 then markFirst Field.Pk fields else markAll Field.Key fields
  | none => markAll Field.Key fields

/-- The method `Table.insertSQL`: the statement, and the fields as the
template leaves them. -/
def Table.insertSQL (table : String) (fields : List Field) : Except Error (Stmt × List Field) :=
  .ok (InsertSQL { TmplData.zero table with Fields := fields }, fields.map Field.mark)

/-- The method `Table.updateSQL`. -/
def Table.updateSQL (table : String) (fields : List Field) : Except Error (Stmt × List Field) :=
  .ok (UpdateSQL { TmplData.zero table with
          Fields := Table.MutableFields fields,
          Keys := Table.KeyFields fields,
          Pk := Table.PkField fields },
       markWhere (markAll Field.Mutable fields))

/-- The method `Table.deleteSQL`. -/
def Table.deleteSQL (table : String) (fields : List Field) : Except Error (Stmt × List Field) :=
  .ok (DeleteSQL { TmplData.zero table with
          Keys := Table.KeyFields fields,
          Pk := Table.PkField fields },
       markWhere fields)

/-- The method `Table.getSQL`. -/
def Table.getSQL (table : String) (fields : List Field) : Except Error (Stmt × List Field) :=
  .ok (GetSQL { TmplData.zero table with
          Keys := Table.KeyFields fields,
          Pk := Table.PkField fields,
          Fields := fields },
       markGetWhere fields)

/-- The method `Table.listSQL`: `NotEmptyFields` pulls every field, and the
template marks the fields that are not empty. -/
def Table.listSQL (table : String) (fields : List Field) (options : ListOptions) :
    Except Error (Stmt × List Field) :=
  match ListSQL { TmplData.zero table with
          Fields := fields,
          NotEmpty := Table.NotEmptyFields fields,
          Options := options,
          Pk := Table.PkField fields,
          Count := options.Count } with
  | .error e => .error e
  | .ok stmt => .ok (stmt, markAll (fun f => !f.Empty.1) (fields.map (fun f => f.Empty.2)))

/-! ## Groups of the tags -/

/-- The rest of `s` after the leading `p`, when `s` starts with `p`. -/
def dropLeading : List Char → List Char → Option (List Char)
  | [], s => some s
  | _ :: _, [] => none
  | p :: ps, c :: cs => if p = c then dropLeading ps cs else none

/-- What stands before the last `)` of a run of characters, if it has one. -/
def beforeLastClose : List Char → Option (List Char)
  | [] => none
  | c :: cs =>
    match beforeLastClose cs with
    | some g => some (c :: g)
    | none => if c = ')' then some [] else none

/-- The greedy `(.+)(\))` at the start of `r`: the longest run of characters
other than a newline that ends before a `)`, and is not empty. -/
def greedyGroup (r : List Char) : Option (List Char) :=
  match beforeLastClose (r.takeWhile (fun c => c ≠ '\n')) with
  | some (c :: g) => some (c :: g)
  | _ => none

/-- The third submatch of the leftmost match of `(word)(\()(.+)(\))` in `s`,
as `FindStringSubmatch` returns it. -/
def findGroup (word : List Char) : List Char → Option (List Char)
  | [] => none
  | c :: cs =>
    match (dropLeading (word ++ ['(']) (c :: cs)).bind greedyGroup with
    | some g => some g
    | none => findGroup word cs

/-- The method `Field.Unique`: the groups of the options `unique(group)`. -/
def Field.Unique (f : Field) : List String :=
  (tagOptions f.Tag).filterMap (fun opt => (findGroup "unique".toList opt).map String.mk)

/-- Adds a field name to its group in the map `unique` of `Constraints`. -/
def addToGroup (group : String) (name : String) :
    List (String × List String) → List (String × List String)
  | [] => [(group, [name])]
  | (g, names) :: rest =>
    if g = group then (g, names ++ [name]) :: rest else (g, names) :: addToGroup group name rest

/-- The map `unique` that `Table.Constraints` collects: each group with the
names of the fields that declare it, in field order. (The groups are listed
here by first appearance; a Go `range` visits them in no fixed order.) -/
def uniqueGroups (fields : List Field) : List (String × List String) :=
  fields.foldl (fun m f => f.Unique.foldl (fun m g => addToGroup g f.Name m) m) []

/-! ## Schema generation -/

/-- The method `Field.Index`: the groups of the options `index(group)`. -/
def Field.Index (f : Field) : List String :=
  (tagOptions f.Tag).filterMap (fun opt => (findGroup "index".toList opt).map String.mk)

/-- The struct `FK`. -/
structure FK where
  Table : String
  Field : String
  deriving DecidableEq, Repr

/-- The rest of `(.+)(\()(.+)(\))` once the first group has taken a
character: the greedy group takes the next character too when the rest then
matches, and otherwise the next character must be the `(`. -/
def tableRest : List Char → Option (List Char × List Char)
  | [] => none
  | c :: cs =>
    match (if c = '\n' then none else tableRest cs) with
    | some (t, g) => some (c :: t, g)
    | none => if c = '(' then (greedyGroup cs).map (fun g => ([], g)) else none

/-- The pattern `(.+)(\()(.+)(\))` at the start of `r`: the second and the
fourth submatch of `FkRegex`. -/
def greedyPair : List Char → Option (List Char × List Char)
  | [] => none
  | c :: cs => if c = '\n' then none else (tableRest cs).map (fun p => (c :: p.1, p.2))

/-- The second and fourth submatch of the leftmost match of `FkRegex` in `s`,
as `FindStringSubmatch` returns them. -/
def findFk : List Char → Option (List Char × List Char)
  | [] => none
  | c :: cs =>
    match (dropLeading "fk:".toList (c :: cs)).bind greedyPair with
    | some p => some p
    | none => findFk cs

/-- The method `Field.Fk`: the foreign key of the first option that
`FkRegex` matches, or `nil`. -/
def Field.Fk (f : Field) : Option FK :=
  (tagOptions f.Tag).findSome? (fun opt =>
    (findFk opt).map (fun p => ⟨String.mk p.1, String.mk p.2⟩))

/-- The method `FK.DDL`. -/
def FK.DDL (fk : FK) (field : Model.Field) : String :=
  "FOREIGN KEY (" ++ field.Name ++ ") REFERENCES " ++ fk.Table ++ " (" ++ fk.Field ++
    ") ON DELETE CASCADE"

/-- The order in which a Go `range` visits the entries of a map. Go fixes
none: it is some rearrangement of the entries, and each `range` statement has
its own. -/
structure RangeOrder where
  visit : {α : Type} → List α → List α
  perm : ∀ {α : Type} (l : List α), (visit l).Perm l

/-- The method `Table.Constraints`: a `UNIQUE` constraint for every group of
the map `unique`, in the order the `range` visits them, then a foreign key
constraint for every field that has one. -/
def Table.Constraints (order : RangeOrder) (fields : List Field) : List String :=
  (order.visit (uniqueGroups fields)).map
      (fun g => "UNIQUE (" ++ String.intercalate "," g.2 ++ ")") ++
    fields.filterMap (fun f => f.Fk.map (fun fk => fk.DDL f))

/-- What a DDL template writes, kept with its structure: the text is
`DDLStmt.text`. -/
inductive DDLStmt where
  | table (name : String) (fields : List Field) (constraints : List String)
  | index (stem : String) (onTable : String) (fields : List Field)
  deriving DecidableEq

/-- The text of a DDL statement: the output of the templates `TableDDL` and
`IndexDDL`, with the white space that the trim markers leave. -/
def DDLStmt.text : DDLStmt → String
  | .table name fields constraints =>
    "\nCREATE TABLE IF NOT EXISTS " ++ name ++ " (\n" ++
      rangeLines "," (fields.map Field.DDL) ++ rangeRest "," constraints ++ ");\n"
  | .index stem onTable fields =>
    "\nCREATE INDEX IF NOT EXISTS " ++ stem ++ "Index\nON " ++ onTable ++ "\n(\n" ++
      rangeLines "," (fields.map (fun f => f.Name)) ++ ");\n"

/-- The template `TableDDL`. -/
def TableDDL (d : TmplData) : DDLStmt :=
  .table d.Table d.Fields d.Constraints

/-- The template `IndexDDL`. -/
def IndexDDL (d : TmplData) : DDLStmt :=
  .index d.Index d.Table d.Fields

/-- The loop of `Table.DDL` that validates the fields: the first error ends
it. -/
def validateAll : List Field → Except Error Unit
  | [] => .ok ()
  | f :: fs =>
    match f.Validate with
    | .error e => .error e
    | .ok () => validateAll fs

/-- Adds a field to its group in the map `indexes` of `DDL`. -/
def addToIndex (group : String) (f : Field) :
    List (String × List Field) → List (String × List Field)
  | [] => [(group, [f])]
  | (g, fs) :: rest =>
    if g = group then (g, fs ++ [f]) :: rest else (g, fs) :: addToIndex group f rest

/-- The map `indexes` that `Table.DDL` collects: each group with the fields
that declare it, in field order. (The groups are listed here by first
appearance; the `range` visits them in the order given to `Table.DDL`.) -/
def indexGroups (fields : List Field) : List (String × List Field) :=
  fields.foldl (fun m f => f.Index.foldl (fun m g => addToIndex g f m) m) []

/-- The method `Table.DDL`: the statement of the table, the index on the
natural keys when there is one, and an index for every group of the map
`indexes` in the order the `range` visits them. The two orders are those of the
`range` over `unique` in `Constraints` and over `indexes`. -/
def Table.DDL (uniqueOrder indexOrder : RangeOrder) (model : Any) :
    Except Error (List DDLStmt) :=
  match Table.Fields model with
  | .error e => .error e
  | .ok fields =>
    match validateAll fields with
    | .error e => .error e
    | .ok () =>
      let table := TableDDL { TmplData.zero (Table.Name model) with
        Constraints := Table.Constraints uniqueOrder fields,
        Fields := fields }
      let keyFields := Table.KeyFields fields
      let keyIndex :=
        if keyFields.length > 0 then
          [IndexDDL { TmplData.zero (Table.Name model) with
            Index := Table.Name model,
            Fields := keyFields }]
        else []
      let groups := (indexOrder.visit (indexGroups fields)).map (fun g =>
        IndexDDL { TmplData.zero (Table.Name model) with
          Index := Table.Name model ++ g.1,
          Fields := g.2 })
      .ok ([table] ++ keyIndex ++ groups)

/-! ## The backing store, as the gateway reaches it -/

/-- The interface `Row`: `Scan` is given the destinations and either fails
or answers with what it wrote into them, in the same order. -/
structure Row where
  Scan : List Cell → Except Error (List Cell)

/-- The cursor that `Query` returns: the rows that `Next` steps through, and
the error, if any, that ended the iteration early. -/
structure Cursor where
  rows : List Row
  err : Option Error

/-- The result of `Exec`, with its method `RowsAffected`. -/
structure Result where
  RowsAffected : Except Error Int

/-- The interface `DB` of the field `Table.Db`, over a store with states in
`σ`: `Exec` may change the store, the two queries read it. -/
structure DB (σ : Type) where
  Exec : Stmt → List NamedArg → σ → Except Error Result × σ
  QueryRow : Stmt → List NamedArg → σ → Row
  Query : Stmt → List NamedArg → σ → Except Error Cursor

/-- What `Scan` wrote through the pointer that `Ptr` gave: the staging cell of
the field's kind takes the value. -/
def Field.store (f : Field) (c : Cell) : Field :=
  match f.Value.Kind, c with
  | .string, .string s => { f with string := s }
  | .int, .int i => { f with int := i }
  | _, _ => f

/-- The staging cells after a successful `Scan`. -/
def storeAll : List Field → List Cell → List Field
  | [], _ => []
  | f :: fs, [] => f :: fs
  | f :: fs, c :: cs => f.store c :: storeAll fs cs

/-- The method `Table.scan`: pull every field, scan into the staging cells,
and push them into the record when the scan succeeded. Returns the error and
the fields as the call leaves them. -/
def Table.scan (row : Row) (fields : List Field) : Except Error Unit × List Field :=
  let pulled := fields.map (fun f => f.Pull.2)
  match row.Scan (pulled.map Field.Ptr) with
  | .error e => (.error e, pulled)
  | .ok cells => (.ok (), (storeAll pulled cells).map Field.Push)

/-- Modelled from the spec: the struct `Label` is declared outside `table.go`.
It has the four text fields that `InsertLabels` sets; the owner is found by
`Kind` and `Parent`, which are its natural keys, and it has no pk. It is not a
`Model` itself. -/
def labelDecl (Parent Kind Name Value : String) : GoFields :=
  .cons "Parent" "key" (.string Parent)
    (.cons "Kind" "key" (.string Kind)
      (.cons "Name" "" (.string Name)
        (.cons "Value" "" (.string Value) .nil)))

/-- A pointer to a `Label`, as `InsertLabels` and `DeleteLabels` build it. -/
def Label (Parent Kind Name Value : String) : Any :=
  .ptr (.struct "Label" (labelDecl Parent Kind Name Value)) none

/-- The tail of `Insert` once `Exec` returned without error; `insertLabels`
is the call `t.InsertLabels(m)`. -/
def insertDone {σ : Type} (insertLabels : String → ModelMethods → σ → Except Error Unit × σ)
    (model : Any) (r : Result) (s : σ) : Except Error Unit × σ :=
  match r.RowsAffected with
  | .error e => (.error e, s)
  | .ok nRows =>
    if nRows = 0 then (.ok (), s)
    else
      match model.asModel with
      | some m => insertLabels (Table.Name model) m s
      | none => (.ok (), s)

/-- The body of `Table.Insert`, with the calls `t.Update(model)` and
`t.InsertLabels(m)` passed in. -/
def Table.InsertWith {σ : Type} (db : DB σ)
    (update : Any → σ → Except Error Unit × σ)
    (insertLabels : String → ModelMethods → σ → Except Error Unit × σ)
    (model : Any) (s : σ) : Except Error Unit × σ :=
  match Table.Fields model with
  | .error e => (.error e, s)
  | .ok fields =>
    match Table.insertSQL (Table.Name model) fields with
    | .error e => (.error e, s)
    | .ok (stmt, fields) =>
      match db.Exec stmt (Table.Params fields) s with
      | (.error .constraint, s1) => update model s1
      | (.error e, s1) => (.error e, s1)
      | (.ok r, s1) => insertDone insertLabels model r s1

/-- The body of `Table.Update`, with the call `t.ReplaceLabels(m)` passed
in. -/
def Table.UpdateWith {σ : Type} (db : DB σ)
    (replaceLabels : String → ModelMethods → σ → Except Error Unit × σ)
    (model : Any) (s : σ) : Except Error Unit × σ :=
  match Table.Fields model with
  | .error e => (.error e, s)
  | .ok fields =>
    match Table.updateSQL (Table.Name model) fields with
    | .error e => (.error e, s)
    | .ok (stmt, fields) =>
      match db.Exec stmt (Table.Params fields) s with
      | (.error e, s1) => (.error e, s1)
      | (.ok r, s1) =>
        match r.RowsAffected with
        | .error e => (.error e, s1)
        | .ok nRows =>
          if nRows = 0 then (.error .noRows, s1)
          else
            match model.asModel with
            | some m => replaceLabels (Table.Name model) m s1
            | none => (.ok (), s1)

/-- The body of `Table.Delete`, with the call `t.DeleteLabels(m)` passed
in. -/
def Table.DeleteWith {σ : Type} (db : DB σ)
    (deleteLabels : String → ModelMethods → σ → Except Error Unit × σ)
    (model : Any) (s : σ) : Except Error Unit × σ :=
  match Table.Fields model with
  | .error e => (.error e, s)
  | .ok fields =>
    match Table.deleteSQL (Table.Name model) fields with
    | .error e => (.error e, s)
    | .ok (stmt, fields) =>
      match db.Exec stmt (Table.Params fields) s with
      | (.error e, s1) => (.error e, s1)
      | (.ok r, s1) =>
        match r.RowsAffected with
        | .error e => (.error e, s1)
        | .ok nRows =>
          if nRows = 0 then (.ok (), s1)
          else
            match model.asModel with
            | some m => deleteLabels (Table.Name model) m s1
            | none => (.ok (), s1)

/-- No label work: what the label calls come to for a record that is not a
`Model`, which never reaches them. -/
def noLabels {σ : Type} (_kind : String) (_m : ModelMethods) (s : σ) : Except Error Unit × σ :=
  (.ok (), s)

/-- The method `Table.Update` on a `Label` record. -/
def Table.UpdateLabel {σ : Type} (db : DB σ) (label : Any) (s : σ) : Except Error Unit × σ :=
  Table.UpdateWith db noLabels label s

/-- The method `Table.Insert` on a `Label` record. -/
def Table.InsertLabel {σ : Type} (db : DB σ) (label : Any) (s : σ) : Except Error Unit × σ :=
  Table.InsertWith db (Table.UpdateLabel db) noLabels label s

/-- The method `Table.Delete` on a `Label` record. -/
def Table.DeleteLabel {σ : Type} (db : DB σ) (label : Any) (s : σ) : Except Error Unit × σ :=
  Table.DeleteWith db noLabels label s

/-- The loop of `Table.InsertLabels` over the label mapping: it stops at the
first insert that fails. -/
def insertLabelsLoop {σ : Type} (db : DB σ) (kind : String) (parent : String) :
    List (String × String) → σ → Except Error Unit × σ
  | [], s => (.ok (), s)
  | (l, v) :: rest, s =>
    match Table.InsertLabel db (Label parent kind l v) s with
    | (.error e, s1) => (.error e, s1)
    | (.ok (), s1) => insertLabelsLoop db kind parent rest s1

/-- The method `Table.InsertLabels`; `kind` is `t.Name(model)`. -/
def Table.InsertLabels {σ : Type} (db : DB σ) (kind : String) (m : ModelMethods) (s : σ) :
    Except Error Unit × σ :=
  insertLabelsLoop db kind m.Pk m.Labels s

/-- The method `Table.DeleteLabels`. -/
def Table.DeleteLabels {σ : Type} (db : DB σ) (kind : String) (m : ModelMethods) (s : σ) :
    Except Error Unit × σ :=
  Table.DeleteLabel db (Label m.Pk kind "" "") s

/-- The method `Table.ReplaceLabels`. -/
def Table.ReplaceLabels {σ : Type} (db : DB σ) (kind : String) (m : ModelMethods) (s : σ) :
    Except Error Unit × σ :=
  match Table.DeleteLabels db kind m s with
  | (.error e, s1) => (.error e, s1)
  | (.ok (), s1) => Table.InsertLabels db kind m s1

/-- The method `Table.Update`. -/
def Table.Update {σ : Type} (db : DB σ) (model : Any) (s : σ) : Except Error Unit × σ :=
  Table.UpdateWith db (Table.ReplaceLabels db) model s

/-- The method `Table.Insert`. -/
def Table.Insert {σ : Type} (db : DB σ) (model : Any) (s : σ) : Except Error Unit × σ :=
  Table.InsertWith db (Table.Update db) (Table.InsertLabels db) model s

/-- The method `Table.Delete`. -/
def Table.Delete {σ : Type} (db : DB σ) (model : Any) (s : σ) : Except Error Unit × σ :=
  Table.DeleteWith db (Table.DeleteLabels db) model s

/-- The method `Table.Get`: the error, and the record's fields as the call
leaves them (none when `Fields` failed). -/
def Table.Get {σ : Type} (db : DB σ) (model : Any) (s : σ) : Except Error Unit × List Field :=
  match Table.Fields model with
  | .error e => (.error e, [])
  | .ok fields =>
    match Table.getSQL (Table.Name model) fields with
    | .error e => (.error e, fields)
    | .ok (stmt, fields) =>
      Table.scan (db.QueryRow stmt (Table.Params fields) s) fields

mutual
/-- The zero value of a value's type, as `reflect.New` makes it. -/
def GoValue.zero : GoValue → GoValue
  | .string _ => .string ""
  | .int _ => .int 0
  | .struct n fs => .struct n fs.zero
  | .other k => .other k
/-- The zero values of the declared fields. -/
def GoFields.zero : GoFields → GoFields
  | .nil => .nil
  | .cons name tag value rest => .cons name tag value.zero rest.zero
end

/-- The new record `reflect.New(mt.Elem())` that `List` scans a row into. -/
def Any.new : Any → Any
  | .ptr v m => .ptr v.zero m
  | .val v => .val v.zero

/-- The loop of `Table.List` over the cursor: each row is scanned into the
fields of a new record; the first scan error ends the call. -/
def listLoop (model : Any) : List Row → Except Error (List (List Field))
  | [] => .ok []
  | row :: rest =>
    let newFields := match Table.Fields model.new with
      | .ok fs => fs
      | .error _ => []
    match Table.scan row newFields with
    | (.error e, _) => .error e
    | (.ok (), scanned) =>
      match listLoop model rest with
      | .error e => .error e
      | .ok list => .ok (scanned :: list)

/-- The method `Table.List`: the records read, each as the fields of a new
record. -/
def Table.List {σ : Type} (db : DB σ) (model : Any) (options : ListOptions) (s : σ) :
    Except Error (List (List Field)) :=
  match Table.Fields model with
  | .error e => .error e
  | .ok fields =>
    match Table.listSQL (Table.Name model) fields options with
    | .error e => .error e
    | .ok (stmt, fields) =>
      match db.Query stmt (Table.Params fields) s with
      | .error e => .error e
      | .ok cursor => listLoop model cursor.rows

/-- The method `Table.Count`. -/
def Table.Count {σ : Type} (db : DB σ) (model : Any) (options : ListOptions) (s : σ) :
    Except Error Int :=
  match Table.Fields model with
  | .error e => .error e
  | .ok fields =>
    match Table.listSQL (Table.Name model) fields { options with Count := true } with
    | .error e => .error e
    | .ok (stmt, fields) =>
      match (db.QueryRow stmt (Table.Params fields) s).Scan [.int 0] with
      | .error e => .error e
      | .ok (.int n :: _) => .ok n
      | .ok _ => .ok 0

/-! ## A reference store

The store behind `DB` is SQLite, which is not part of the repository. The
definitions below give the statements of `Stmt` their meaning on tables held
as lists of rows, as far as the gateway relies on it: primary-key and `UNIQUE`
constraints, `WHERE` equalities, the label subquery, `ORDER BY` positions and
`LIMIT`/`OFFSET`. Identifiers are plain names. Foreign keys are not enforced.
A statement outside this fragment is answered with an engine error.

This store reads every name as a column name, visits the rows of a table in
the order of their insertion, and compares a key with the `Parent` of a label
as the values stand. What SQLite adds to that (a name that is a reserved word
is a syntax error, the order of the rows of a `SELECT` is the engine's choice,
an `INTEGER` key is compared with the text of `Parent` as a number) is in
`engine`, further down, which runs the same statements. -/

/-- A stored row: column name and value, in column order. -/
abbrev StoredRow := List (String × SqlValue)

/-- The declared type of a column. -/
inductive ColType where
  | TEXT
  | INTEGER
  | NONE
  deriving DecidableEq, Repr

/-- What `CREATE TABLE` declared: the columns, the primary-key column and
the `UNIQUE` groups. -/
structure Schema where
  columns : List (String × ColType)
  pk : Option String
  unique : List (List String)
  deriving DecidableEq, Repr

/-- A table: its schema and its rows in insertion order. -/
structure TableState where
  schema : Schema
  rows : List StoredRow
  deriving DecidableEq, Repr

/-- The store: the tables by name. -/
abbrev Store := String → Option TableState

/-- The store with table `name` replaced. -/
def Store.set (s : Store) (name : String) (t : TableState) : Store :=
  fun n => if n = name then some t else s n

/-- The column type that `Field.DDL` writes. -/
def Field.colType (f : Field) : ColType :=
  match f.Value.Kind with
  | .string => .TEXT
  | .int => .INTEGER
  | _ => .NONE

/-- The schema that the statement of `TableDDL` declares for the fields. -/
def schemaOf (fields : List Field) : Schema :=
  { columns := fields.map (fun f => (f.Name, f.colType)),
    pk := (Table.PkField fields).map (fun f => f.Name),
    unique := (uniqueGroups fields).map (fun g => g.2) }

/-- The value bound to a placeholder `:name`, if one is. -/
def lookupArg (args : List NamedArg) (placeholder : String) : Option SqlValue :=
  match args.find? (fun a => ":" ++ a.Name = placeholder) with
  | some a => a.Value
  | none => none

/-- Binds the placeholders of a list of (column, placeholder). -/
def bindAll (args : List NamedArg) : List (String × String) → Option (List (String × SqlValue))
  | [] => some []
  | (c, p) :: rest =>
    match lookupArg args p, bindAll args rest with
    | some v, some bound => some ((c, v) :: bound)
    | _, _ => none

/-- Whether a row satisfies every equality of a `WHERE` conjunction. -/
def rowMatches (cond : List (String × SqlValue)) (row : StoredRow) : Bool :=
  cond.all (fun c => row.lookup c.1 = some c.2)

/-- Whether two rows agree on every column of a group. -/
def agreeOn (group : List String) (r1 r2 : StoredRow) : Bool :=
  group.all (fun c => r1.lookup c = r2.lookup c)

/-- Whether two rows may not stand in one table: the same primary key, or
the same values on a `UNIQUE` group. -/
def conflict (schema : Schema) (r1 r2 : StoredRow) : Bool :=
  (match schema.pk with
   | some pk => r1.lookup pk = r2.lookup pk
   | none => false) ||
  schema.unique.any (fun g => agreeOn g r1 r2)

/-- Whether a row that the statement updated conflicts with another row of
the table; each row comes with whether it was updated. -/
def updateConflict (schema : Schema) : List (Bool × StoredRow) → Bool
  | [] => false
  | x :: rest =>
    rest.any (fun y => (x.1 || y.1) && conflict schema x.2 y.2) || updateConflict schema rest

/-- Whether every (column, _) names a column of the schema. -/
def knownColumns (schema : Schema) (cols : List String) : Bool :=
  cols.all (fun c => (schema.columns.map (fun x => x.1)).contains c)

/-- The row after `SET`: the assigned columns take the new values. -/
def setColumns (set : List (String × SqlValue)) (row : StoredRow) : StoredRow :=
  row.map (fun cv => match set.lookup cv.1 with
    | some v => (cv.1, v)
    | none => cv)

/-- The statement `INSERT`: the row is added unless it conflicts with a
stored row. -/
def sqliteInsert (t : TableState) (columns values : List String) (args : List NamedArg) :
    Except Error TableState :=
  if columns.isEmpty then .error (.engine "syntax error")
  else if columns ≠ t.schema.columns.map (fun x => x.1) ∨ columns.length ≠ values.length then
    .error (.engine "columns")
  else
    match bindAll args (columns.zip values) with
    | none => .error (.engine "parameter")
    | some row =>
      if t.rows.any (fun r => conflict t.schema r row) then .error .constraint
      else .ok { t with rows := t.rows ++ [row] }

/-- The statement `UPDATE`: the rows that match take the new values, unless
one of them then conflicts with another row; the number of rows that matched
is the number affected. -/
def sqliteUpdate (t : TableState) (set cond : List (String × String)) (args : List NamedArg) :
    Except Error (TableState × Int) :=
  if set.isEmpty || cond.isEmpty then .error (.engine "syntax error")
  else if !(knownColumns t.schema (set.map (fun x => x.1)) &&
            knownColumns t.schema (cond.map (fun x => x.1))) then
    .error (.engine "no such column")
  else
    match bindAll args set, bindAll args cond with
    | some set, some cond =>
      let rows := t.rows.map (fun r =>
        if rowMatches cond r then (true, setColumns set r) else (false, r))
      if updateConflict t.schema rows then .error .constraint
      else
        .ok ({ t with rows := rows.map (fun x => x.2) },
             ((t.rows.filter (rowMatches cond)).length : Int))
    | _, _ => .error (.engine "parameter")

/-- The statement `DELETE`: the rows that match are removed. -/
def sqliteDelete (t : TableState) (cond : List (String × String)) (args : List NamedArg) :
    Except Error (TableState × Int) :=
  if cond.isEmpty then .error (.engine "syntax error")
  else if !knownColumns t.schema (cond.map (fun x => x.1)) then
    .error (.engine "no such column")
  else
    match bindAll args cond with
    | some cond =>
      .ok ({ t with rows := t.rows.filter (fun r => !rowMatches cond r) },
           ((t.rows.filter (rowMatches cond)).length : Int))
    | none => .error (.engine "parameter")

/-- The method `Exec` of the reference store. The names of the statement are
not read against SQLite's reserved words; `engineExec` does that. -/
def sqliteExec (stmt : Stmt) (args : List NamedArg) (s : Store) : Except Error Result × Store :=
  match stmt with
  | .insert table columns values =>
    match s table with
    | none => (.error (.engine "no such table"), s)
    | some t =>
      match sqliteInsert t columns values args with
      | .error e => (.error e, s)
      | .ok t1 => (.ok ⟨.ok 1⟩, s.set table t1)
  | .update table set cond =>
    match s table with
    | none => (.error (.engine "no such table"), s)
    | some t =>
      match sqliteUpdate t set cond args with
      | .error e => (.error e, s)
      | .ok (t1, n) => (.ok ⟨.ok n⟩, s.set table t1)
  | .delete table cond =>
    match s table with
    | none => (.error (.engine "no such table"), s)
    | some t =>
      match sqliteDelete t cond args with
      | .error e => (.error e, s)
      | .ok (t1, n) => (.ok ⟨.ok n⟩, s.set table t1)
  | _ => (.error (.engine "not a statement to execute"), s)

/-- What `Scan` writes into one destination: a text into a string cell, an
integer into an int cell. (The conversions of `database/sql` between the two
are outside the model: the scan fails.) -/
def scanCell : SqlValue → Cell → Except Error Cell
  | .text s, .string _ => .ok (.string s)
  | .int i, .int _ => .ok (.int i)
  | _, _ => .error (.engine "unsupported Scan")

/-- Scans the values of a fetched row into the destinations, one each. -/
def scanValues : List SqlValue → List Cell → Except Error (List Cell)
  | [], [] => .ok []
  | v :: vs, d :: ds =>
    match scanCell v d, scanValues vs ds with
    | .ok c, .ok cs => .ok (c :: cs)
    | .error e, _ => .error e
    | _, .error e => .error e
  | _, _ => .error (.engine "wrong number of destination arguments")

/-- A fetched row. -/
def rowOf (vals : List SqlValue) : Row :=
  ⟨scanValues vals⟩

/-- The row of a query that failed or found nothing: `Scan` returns the
error. -/
def errRow (e : Error) : Row :=
  ⟨fun _ => .error e⟩

/-- The values of the selected columns of a stored row. -/
def projectRow (columns : List String) (row : StoredRow) : List SqlValue :=
  columns.filterMap (fun c => row.lookup c)

/-- The order of SQLite between two values: integers before text. -/
def SqlValue.le : SqlValue → SqlValue → Bool
  | .int a, .int b => decide (a ≤ b)
  | .int _, .text _ => true
  | .text _, .int _ => false
  | .text a, .text b => !decide (b < a)

/-- Whether row `a` may stand before row `b` under `ORDER BY` the 1-based
positions `keys`. -/
def rowLE : List Int → List SqlValue → List SqlValue → Bool
  | [], _, _ => true
  | k :: ks, a, b =>
    match a.get? (k - 1).toNat, b.get? (k - 1).toNat with
    | some x, some y =>
      if x = y then rowLE ks a b else SqlValue.le x y
    | _, _ => rowLE ks a b

/-- The rows in `ORDER BY` order; rows that compare equal keep their
order. -/
def sortRows (keys : List Int) (rows : List (List SqlValue)) : List (List SqlValue) :=
  rows.insertionSort (fun a b => rowLE keys a b = true)

/-- The window of `LIMIT` and `OFFSET`. -/
def pageRows (page : Option Page) (rows : List (List SqlValue)) : List (List SqlValue) :=
  match page with
  | none => rows
  | some p => (rows.drop p.Offset).take p.Limit

/-- The parents that `SELECT parent FROM Label WHERE kind = .. AND name = ..
AND value = ..` returns. -/
def labelParents (labelRows : List StoredRow) (kind : String) (l : String × String) :
    List SqlValue :=
  (labelRows.filter (fun r =>
      r.lookup "Kind" = some (.text kind) && r.lookup "Name" = some (.text l.1) &&
      r.lookup "Value" = some (.text l.2))).filterMap (fun r => r.lookup "Parent")

/-- Whether a row's key is in the `INTERSECT` of the parents of every label. -/
def inLabels (labelRows : List StoredRow) (kind : String) (pk : String)
    (labels : List (String × String)) (row : StoredRow) : Bool :=
  labels.all (fun l =>
    match row.lookup pk with
    | some v => (labelParents labelRows kind l).contains v
    | none => false)

/-- Whether a string has a single quote, which would end the literal it is
spliced into. -/
def hasQuote (s : String) : Bool :=
  s.toList.contains '\x27'

/-- The rows that the label block of a `SELECT` lets through. The subquery is
within the model when the key column is a `TEXT` column, the `Label` table
exists, and no spliced string has a quote. A key column of another type is
compared in `engineLabelFilter`. -/
def labelFilter (s : Store) (table : String) (t : TableState)
    (labels : Option (String × List (String × String))) :
    Except Error (StoredRow → Bool) :=
  match labels with
  | none => .ok (fun _ => true)
  | some (pk, labels) =>
    match s "Label" with
    | none => .error (.engine "no such table")
    | some lt =>
      if !(t.schema.columns.contains (pk, .TEXT)) then .error (.engine "key column")
      else if hasQuote table || labels.any (fun l => hasQuote l.1 || hasQuote l.2) then
        .error (.engine "quoted literal")
      else .ok (inLabels lt.rows table pk labels)

/-- The statement `SELECT` of `ListSQL`: the rows that match, as the
selected columns or as their count, ordered and cut to the page. The rows
are visited in the order of their insertion; `engineSelect` leaves that order
to the engine. -/
def sqliteSelect (s : Store) (table : String) (columns : Option (List String))
    (cond : List (String × String)) (labels : Option (String × List (String × String)))
    (sort : List Int) (page : Option Page) (args : List NamedArg) :
    Except Error (List (List SqlValue)) :=
  match s table with
  | none => .error (.engine "no such table")
  | some t =>
    if columns = some [] then .error (.engine "syntax error")
    else if !(knownColumns t.schema (columns.getD []) &&
              knownColumns t.schema (cond.map (fun x => x.1))) then
      .error (.engine "no such column")
    else
      match bindAll args cond, labelFilter s table t labels with
      | none, _ => .error (.engine "parameter")
      | _, .error e => .error e
      | some cond, .ok keep =>
        let found := t.rows.filter (fun r => rowMatches cond r && keep r)
        let out : List (List SqlValue) := match columns with
          | none => [[.int found.length]]
          | some cs => found.map (projectRow cs)
        let width : Int := match columns with
          | none => 1
          | some cs => cs.length
        if sort.all (fun k => decide (1 ≤ k ∧ k ≤ width)) then
          .ok (pageRows page (sortRows sort out))
        else .error (.engine "ORDER BY term out of range")

/-- The statement `SELECT` of `GetSQL`: the selected columns of the rows that
match. -/
def sqliteGet (s : Store) (table : String) (columns : List String)
    (cond : List (String × String)) (args : List NamedArg) :
    Except Error (List (List SqlValue)) :=
  if cond.isEmpty then .error (.engine "syntax error")
  else sqliteSelect s table (some columns) cond none [] none args

/-- The rows a query statement returns from the reference store. -/
def sqliteRows (stmt : Stmt) (args : List NamedArg) (s : Store) :
    Except Error (List (List SqlValue)) :=
  match stmt with
  | .get table columns cond => sqliteGet s table columns cond args
  | .list table columns cond labels sort page =>
    sqliteSelect s table columns cond labels sort page args
  | _ => .error (.engine "not a query")

/-- The method `QueryRow` of the reference store: the first row; an error or
no row shows at `Scan`. -/
def sqliteQueryRow (stmt : Stmt) (args : List NamedArg) (s : Store) : Row :=
  match sqliteRows stmt args s with
  | .error e => errRow e
  | .ok [] => errRow .noRows
  | .ok (r :: _) => rowOf r

/-- The method `Query` of the reference store. -/
def sqliteQuery (stmt : Stmt) (args : List NamedArg) (s : Store) : Except Error Cursor :=
  match sqliteRows stmt args s with
  | .error e => .error e
  | .ok rows => .ok ⟨rows.map rowOf, none⟩

/-- The reference store as a `DB`. -/
def sqlite : DB Store :=
  ⟨sqliteExec, sqliteQueryRow, sqliteQuery⟩

/-- The store with no table. -/
def Store.empty : Store :=
  fun _ => none

/-- The statement of `TableDDL` run on the store: `CREATE TABLE IF NOT EXISTS`
adds the empty table unless a table of that name exists. A table with no
column, with a column named twice or with two primary keys is refused. A
name that is a reserved word is refused by `engineCreate`. -/
def sqliteCreate (table : String) (fields : List Field) (s : Store) : Except Error Store :=
  if fields.isEmpty then .error (.engine "syntax error")
  else if !(fields.map (fun f => f.Name)).Nodup then .error (.engine "duplicate column name")
  else if 1 < (fields.filter Field.Pk).length then
    .error (.engine "more than one primary key")
  else
    match s table with
    | some _ => .ok s
    | none => .ok (s.set table ⟨schemaOf fields, []⟩)

/-! ## The vocabulary of the specification -/

/-- The text of the statement that a builder returned, if it returned one. -/
def stmtText (r : Except Error (Stmt × List Field)) : Option String :=
  match r with
  | .ok (stmt, _) => some stmt.text
  | .error _ => none

/-- Lines of a clause, one per line, each after the first led by `sep`
(a comma for a list, `AND ` for a conjunction). -/
def joinLines (sep : String) (lines : List String) : String :=
  if lines.isEmpty then "" else String.intercalate ("\n" ++ sep) lines ++ "\n"

/-- The equality `name = :name` of a column with its own placeholder. -/
def placeholderEq (name : String) : String :=
  name ++ " = :" ++ name

/-- The mutable descriptors: neither the pk nor tagged `const`. -/
def mutableDescriptors (fields : List Field) : List Field :=
  fields.filter (fun f => !f.hasOpt "pk" && !f.hasOpt "const")

/-- The equalities of all natural-key descriptors, in descriptor order. -/
def keyEqualities (fields : List Field) : List String :=
  (fields.filter (fun f => f.hasOpt "key")).map (fun f => placeholderEq f.Name)

/-- The `WHERE` policy of Update: the pk equality if a pk descriptor exists,
otherwise the natural-key equalities. -/
def wherePolicy (fields : List Field) : List String :=
  match fields.find? (fun f => f.hasOpt "pk") with
  | some pk => [placeholderEq pk.Name]
  | none => keyEqualities fields

/-- A descriptor whose current value is not empty: a text of non-zero
length, an int different from 0. -/
def Field.isSet (f : Field) : Bool :=
  match f.Value with
  | .string s => s.length != 0
  | .int i => i != 0
  | _ => false

/-- The `WHERE` policy that `GetSQL` follows: the pk equality if a pk
descriptor exists and its value is not empty, otherwise the natural-key
equalities. -/
def getWherePolicy (fields : List Field) : List String :=
  match fields.find? (fun f => f.hasOpt "pk") with
  | some pk => if pk.isSet then [placeholderEq pk.Name] else keyEqualities fields
  | none => keyEqualities fields

/-- A descriptor as `Fields` returns it: of kind string or int, nothing
staged, not marked as a parameter. -/
def Field.Fresh (f : Field) : Prop :=
  (f.Value.Kind = .string ∨ f.Value.Kind = .int) ∧ f.string = "" ∧ f.int = 0 ∧
    f.isParam = false

/-- The declared fields of the record type `Widget` of the specification's
scenario: `Id int pk`, `Group string key`, `Name string`. -/
def widgetDecl (Id : Int) (Group Name : String) : GoFields :=
  .cons "Id" "pk" (.int Id)
    (.cons "Group" "key" (.string Group)
      (.cons "Name" "" (.string Name) .nil))

/-- A pointer to a `Widget`. -/
def Widget (Id : Int) (Group Name : String) : Any :=
  .ptr (.struct "Widget" (widgetDecl Id Group Name)) none

/-- The descriptors of a `Widget`. -/
def widgetFields (Id : Int) (Group Name : String) : List Field :=
  [⟨.int Id, "pk", "Id", "", 0, false⟩, ⟨.string Group, "key", "Group", "", 0, false⟩,
   ⟨.string Name, "", "Name", "", 0, false⟩]

/-- The select list of the list statement: `COUNT(*)` when counting, else
every descriptor. -/
def selectList (count : Bool) (fields : List Field) : String :=
  if count then "COUNT(*)\n" else joinLines "," (fields.map (fun f => f.Name))

/-- The label block of the list statement: the key column must be `IN` the
parents selected for every label, the selections joined by `INTERSECT`; it is
led by `AND` when field equalities stand before it. -/
def labelBlock (table : String) (pk : String) (nSet : Nat) (labels : List (String × String)) :
    String :=
  if labels.isEmpty then ""
  else (if nSet = 0 then "" else "AND ") ++ pk ++ " IN\n(\n" ++
    joinLines "\nINTERSECT\n" (labels.map (labelSelect table)) ++ ")\n"

/-- The `ORDER BY` clause: the positions in the order given, or nothing for
an empty sort sequence. -/
def orderByClause (sort : List Int) : String :=
  if sort.isEmpty then "" else "ORDER BY\n" ++ joinLines "," (sort.map toString)

/-- The `LIMIT L OFFSET O` clause of a page, or nothing without a page. -/
def limitClause : Option Page → String
  | none => ""
  | some p => "LIMIT " ++ toString p.Limit ++ " OFFSET " ++ toString p.Offset ++ "\n"

/-- A stored row of the `Widget` table. -/
def widgetRow (Id : Int) (Group Name : String) : StoredRow :=
  [("Id", .int Id), ("Group", .text Group), ("Name", .text Name)]

/-- A store whose `Widget` table holds the given rows. -/
def widgetStore (rows : List StoredRow) : Store :=
  Store.empty.set "Widget" ⟨schemaOf (widgetFields 0 "" ""), rows⟩

/-- A store with three widgets. -/
def threeWidgets : Store :=
  widgetStore [widgetRow 1 "g1" "a", widgetRow 2 "g1" "b", widgetRow 3 "g2" "c"]

/-- The stored value of a descriptor's field (a descriptor of `Fields` is a
string or an int; no other kind reaches the store). -/
def Field.toSql (f : Field) : SqlValue :=
  match f.Value with
  | .int i => .int i
  | .string s => .text s
  | _ => .text ""

/-- The Go value that a stored value is scanned into. -/
def SqlValue.toGo : SqlValue → GoValue
  | .text s => .string s
  | .int i => .int i

/-- The row that holds a record: every descriptor's name with its value. -/
def recordRow (fields : List Field) : StoredRow :=
  fields.map (fun f => (f.Name, f.toSql))

/-- The named argument of a descriptor: its name bound to its value. -/
def Field.arg (f : Field) : NamedArg :=
  ⟨f.Name, some f.toSql⟩

/-- The descriptors that make a record's key: the pk, or for a type with no
pk field the natural keys. -/
def keyFields (fields : List Field) : List Field :=
  match fields.find? (fun f => f.hasOpt "pk") with
  | some pk => [pk]
  | none => fields.filter (fun f => f.hasOpt "key")

/-- A record's key: the key columns with the record's values. A row carries
the key when it matches it (`rowMatches`). -/
def keyCond (fields : List Field) : List (String × SqlValue) :=
  (keyFields fields).map (fun f => (f.Name, f.toSql))

/-- The shape of a descriptor: what its record type fixes. -/
def Field.shape (f : Field) : String × String × Kind :=
  (f.Name, f.Tag, f.Value.Kind)

/-- Whether a descriptor is a key descriptor of the list: it has the name
of the pk, or without a pk it is a natural key. -/
def isKeyField (fields : List Field) (f : Field) : Bool :=
  match fields.find? (fun f => f.hasOpt "pk") with
  | some pk => decide (f.Name = pk.Name)
  | none => f.hasOpt "key"

/-- The values that an update of the record assigns. -/
def assignments (fields : List Field) : List (String × SqlValue) :=
  (mutableDescriptors fields).map (fun f => (f.Name, f.toSql))

/-- The rows of a table through the update of a record, each with whether
it carries the record's key and so took its mutable values. -/
def taggedRows (fields : List Field) (rows : List StoredRow) : List (Bool × StoredRow) :=
  rows.map (fun r =>
    if rowMatches (keyCond fields) r then (true, setColumns (assignments fields) r)
    else (false, r))

/-- The rows of a table after the update of a record. -/
def updatedRows (fields : List Field) (rows : List StoredRow) : List StoredRow :=
  (taggedRows fields rows).map (fun x => x.2)

/-- The rows of a table that carry the key of a record. -/
def keyRows (fields : List Field) (rows : List StoredRow) : List StoredRow :=
  rows.filter (rowMatches (keyCond fields))

/-- The rows of a table after the delete of a record: those that do not carry
its key. -/
def remainingRows (fields : List Field) (rows : List StoredRow) : List StoredRow :=
  rows.filter (fun r => !rowMatches (keyCond fields) r)

/-- The table that a statement addresses. -/
def stmtTable : Stmt → String
  | .insert table _ _ => table
  | .update table _ _ => table
  | .delete table _ => table
  | .get table _ _ => table
  | .list table _ _ _ _ _ => table

/-- A store on which every statement succeeds and affects no row. -/
def idleDB : DB Unit :=
  ⟨fun _ _ s => (.ok ⟨.ok 0⟩, s), fun _ _ _ => errRow .noRows, fun _ _ _ => .ok ⟨[], none⟩⟩

/-- A store with one table of the generated schema of a record type, holding
the given rows. -/
def tableStore (n : String) (fs : GoFields) (rows : List StoredRow) : Store :=
  Store.empty.set n ⟨schemaOf fs.descriptors, rows⟩

/-- The destination cell that holds a scanned value. -/
def SqlValue.cell : SqlValue → Cell
  | .text s => .string s
  | .int i => .int i

/-- A descriptor after `scan` read the value into its staging cell and pushed
it into the record. -/
def Field.scanned (f : Field) (v : SqlValue) : Field :=
  (f.Pull.2.store v.cell).Push

/-- Whether a stored value is of the kind of the descriptor's field. -/
def Field.holds (f : Field) (v : SqlValue) : Prop :=
  f.Value.Kind = v.toGo.Kind

/-- The column that a descriptor of the given shape declares. -/
def shapeColumn (sh : String × String × Kind) : String × ColType :=
  (sh.1, match sh.2.2 with
    | .string => ColType.TEXT
    | .int => ColType.INTEGER
    | _ => ColType.NONE)

/-- The schema that the generated DDL declares for `Label`. -/
def labelSchema : Schema :=
  schemaOf (labelDecl "" "" "" "").descriptors

/-- The row of the `Label` table for one label of an entity. -/
def labelRow (parent kind : String) (l : String × String) : StoredRow :=
  [("Parent", .text parent), ("Kind", .text kind), ("Name", .text l.1), ("Value", .text l.2)]

/-- Whether a row of the `Label` table belongs to the entity of the given
kind and key. -/
def ownedBy (kind parent : String) (r : StoredRow) : Bool :=
  r.lookup "Kind" = some (.text kind) && r.lookup "Parent" = some (.text parent)

/-- The rows of the `Label` table that belong to an entity, in row order. -/
def labelRowsOf (s : Store) (kind parent : String) : List StoredRow :=
  match s "Label" with
  | none => []
  | some lt => lt.rows.filter (ownedBy kind parent)

/-- The declared fields of a record type with labels: `PK string pk`,
`Name string`. -/
def entDecl (PK Name : String) : GoFields :=
  .cons "PK" "pk" (.string PK) (.cons "Name" "" (.string Name) .nil)

/-- A pointer to an `Ent` whose `Pk()` is its pk field and whose labels are
the given mapping. -/
def Ent (PK Name : String) (labels : List (String × String)) : Any :=
  .ptr (.struct "Ent" (entDecl PK Name)) (some ⟨PK, labels⟩)

/-- A store with the `Ent` table and the `Label` table, both of the generated
schema, holding the given rows. -/
def entStore (ents labels : List StoredRow) : Store :=
  (tableStore "Ent" (entDecl "" "") ents).set "Label" ⟨labelSchema, labels⟩

/-- A `range` that visits the entries in the order they were first added. -/
def RangeOrder.added : RangeOrder :=
  ⟨fun l => l, fun _ => List.Perm.refl _⟩

/-- A `range` that visits the entries last added first. -/
def RangeOrder.reversed : RangeOrder :=
  ⟨fun l => l.reverse, fun l => List.reverse_perm l⟩

/-- The declared fields of a record type with a field of unsupported kind:
`Id int pk`, `Active bool`. -/
def flaggedDecl (Id : Int) : GoFields :=
  .cons "Id" "pk" (.int Id) (.cons "Active" "" (.other "bool") .nil)

/-- The leaf fields of a struct, in declaration order: a field that is itself a
struct stands for its own leaf fields, at its position; any other field is a
leaf, with its name, its tag and its value. -/
def GoFields.leaves : GoFields → List (String × String × GoValue)
  | .nil => []
  | .cons name tag value rest =>
    (match value with
     | .struct _ sub => sub.leaves
     | v => [(name, tag, v)]) ++ rest.leaves

/-- Whether a value is a text or an int. -/
def GoValue.supported (v : GoValue) : Bool :=
  v.Kind = .string || v.Kind = .int

/-- The declared fields of a record type with a nested record: `Id int pk`,
`Meta struct { Name string key; Rev int }`, `Note string`. -/
def nestedDecl (Id : Int) (Name : String) (Rev : Int) (Note : String) : GoFields :=
  .cons "Id" "pk" (.int Id)
    (.cons "Meta" "" (.struct "Meta"
        (.cons "Name" "key" (.string Name) (.cons "Rev" "" (.int Rev) .nil)))
      (.cons "Note" "" (.string Note) .nil))

/-- Pieces of text written one after the other with a comma between each
two. -/
def joinComma : List (List Char) → List Char
  | [] => []
  | [p] => p
  | p :: q :: rest => p ++ ',' :: joinComma (q :: rest)

/-- An option `o` is what is left of the piece `p` when the white space
around it is taken away. -/
def Trimmed (p o : List Char) : Prop :=
  ∃ pre post, p = pre ++ o ++ post ∧ (∀ c ∈ pre, isSpace c = true) ∧
    (∀ c ∈ post, isSpace c = true) ∧
    (∀ c, o.head? = some c → isSpace c = false) ∧
    (∀ c, o.getLast? = some c → isSpace c = false)

/-- The option holds the text `word(G)`, with a group `G` of at least one
character on one line. -/
def HasGroup (word opt G : List Char) : Prop :=
  ∃ pre post, opt = pre ++ word ++ '(' :: G ++ ')' :: post ∧ G ≠ [] ∧ '\n' ∉ G

/-- The option holds the text `fk:T(F)`, with `T` and `F` of at least one
character each on one line. -/
def HasFk (opt T F : List Char) : Prop :=
  ∃ pre post, opt = pre ++ "fk:".toList ++ T ++ '(' :: F ++ ')' :: post ∧
    T ≠ [] ∧ F ≠ [] ∧ '\n' ∉ T ∧ '\n' ∉ F

/-- The groups read off the options of a tag for the word `unique` or
`index`, in tag order: one group for each option that holds the text
`word(G)`, a group that the option holds so, and `G` itself for an option that
is `word(G)` and nothing else; no group for an option that holds no such
text. -/
def GroupsOf (word : List Char) (opts : List (List Char)) (groups : List String) : Prop :=
  ∃ picks : List (Option (List Char)),
    groups = picks.filterMap (fun p => p.map String.mk) ∧
    List.Forall₂ (fun opt pick =>
      (∀ G, pick = some G → HasGroup word opt G) ∧
      (pick = none → ¬ ∃ G, HasGroup word opt G) ∧
      (∀ G, opt = word ++ '(' :: G ++ [')'] → G ≠ [] → '\n' ∉ G → pick = some G)) opts picks

/-- Adds a value to its group, as the loops over `unique` and `indexes` do:
to the end of the group that has the name, or as a new group at the end. -/
def groupInto {α : Type} (group : String) (a : α) :
    List (String × List α) → List (String × List α)
  | [] => [(group, [a])]
  | (g, as) :: rest =>
    if g = group then (g, as ++ [a]) :: rest else (g, as) :: groupInto group a rest

/-- The values given to a group by a sequence of (group, value), in order. -/
def valuesOf {α : Type} (g : String) (entries : List (String × α)) : List α :=
  (entries.filter (fun e => e.1 = g)).map (fun e => e.2)

/-- What the loop has collected after the entries `es`: one group for each
name, with the values given to it, in order. -/
def Collected {α : Type} (m : List (String × List α)) (es : List (String × α)) : Prop :=
  (m.map (fun e => e.1)).Nodup ∧
  (∀ g, g ∈ m.map (fun e => e.1) ↔ g ∈ es.map (fun e => e.1)) ∧
  (∀ g as, (g, as) ∈ m → as = valuesOf g es)

/-- The (group, field name) pairs in the order the loop of `Constraints`
meets them. -/
def uniqueEntries (fields : List Field) : List (String × String) :=
  fields.flatMap (fun f => f.Unique.map (fun g => (g, f.Name)))

/-- The (group, field) pairs in the order the loop of `DDL` meets them. -/
def indexEntries (fields : List Field) : List (String × Field) :=
  fields.flatMap (fun f => f.Index.map (fun g => (g, f)))

/-- The column definition of a descriptor: its name, `TEXT` for a text field
and `INTEGER` for an int field, `PRIMARY KEY` for a primary key and `NOT NULL`
for any other. -/
def columnLine (f : Field) : String :=
  f.Name ++ (if f.Value.Kind = .string then " TEXT" else " INTEGER") ++
    (if f.Pk then " PRIMARY KEY" else " NOT NULL")

/-- The fields that declare a group, in field order; a field stands once for
each time its tag declares the group. -/
def declaring (groups : Field → List String) (g : String) (fields : List Field) : List Field :=
  fields.flatMap (fun f => List.replicate ((groups f).count g) f)

/-- The constraint lines as the statement of the table holds them: each led
by a comma, on a line of its own. -/
def constraintLines (constraints : List String) : String :=
  (constraints.map (fun c => "," ++ c ++ "\n")).foldr (fun a b => a ++ b) ""

/-- The declared fields of a record type with two unique groups, two index
groups, a foreign key and natural keys. -/
def demoDecl : GoFields :=
  .cons "Id" "pk" (.int 0)
    (.cons "A" "key,unique(a),index(x)" (.string "")
      (.cons "B" "unique(b),unique(a),index(y),fk:T(Id)" (.string "")
        (.cons "C" "key,index(x)" (.int 0) .nil)))

/-- The schema objects of the reference store: the tables, and the indexes
with their name, their table and their columns. Names of tables and names of
indexes are kept apart. -/
structure Catalog where
  tables : Store
  indexes : List (String × String × List String)

/-- A DDL statement run on the reference store. `CREATE TABLE IF NOT EXISTS`
is `sqliteCreate`; `CREATE INDEX IF NOT EXISTS` needs its table, does nothing
when an index of its name exists, and otherwise adds the index when the table
has its columns. -/
def sqliteDDL (stmt : DDLStmt) (c : Catalog) : Except Error Catalog :=
  match stmt with
  | .table name fields _ =>
    match sqliteCreate name fields c.tables with
    | .error e => .error e
    | .ok tables => .ok { c with tables := tables }
  | .index stem onTable fields =>
    if fields.isEmpty then .error (.engine "syntax error")
    else
      match c.tables onTable with
      | none => .error (.engine "no such table")
      | some t =>
        if c.indexes.any (fun i => i.1 = stem ++ "Index") then .ok c
        else if !knownColumns t.schema (fields.map (fun f => f.Name)) then
          .error (.engine "no such column")
        else .ok { c with
          indexes := c.indexes ++ [(stem ++ "Index", onTable, fields.map (fun f => f.Name))] }

/-- The statements run one after the other; the first error ends the run. -/
def applyDDL : List DDLStmt → Catalog → Except Error Catalog
  | [], c => .ok c
  | stmt :: rest, c =>
    match sqliteDDL stmt c with
    | .error e => .error e
    | .ok c1 => applyDDL rest c1

/-- Every table and every index of `c` is in `d` as it is in `c`. -/
def Catalog.within (c d : Catalog) : Prop :=
  (∀ name t, c.tables name = some t → d.tables name = some t) ∧
  (∀ i, i ∈ c.indexes → i ∈ d.indexes)

/-- The statements that DDL returns for the record type `Demo` when both maps
are ranged over in the given order. -/
def demoDDL (order : RangeOrder) : List DDLStmt :=
  match Table.DDL order order (.ptr (.struct "Demo" demoDecl) none) with
  | .ok stmts => stmts
  | .error _ => []

/-- The store of three widgets after the statements of `Demo` were run: the
table `Demo`, empty, and its three indexes. -/
def demoCatalog : Catalog :=
  ⟨threeWidgets.set "Demo" ⟨schemaOf demoDecl.descriptors, []⟩,
    [("DemoIndex", "Demo", ["A", "C"]), ("DemoxIndex", "Demo", ["A", "C"]),
     ("DemoyIndex", "Demo", ["B"])]⟩

/-- A store whose cursor steps through one row of `Widget` and then fails:
`Next` returns false and the cursor holds a disk error. -/
def failingCursorDB : DB Unit :=
  ⟨fun _ _ s => (.ok ⟨.ok 0⟩, s), fun _ _ _ => errRow .noRows,
    fun _ _ _ => .ok ⟨[rowOf [.int 1, .text "g1", .text "a"]], some (.engine "disk I/O error")⟩⟩

/-- The value of a field after the push of what the scan wrote into its
staging cell. -/
def Field.pushed (f : Field) (c : Cell) : GoValue :=
  match f.Value.Kind, c with
  | .string, .string s => .string s
  | .int, .int i => .int i
  | _, _ => f.Value

/-- The placeholders that a statement holds, in the order they are
written. -/
def Stmt.placeholders : Stmt → List String
  | .insert _ _ values => values
  | .update _ set cond => set.map (fun c => c.2) ++ cond.map (fun c => c.2)
  | .delete _ cond => cond.map (fun c => c.2)
  | .get _ _ cond => cond.map (fun c => c.2)
  | .list _ _ cond _ _ _ => cond.map (fun c => c.2)

/-- Whether a descriptor is a key descriptor for Get: it has the name of the
pk when there is a pk and its value is not empty, and otherwise it is a natural
key. -/
def isGetKeyField (fields : List Field) (f : Field) : Bool :=
  match fields.find? (fun f => f.hasOpt "pk") with
  | some pk => if pk.isSet then decide (f.Name = pk.Name) else f.hasOpt "key"
  | none => f.hasOpt "key"

/-- Modelled from the spec: the process-wide lock `Mutex` is declared outside
`table.go`, which calls `RLock` and `RUnlock` on it. What an operation does to
the lock and to the store is kept as a sequence of events: the lock taken on
its shared side, given back, and a statement executed. -/
inductive Event where
  | RLock
  | RUnlock
  | Exec (stmt : Stmt)
  deriving DecidableEq

/-- The events so far, oldest first. -/
abbrev Trace := List Event

/-- The store behind `DB` together with the trace: every `Exec` is recorded,
the queries read the store. -/
def recording {σ : Type} (db : DB σ) : DB (σ × Trace) :=
  ⟨fun stmt args s =>
      ((db.Exec stmt args s.1).1, ((db.Exec stmt args s.1).2, s.2 ++ [.Exec stmt])),
    fun stmt args s => db.QueryRow stmt args s.1,
    fun stmt args s => db.Query stmt args s.1⟩

/-- The lines `Mutex.RLock()` and `defer Mutex.RUnlock()` at the head of a
method: the lock is taken, the rest of the method runs, and the lock is given
back when the method returns. -/
def withRLock {σ α : Type} (body : σ × Trace → α × (σ × Trace)) (s : σ × Trace) :
    α × (σ × Trace) :=
  let r := body (s.1, s.2 ++ [.RLock])
  (r.1, (r.2.1, r.2.2 ++ [.RUnlock]))

/-- The method `Table.Update` on a `Label` record, with its calls on
`Mutex`. -/
def Table.UpdateLabelLocked {σ : Type} (db : DB σ) (label : Any) :
    σ × Trace → Except Error Unit × (σ × Trace) :=
  withRLock (Table.UpdateWith (recording db) noLabels label)

/-- The method `Table.Insert` on a `Label` record, with its calls on
`Mutex`. -/
def Table.InsertLabelLocked {σ : Type} (db : DB σ) (label : Any) :
    σ × Trace → Except Error Unit × (σ × Trace) :=
  withRLock (Table.InsertWith (recording db) (Table.UpdateLabelLocked db) noLabels label)

/-- The method `Table.Delete` on a `Label` record, with its calls on
`Mutex`. -/
def Table.DeleteLabelLocked {σ : Type} (db : DB σ) (label : Any) :
    σ × Trace → Except Error Unit × (σ × Trace) :=
  withRLock (Table.DeleteWith (recording db) noLabels label)

/-- The loop of `Table.InsertLabels`, over the methods with their calls on
`Mutex`. -/
def insertLabelsLoopLocked {σ : Type} (db : DB σ) (kind : String) (parent : String) :
    List (String × String) → σ × Trace → Except Error Unit × (σ × Trace)
  | [], s => (.ok (), s)
  | (l, v) :: rest, s =>
    match Table.InsertLabelLocked db (Label parent kind l v) s with
    | (.error e, s1) => (.error e, s1)
    | (.ok (), s1) => insertLabelsLoopLocked db kind parent rest s1

/-- The method `Table.InsertLabels`, which itself makes no call on
`Mutex`. -/
def Table.InsertLabelsLocked {σ : Type} (db : DB σ) (kind : String) (m : ModelMethods) :
    σ × Trace → Except Error Unit × (σ × Trace) :=
  insertLabelsLoopLocked db kind m.Pk m.Labels

/-- The method `Table.DeleteLabels`, which itself makes no call on
`Mutex`. -/
def Table.DeleteLabelsLocked {σ : Type} (db : DB σ) (kind : String) (m : ModelMethods) :
    σ × Trace → Except Error Unit × (σ × Trace) :=
  Table.DeleteLabelLocked db (Label m.Pk kind "" "")

/-- The method `Table.ReplaceLabels`, which itself makes no call on
`Mutex`. -/
def Table.ReplaceLabelsLocked {σ : Type} (db : DB σ) (kind : String) (m : ModelMethods)
    (s : σ × Trace) : Except Error Unit × (σ × Trace) :=
  match Table.DeleteLabelsLocked db kind m s with
  | (.error e, s1) => (.error e, s1)
  | (.ok (), s1) => Table.InsertLabelsLocked db kind m s1

/-- The method `Table.Update` with its calls on `Mutex`. -/
def Table.UpdateLocked {σ : Type} (db : DB σ) (model : Any) :
    σ × Trace → Except Error Unit × (σ × Trace) :=
  withRLock (Table.UpdateWith (recording db) (Table.ReplaceLabelsLocked db) model)

/-- The method `Table.Insert` with its calls on `Mutex`. -/
def Table.InsertLocked {σ : Type} (db : DB σ) (model : Any) :
    σ × Trace → Except Error Unit × (σ × Trace) :=
  withRLock (Table.InsertWith (recording db) (Table.UpdateLocked db)
    (Table.InsertLabelsLocked db) model)

/-- The method `Table.Delete` with its calls on `Mutex`. -/
def Table.DeleteLocked {σ : Type} (db : DB σ) (model : Any) :
    σ × Trace → Except Error Unit × (σ × Trace) :=
  withRLock (Table.DeleteWith (recording db) (Table.DeleteLabelsLocked db) model)

/-- Runs through a trace that starts with the lock held `d` times. The result
is the number of holds at the end, if throughout the trace the lock stays held:
no `RUnlock` gives back the last hold, and no statement is executed without a
hold. -/
def holds : Nat → Trace → Option Nat
  | d, [] => some d
  | d, .RLock :: rest => holds (d + 1) rest
  | d, .RUnlock :: rest => if d ≤ 1 then none else holds (d - 1) rest
  | d, .Exec _ :: rest => if d = 0 then none else holds d rest

/-- A trace that keeps the lock held whenever it starts with the lock held,
and ends with as many holds as it started with. -/
def Safe (ev : Trace) : Prop :=
  ∀ d, 1 ≤ d → holds d ev = some d

/-- The operation `op` with the calls on `Mutex` does to the store what
`plain` does, and adds a safe trace. -/
def Traces {σ : Type} (op : σ × Trace → Except Error Unit × (σ × Trace))
    (plain : σ → Except Error Unit × σ) : Prop :=
  ∀ s tr, (op (s, tr)).1 = (plain s).1 ∧ (op (s, tr)).2.1 = (plain s).2 ∧
    ∃ ev, (op (s, tr)).2.2 = tr ++ ev ∧ Safe ev

/-! ## Calls that may panic

`reflect` panics where the methods above are given no error to return: on the
nil interface, on a nested struct in a field that is not exported
(`Value.Interface`), and on the set of a field that is not exported
(`Value.SetString`, `Value.SetInt`). The functions named `...Call` are the
methods of `Table` with these outcomes. -/

/-- Whether a name is exported: Go's rule is that its first letter is upper
case (`unicode.IsUpper`), read here on the letters `A` to `Z`. -/
def exported (name : String) : Bool :=
  match name.toList with
  | c :: _ => c.isUpper
  | [] => false

/-- The descriptors of a record, as `Fields` returns them. -/
abbrev Descriptors := List Field

/-- The records that `List` returns, each as its descriptors. -/
abbrev Records := List (List Field)

/-- How a call ends: it returns, or it panics with a message. -/
inductive Outcome (α : Type) where
  | returned (a : α)
  | panicked (msg : String)
  deriving DecidableEq

/-- An `interface{}` argument as a caller can pass it: the nil interface, a
nil pointer (of a pointer type; `elem` is the zero value of the type pointed
to), or a value of `Any`. -/
inductive Input where
  | nil
  | nilPtr (elem : GoValue)
  | value (a : Any)
  deriving DecidableEq

/-- The panic of a method called on the nil `reflect.Type` that
`reflect.TypeOf(nil)` returns. -/
def nilDereference : String :=
  "runtime error: invalid memory address or nil pointer dereference"

/-- The panic of `reflect.Value.Interface` on a value reached through a field
that is not exported. -/
def unexportedInterface : String :=
  "reflect.Value.Interface: cannot return value obtained from unexported field or method"

/-- The panic of `reflect.Value.SetString` or `SetInt` on a value reached
through a field that is not exported. -/
def unexportedSet (method : String) : String :=
  "reflect: reflect.Value." ++ method ++ " using value obtained using unexported field"

/-- Whether the loop of `Table.Fields` meets, at any depth, a field of kind
struct that is not exported: there `fv.Addr().Interface()` panics. -/
def GoFields.sealed : GoFields → Bool
  | .nil => false
  | .cons name _ value rest =>
    (match value with
     | .struct _ sub => !exported name || sub.sealed
     | _ => false) || rest.sealed

/-- Whether `Table.Fields` panics on the argument. -/
def Any.sealed : Any → Bool
  | .ptr (.struct _ fs) _ => fs.sealed
  | _ => false

/-- The method `Table.Fields` as Go runs it on any argument. The method `Kind`
of the nil type of the nil interface panics; the element of a nil pointer is
the invalid value, which is no struct; `Interface()` panics on a struct field
that is not exported; and otherwise the call returns what `Table.Fields`
says. -/
def Table.FieldsCall (model : Input) : Outcome (Except Error Descriptors) :=
  match model with
  | .nil => .panicked nilDereference
  | .nilPtr _ => .returned (.error .mustBeObject)
  | .value a => if a.sealed then .panicked unexportedInterface else .returned (Table.Fields a)

/-- A method that begins with `t.Fields(model)` and returns its error: where
`Fields` panics so does the method, on a nil pointer it returns the error, and
otherwise its body runs. -/
def Table.entered {α : Type} (model : Input) (onError : Error → α) (body : Any → Outcome α) :
    Outcome α :=
  match model with
  | .nil => .panicked nilDereference
  | .nilPtr _ => .returned (onError .mustBeObject)
  | .value a => if a.sealed then .panicked unexportedInterface else body a

/-- The method `Table.Insert` as Go runs it on any argument. -/
def Table.InsertCall {σ : Type} (db : DB σ) (model : Input) (s : σ) :
    Outcome (Except Error Unit × σ) :=
  Table.entered model (fun e => (.error e, s)) (fun a => .returned (Table.Insert db a s))

/-- The method `Table.Update` as Go runs it on any argument. -/
def Table.UpdateCall {σ : Type} (db : DB σ) (model : Input) (s : σ) :
    Outcome (Except Error Unit × σ) :=
  Table.entered model (fun e => (.error e, s)) (fun a => .returned (Table.Update db a s))

/-- The method `Table.Delete` as Go runs it on any argument. -/
def Table.DeleteCall {σ : Type} (db : DB σ) (model : Input) (s : σ) :
    Outcome (Except Error Unit × σ) :=
  Table.entered model (fun e => (.error e, s)) (fun a => .returned (Table.Delete db a s))

/-- The method `Table.Count` as Go runs it on any argument: the count is
scanned into a variable of the method, not into the record. -/
def Table.CountCall {σ : Type} (db : DB σ) (model : Input) (options : ListOptions) (s : σ) :
    Outcome (Except Error Int) :=
  Table.entered model (fun e => .error e) (fun a => .returned (Table.Count db a options s))

/-- The method `Field.Push` as Go runs it: `SetString` and `SetInt` panic on a
field that is not exported. -/
def Field.PushCall (f : Field) : Outcome Field :=
  match f.Value.Kind with
  | .string => if exported f.Name then .returned f.Push else .panicked (unexportedSet "SetString")
  | .int => if exported f.Name then .returned f.Push else .panicked (unexportedSet "SetInt")
  | _ => .returned f.Push

/-- The loop of `Table.scan` that pushes every field; the first panic ends
it. -/
def pushAll : List Field → Outcome (List Field)
  | [] => .returned []
  | f :: fs =>
    match f.PushCall with
    | .panicked msg => .panicked msg
    | .returned g =>
      match pushAll fs with
      | .panicked msg => .panicked msg
      | .returned gs => .returned (g :: gs)

/-- The method `Table.scan` as Go runs it. -/
def Table.scanCall (row : Row) (fields : Descriptors) :
    Outcome (Except Error Unit × Descriptors) :=
  let pulled := fields.map (fun f => f.Pull.2)
  match row.Scan (pulled.map Field.Ptr) with
  | .error e => .returned (.error e, pulled)
  | .ok cells =>
    match pushAll (storeAll pulled cells) with
    | .panicked msg => .panicked msg
    | .returned pushed => .returned (.ok (), pushed)

/-- The method `Table.Get` as Go runs it on any argument. -/
def Table.GetCall {σ : Type} (db : DB σ) (model : Input) (s : σ) :
    Outcome (Except Error Unit × Descriptors) :=
  Table.entered model (fun e => (.error e, [])) (fun a =>
    match Table.Fields a with
    | .error e => .returned (.error e, [])
    | .ok fields =>
      match Table.getSQL (Table.Name a) fields with
      | .error e => .returned (.error e, fields)
      | .ok (stmt, fields) =>
        Table.scanCall (db.QueryRow stmt (Table.Params fields) s) fields)

/-- The loop of `Table.List` over the cursor as Go runs it. -/
def listLoopCall (model : Any) : List Row → Outcome (Except Error (List (List Field)))
  | [] => .returned (.ok [])
  | row :: rest =>
    let newFields := match Table.Fields model.new with
      | .ok fs => fs
      | .error _ => []
    match Table.scanCall row newFields with
    | .panicked msg => .panicked msg
    | .returned (.error e, _) => .returned (.error e)
    | .returned (.ok (), scanned) =>
      match listLoopCall model rest with
      | .panicked msg => .panicked msg
      | .returned (.error e) => .returned (.error e)
      | .returned (.ok list) => .returned (.ok (scanned :: list))

/-- The method `Table.List` as Go runs it on any argument. -/
def Table.ListCall {σ : Type} (db : DB σ) (model : Input) (options : ListOptions) (s : σ) :
    Outcome (Except Error Records) :=
  Table.entered model (fun e => .error e) (fun a =>
    match Table.Fields a with
    | .error e => .returned (.error e)
    | .ok fields =>
      match Table.listSQL (Table.Name a) fields options with
      | .error e => .returned (.error e)
      | .ok (stmt, fields) =>
        match db.Query stmt (Table.Params fields) s with
        | .error e => .returned (.error e)
        | .ok cursor => listLoopCall a cursor.rows)

/-- The declared fields of the record type `Gadget`: `Id int pk`,
`Team string key`, `Name string`. -/
def gadgetDecl (Id : Int) (Team Name : String) : GoFields :=
  .cons "Id" "pk" (.int Id)
    (.cons "Team" "key" (.string Team)
      (.cons "Name" "" (.string Name) .nil))

/-- A pointer to a `Gadget`. -/
def Gadget (Id : Int) (Team Name : String) : Any :=
  .ptr (.struct "Gadget" (gadgetDecl Id Team Name)) none

/-- The declared fields of a record type with a nested struct in a field that
is not exported: `Id int pk`, `meta struct { Name string }`. -/
def wrappedDecl (Id : Int) (Name : String) : GoFields :=
  .cons "Id" "pk" (.int Id)
    (.cons "meta" "" (.struct "Meta" (.cons "Name" "" (.string Name) .nil)) .nil)

/-! ## SQLite behind the gateway

The reference store with what SQLite adds to it: reserved words, the order in
which a `SELECT` visits the rows, and the comparison of an `INTEGER` key with
the text of a label's `Parent`. -/

/-- The code of a character, with the letters `A` to `Z` folded to lower case:
SQLite reads names and keywords without regard to case. -/
def foldCase (c : Char) : Nat :=
  if c.isUpper then c.toNat + 32 else c.toNat

/-- A name as SQLite compares it. -/
def foldName (name : String) : List Nat :=
  name.toList.map foldCase

/-- The keywords that the parser of SQLite does not take for a name: a table
or a column so named has to be written in quotes, which the templates do not
do. (The other keywords, such as `KEY`, fall back to a name.) -/
def reservedWords : List String :=
  ["add", "all", "alter", "and", "as", "autoincrement", "between", "case", "check", "collate",
   "commit", "constraint", "create", "default", "deferrable", "delete", "distinct", "drop",
   "else", "escape", "except", "exists", "foreign", "from", "group", "having", "in", "index",
   "insert", "intersect", "into", "is", "isnull", "join", "limit", "not", "nothing", "notnull",
   "null", "on", "or", "order", "primary", "references", "returning", "select", "set", "table",
   "then", "to", "transaction", "union", "unique", "update", "using", "values", "when", "where"]

/-- Whether a name is a reserved word of SQLite. -/
def isReserved (name : String) : Bool :=
  reservedWords.any (fun w => foldName w = foldName name)

/-- Whether SQLite reads the text, written without quotes, as one name: a
letter, an underscore or a character above ASCII, then letters, digits,
underscores, dollar signs and characters above ASCII, and no reserved word. -/
def isName (name : String) : Bool :=
  (match name.toList with
   | [] => false
   | c :: cs =>
     (c.isAlpha || c = '_' || 127 < c.toNat) &&
       cs.all (fun c => c.isAlphanum || c = '_' || c = '$' || 127 < c.toNat)) &&
    !isReserved name

/-- The names of tables and columns that a statement writes. -/
def Stmt.names : Stmt → List String
  | .insert table columns _ => table :: columns
  | .update table set cond => table :: (set.map (fun c => c.1) ++ cond.map (fun c => c.1))
  | .delete table cond => table :: cond.map (fun c => c.1)
  | .get table columns cond => table :: (columns ++ cond.map (fun c => c.1))
  | .list table columns cond labels _ _ =>
    table :: (columns.getD [] ++ cond.map (fun c => c.1) ++
      (match labels with
       | some (pk, _) => [pk]
       | none => []))

/-- What SQLite leaves open, or what lies outside the model, as parameters of
the store: the order in which a `SELECT` visits the rows it finds, some
rearrangement of them that may depend on the statement (SQLite follows the
rowid or an index of its choice); and the integer, if any, that SQLite reads a
text as when it compares the text with the value of an `INTEGER` column. -/
structure Engine where
  visit : Stmt → List StoredRow → List StoredRow
  perm : ∀ (stmt : Stmt) (rows : List StoredRow), (visit stmt rows).Perm rows
  numeric : String → Option Int

/-- The method `Exec` of SQLite: a statement that writes a name SQLite cannot
read is a syntax error, and any other does what `sqliteExec` says. -/
def engineExec (stmt : Stmt) (args : List NamedArg) (s : Store) : Except Error Result × Store :=
  if stmt.names.all isName then sqliteExec stmt args s
  else (.error (.engine "syntax error"), s)

/-- Whether SQLite finds the key equal to a parent of the subquery in
`pk IN (SELECT parent ...)`. The parent is a text; against a key column of type
`INTEGER` it is read as a number first. -/
def Engine.keyEq (e : Engine) (keyType : ColType) (key parent : SqlValue) : Bool :=
  match keyType, key, parent with
  | .INTEGER, .int i, .text p => e.numeric p = some i
  | _, k, p => k = p

/-- Whether SQLite finds the key of a row among the parents selected for
every label. -/
def keyInLabels (e : Engine) (labelRows : List StoredRow) (kind : String) (keyType : ColType)
    (pk : String) (labels : List (String × String)) (row : StoredRow) : Bool :=
  labels.all (fun l =>
    match row.lookup pk with
    | some key => (labelParents labelRows kind l).any (e.keyEq keyType key)
    | none => false)

/-- The rows that the label block of a `SELECT` lets through: those whose key
SQLite finds among the parents selected for every label. The subquery is within
the model when the `Label` table has its four columns and no spliced string has
a quote. -/
def engineLabelFilter (e : Engine) (s : Store) (table : String) (t : TableState)
    (labels : Option (String × List (String × String))) :
    Except Error (StoredRow → Bool) :=
  match labels with
  | none => .ok (fun _ => true)
  | some (pk, labels) =>
    match s "Label", t.schema.columns.lookup pk with
    | none, _ => .error (.engine "no such table")
    | _, none => .error (.engine "no such column")
    | some lt, some keyType =>
      if !knownColumns lt.schema ["Parent", "Kind", "Name", "Value"] then
        .error (.engine "no such column")
      else if hasQuote table || labels.any (fun l => hasQuote l.1 || hasQuote l.2) then
        .error (.engine "quoted literal")
      else .ok (keyInLabels e lt.rows table keyType pk labels)

/-- The rows a `SELECT` hands on before they are ordered and cut: the columns
of the rows found, or their count. -/
def selected (columns : Option (List String)) (found : List StoredRow) : List (List SqlValue) :=
  match columns with
  | none => [[.int found.length]]
  | some cs => found.map (projectRow cs)

/-- The number of columns a `SELECT` returns. -/
def selectWidth (columns : Option (List String)) : Int :=
  match columns with
  | none => 1
  | some cs => cs.length

/-- The statement `SELECT` of `ListSQL` on SQLite: the rows that match, in the
order the engine visits them, as the selected columns or as their count, then
ordered and cut to the page. -/
def engineSelect (e : Engine) (stmt : Stmt) (s : Store) (table : String)
    (columns : Option (List String)) (cond : List (String × String))
    (labels : Option (String × List (String × String)))
    (sort : List Int) (page : Option Page) (args : List NamedArg) :
    Except Error (List (List SqlValue)) :=
  match s table with
  | none => .error (.engine "no such table")
  | some t =>
    if columns = some [] then .error (.engine "syntax error")
    else if !(knownColumns t.schema (columns.getD []) &&
              knownColumns t.schema (cond.map (fun x => x.1))) then
      .error (.engine "no such column")
    else
      match bindAll args cond, engineLabelFilter e s table t labels with
      | none, _ => .error (.engine "parameter")
      | _, .error err => .error err
      | some cond, .ok keep =>
        let found := e.visit stmt (t.rows.filter (fun r => rowMatches cond r && keep r))
        if sort.all (fun k => decide (1 ≤ k ∧ k ≤ selectWidth columns)) then
          .ok (pageRows page (sortRows sort (selected columns found)))
        else .error (.engine "ORDER BY term out of range")

/-- The rows a query statement returns from SQLite. -/
def engineRows (e : Engine) (stmt : Stmt) (args : List NamedArg) (s : Store) :
    Except Error (List (List SqlValue)) :=
  if stmt.names.all isName then
    match stmt with
    | .get table columns cond =>
      if cond.isEmpty then .error (.engine "syntax error")
      else engineSelect e stmt s table (some columns) cond none [] none args
    | .list table columns cond labels sort page =>
      engineSelect e stmt s table columns cond labels sort page args
    | _ => .error (.engine "not a query")
  else .error (.engine "syntax error")

/-- The method `QueryRow` of SQLite: the first row; an error or no row shows
at `Scan`. -/
def engineQueryRow (e : Engine) (stmt : Stmt) (args : List NamedArg) (s : Store) : Row :=
  match engineRows e stmt args s with
  | .error err => errRow err
  | .ok [] => errRow .noRows
  | .ok (r :: _) => rowOf r

/-- The method `Query` of SQLite. -/
def engineQuery (e : Engine) (stmt : Stmt) (args : List NamedArg) (s : Store) :
    Except Error Cursor :=
  match engineRows e stmt args s with
  | .error err => .error err
  | .ok rows => .ok ⟨rows.map rowOf, none⟩

/-- SQLite as a `DB`: the reference store with SQLite's reading of names, its
freedom in the order of rows, and its comparison of keys. -/
def engine (e : Engine) : DB Store :=
  ⟨engineExec, engineQueryRow e, engineQuery e⟩

/-- An engine that visits the rows in the order they were inserted and reads
no text as a number. -/
def Engine.stored : Engine :=
  ⟨fun _ rows => rows, fun _ _ => List.Perm.refl _, fun _ => none⟩

/-- An engine that visits the rows last inserted first and reads the texts
`0` to `9` as numbers. -/
def Engine.backward : Engine :=
  ⟨fun _ rows => rows.reverse, fun _ rows => List.reverse_perm rows,
    fun p => (["0", "1", "2", "3", "4", "5", "6", "7", "8", "9"].indexOf? p).map
      (fun i => (i : Int))⟩

/-- Whether SQLite can read the name of the table and the names of the
columns of a record type. -/
def sqlNames (table : String) (fields : List Field) : Bool :=
  isName table && fields.all (fun f => isName f.Name)

/-- The statement of `TableDDL` run on SQLite: a name that SQLite cannot read
is a syntax error, two columns of one name (as SQLite compares names) are
refused, and otherwise `sqliteCreate` says what the statement does. -/
def engineCreate (table : String) (fields : List Field) (s : Store) : Except Error Store :=
  if !sqlNames table fields then .error (.engine "syntax error")
  else if !(fields.map (fun f => foldName f.Name)).Nodup then
    .error (.engine "duplicate column name")
  else sqliteCreate table fields s

/-- The table of a record type as the generated DDL creates it on SQLite: DDL
returns its statements for the type (no field of kind struct is hidden from
it), SQLite runs the statement of the table, and the store holds the table with
the schema that the statement declares. -/
def Generated (n : String) (fs : GoFields) (s : Store) (t : TableState) : Prop :=
  fs.sealed = false ∧
  (∃ s1, engineCreate n fs.descriptors Store.empty = .ok s1) ∧
  s n = some t ∧ t.schema = schemaOf fs.descriptors

/-- What a call returned, if it returned. -/
def Outcome.result {α : Type} : Outcome α → Option α
  | .returned a => some a
  | .panicked _ => none

/-- A stored row of the `Gadget` table. -/
def gadgetRow (Id : Int) (Team Name : String) : StoredRow :=
  [("Id", .int Id), ("Team", .text Team), ("Name", .text Name)]

/-- A store whose `Gadget` table, of the generated schema, holds the given
rows. -/
def gadgetStore (rows : List StoredRow) : Store :=
  tableStore "Gadget" (gadgetDecl 0 "" "") rows

/-- The declared fields of the record type `Duo`, which has no pk:
`Team string key`, `Name string`. -/
def duoDecl (Team Name : String) : GoFields :=
  .cons "Team" "key" (.string Team) (.cons "Name" "" (.string Name) .nil)

/-- A pointer to a `Duo`. -/
def Duo (Team Name : String) : Any :=
  .ptr (.struct "Duo" (duoDecl Team Name)) none

/-- A stored row of the `Duo` table. -/
def duoRow (Team Name : String) : StoredRow :=
  [("Team", .text Team), ("Name", .text Name)]

/-- The error of a result, if it is one. -/
def errorOf {α : Type} (r : Except Error α) : Option Error :=
  match r with
  | .ok _ => none
  | .error e => some e

/-- Whether a stored row keeps the record out of the table: it has the
record's pk, or the record's values on a `UNIQUE` group. -/
def collides (fields : List Field) (t : TableState) : Bool :=
  t.rows.any (fun r => conflict t.schema r (recordRow fields))

/-- A pointer to a `Tagged`, a record type with a natural key and no pk
(`Team string key`, `Name string`) that exposes labels; its `Pk()` is the
team. -/
def Tagged (Team Name : String) (labels : List (String × String)) : Any :=
  .ptr (.struct "Tagged" (duoDecl Team Name)) (some ⟨Team, labels⟩)

/-- A store with the `Tagged` table and the `Label` table, both of the
generated schema, holding the given rows. -/
def taggedStore (rows labels : List StoredRow) : Store :=
  (tableStore "Tagged" (duoDecl "" "") rows).set "Label" ⟨labelSchema, labels⟩

/-- Whether records stand in the order of `ORDER BY` with the 1-based
positions `keys`: each record may stand before every record after it, by
`rowLE` on the values of their fields. -/
def ordered (keys : List Int) (records : List (List Field)) : Prop :=
  records.Pairwise (fun a b => rowLE keys (a.map Field.toSql) (b.map Field.toSql) = true)

/-- The fields of a `Gadget` that a row was scanned into: the staging cells
hold what was pushed. -/
def scannedGadget (Id : Int) (Team Name : String) : List Field :=
  [⟨.int Id, "pk", "Id", "", Id, false⟩, ⟨.string Team, "key", "Team", Team, 0, false⟩,
   ⟨.string Name, "", "Name", Name, 0, false⟩]

/-- What `List` makes of the rows of a cursor: every row scanned into the
fields of a new record. -/
def recordsOf (newFields : List Field) (rows : List (List SqlValue)) : List (List Field) :=
  rows.map (fun vals => List.zipWith Field.scanned newFields vals)

/-! ## Theorems -/

theorem descriptors_fresh : ∀ (fs : GoFields) (f : Field), f ∈ fs.descriptors → f.Fresh
  | .nil, f, h => by simp [GoFields.descriptors] at h
  | .cons name tag (.struct _ sub) rest, f, h => by
    simp only [GoFields.descriptors, List.mem_append] at h
    rcases h with h | h
    · exact descriptors_fresh sub f h
    · exact descriptors_fresh rest f h
  | .cons name tag (.string s) rest, f, h => by
    simp only [GoFields.descriptors, List.mem_append, List.mem_singleton] at h
    rcases h with h | h
    · subst h; simp [Field.Fresh, GoValue.Kind]
    · exact descriptors_fresh rest f h
  | .cons name tag (.int s) rest, f, h => by
    simp only [GoFields.descriptors, List.mem_append, List.mem_singleton] at h
    rcases h with h | h
    · subst h; simp [Field.Fresh, GoValue.Kind]
    · exact descriptors_fresh rest f h
  | .cons name tag (.other s) rest, f, h => by
    simp only [GoFields.descriptors, List.mem_append] at h
    rcases h with h | h
    · simp at h
    · exact descriptors_fresh rest f h

theorem intercalate_go_append (sep : String) (l : List String) (a b : String) :
    String.intercalate.go (a ++ b) sep l = a ++ String.intercalate.go b sep l := by
  induction l generalizing b with
  | nil => simp [String.intercalate.go]
  | cons y l ih =>
    simp only [String.intercalate.go]
    rw [String.append_assoc, String.append_assoc, ih]
    simp [String.append_assoc]

theorem intercalate_cons_cons (sep a b : String) (l : List String) :
    String.intercalate sep (a :: b :: l) = a ++ sep ++ String.intercalate sep (b :: l) := by
  simp only [String.intercalate, String.intercalate.go]
  rw [intercalate_go_append]

theorem rangeRest_eq (sep x : String) (xs : List String) :
    x ++ "\n" ++ rangeRest sep xs = String.intercalate ("\n" ++ sep) (x :: xs) ++ "\n" := by
  induction xs generalizing x with
  | nil => simp [rangeRest, String.intercalate, String.intercalate.go]
  | cons y ys ih =>
    have h := ih y
    rw [intercalate_cons_cons, rangeRest]
    simp only [String.append_assoc] at h ⊢
    rw [← h]

theorem rangeLines_eq (sep : String) (l : List String) : rangeLines sep l = joinLines sep l := by
  cases l with
  | nil => simp [rangeLines, joinLines]
  | cons x xs => simp [rangeLines, joinLines, rangeRest_eq]

theorem eqLine_eqParam (f : Field) : eqLine f.eqParam = placeholderEq f.Name := by
  simp only [eqLine, Field.eqParam, Field.Param, placeholderEq, String.append_assoc]
  rfl

theorem map_eqLine_eqParam (l : List Field) :
    (l.map Field.eqParam).map eqLine = l.map (fun f => placeholderEq f.Name) := by
  simp [List.map_map, Function.comp_def, eqLine_eqParam]

theorem mutableFields_eq (fields : List Field) :
    Table.MutableFields fields = mutableDescriptors fields := by
  unfold Table.MutableFields mutableDescriptors
  congr 1
  funext f
  simp only [Field.Mutable, Field.Pk]
  by_cases h : f.hasOpt "pk" = true <;> simp [h]

theorem where_text (fields : List Field) (d : TmplData)
    (hk : d.Keys = Table.KeyFields fields) (hp : d.Pk = Table.PkField fields) :
    d.where.map eqLine = wherePolicy fields := by
  unfold TmplData.where wherePolicy
  rw [hp, hk]
  unfold Table.PkField
  have : (fun f : Field => f.Pk) = (fun f => f.hasOpt "pk") := by funext f; rfl
  rw [this]
  cases fields.find? (fun f => f.hasOpt "pk") with
  | some pk => simp [eqLine_eqParam]
  | none =>
    simp only [keyEqualities, Table.KeyFields, map_eqLine_eqParam]
    rfl

theorem empty_eq_not_isSet (f : Field) (h : f.Fresh) : f.Empty.1 = !f.isSet := by
  obtain ⟨hk, -⟩ := h
  unfold Field.Empty Field.Pull Field.isSet
  cases hv : f.Value <;> simp [hv, GoValue.Kind, bne] at hk ⊢

theorem pulled_name (f : Field) : f.Pull.2.Name = f.Name := by
  obtain ⟨v, tag, name, s, i, p⟩ := f
  cases v <;> rfl

theorem pulled_isParam (f : Field) : f.Pull.2.isParam = f.isParam := by
  obtain ⟨v, tag, name, s, i, p⟩ := f
  cases v <;> rfl

theorem pulled_empty (f : Field) : f.Empty.2.Empty.1 = f.Empty.1 := by
  unfold Field.Empty Field.Pull
  cases hv : f.Value <;> simp [hv, GoValue.Kind]

theorem emptied_eq_pulled (f : Field) : f.Empty.2 = f.Pull.2 := by
  unfold Field.Empty
  simp only
  split <;> rfl

theorem emptied_name (f : Field) : f.Empty.2.Name = f.Name := by
  rw [emptied_eq_pulled, pulled_name]

theorem notEmpty_conditions (fields : List Field) (hf : ∀ f ∈ fields, f.Fresh) :
    ((Table.NotEmptyFields fields).map Field.eqParam).map eqLine =
      (fields.filter Field.isSet).map (fun f => placeholderEq f.Name) := by
  unfold Table.NotEmptyFields
  rw [map_eqLine_eqParam]
  induction fields with
  | nil => rfl
  | cons f fs ih =>
    have hfr := hf f (List.mem_cons_self _ _)
    have ih' := ih (fun g hg => hf g (List.mem_cons_of_mem _ hg))
    simp only [List.map_cons, List.filter_cons, pulled_empty, empty_eq_not_isSet f hfr,
      Bool.not_not]
    cases f.isSet
    · simpa using ih'
    · simp only [if_true, List.map_cons, emptied_name]
      rw [ih']

theorem getWhere_text (fields : List Field) (hf : ∀ f ∈ fields, f.Fresh) (d : TmplData)
    (hk : d.Keys = Table.KeyFields fields) (hp : d.Pk = Table.PkField fields) :
    d.getWhere.map eqLine = getWherePolicy fields := by
  unfold TmplData.getWhere getWherePolicy
  rw [hp, hk]
  unfold Table.PkField
  have : (fun f : Field => f.Pk) = (fun f => f.hasOpt "pk") := by funext f; rfl
  rw [this]
  cases hfind : fields.find? (fun f => f.hasOpt "pk") with
  | some pk =>
    have hmem : pk ∈ fields := List.mem_of_find?_eq_some hfind
    simp only [empty_eq_not_isSet pk (hf pk hmem), Bool.not_not]
    have hkeys : ((List.filter (fun f => f.Key) fields).map Field.eqParam).map eqLine
        = List.map (fun f => placeholderEq f.Name)
            (List.filter (fun f => f.hasOpt "key") fields) := by
      rw [map_eqLine_eqParam]; rfl
    cases pk.isSet
    · simpa [keyEqualities, Table.KeyFields] using hkeys
    · simp [eqLine_eqParam]
  | none =>
    simp only [keyEqualities, Table.KeyFields, map_eqLine_eqParam]
    rfl

theorem listSQL_text (n : String) (fs : GoFields) (options : ListOptions) :
    stmtText (Table.listSQL n fs.descriptors options) =
      if options.Labels.isEmpty then
        some ("\nSELECT\n" ++ selectList options.Count fs.descriptors ++ "FROM " ++ n ++ "\n" ++
          (if (fs.descriptors.filter Field.isSet).isEmpty then "" else "WHERE\n") ++
          joinLines "AND "
            ((fs.descriptors.filter Field.isSet).map (fun f => placeholderEq f.Name)) ++
          orderByClause options.SortKeys ++ limitClause options.Page ++ ";\n")
      else
        (fs.descriptors.find? (fun f => f.hasOpt "pk")).map (fun pk =>
          "\nSELECT\n" ++ selectList options.Count fs.descriptors ++ "FROM " ++ n ++ "\n" ++
          "WHERE\n" ++
          joinLines "AND "
            ((fs.descriptors.filter Field.isSet).map (fun f => placeholderEq f.Name)) ++
          labelBlock n pk.Name (fs.descriptors.filter Field.isSet).length options.Labels ++
          orderByClause options.SortKeys ++ limitClause options.Page ++ ";\n") := by
  have hc := notEmpty_conditions fs.descriptors (descriptors_fresh fs)
  have hlen : (Table.NotEmptyFields fs.descriptors).length =
      (fs.descriptors.filter Field.isSet).length := by
    have := congrArg List.length hc
    simpa using this
  have hnil : (Table.NotEmptyFields fs.descriptors).isEmpty =
      (fs.descriptors.filter Field.isSet).isEmpty := by
    cases h1 : Table.NotEmptyFields fs.descriptors <;>
      cases h2 : fs.descriptors.filter Field.isSet <;> simp [h1, h2] at hlen ⊢
  have hpk : Table.PkField fs.descriptors = fs.descriptors.find? (fun f => f.hasOpt "pk") := rfl
  have hnil2 : (List.map Field.eqParam (Table.NotEmptyFields fs.descriptors)).isEmpty =
      (fs.descriptors.filter Field.isSet).isEmpty := by
    rw [← hnil]; cases Table.NotEmptyFields fs.descriptors <;> rfl
  obtain ⟨count, labels, page, sort⟩ := options
  unfold Table.listSQL ListSQL
  simp only [TmplData.Labels, TmplData.zero]
  cases hl : labels.isEmpty
  · simp only [Bool.false_eq_true, if_false]
    rw [hpk]
    cases hp : fs.descriptors.find? (fun f => f.hasOpt "pk") with
    | none => simp [stmtText]
    | some pk =>
      simp only [stmtText, Stmt.text, Option.map_some', rangeLines_eq, hc, labelText, labelBlock,
        hl, List.length_map, hlen, selectList, orderByText, orderByClause, limitText, hnil2]
      cases count <;> cases page <;> simp [limitClause]
  · simp only [if_true, stmtText, Stmt.text, rangeLines_eq, hc, labelText,
        List.length_map, hlen, selectList, orderByText, orderByClause, limitText, hnil2]
    cases count <;> cases page <;> simp [limitClause]

/-- C9: for every descriptor list, the UPDATE statement assigns `name = :name`
to exactly the mutable descriptors (neither pk nor `const`) in descriptor order,
its WHERE clause is the pk equality if a pk descriptor exists and otherwise the
AND-conjunction of the natural-key equalities, and the DELETE statement has the
same WHERE clause and no SET clause. -/
theorem update_delete_clauses (table : String) (fields : List Field) :
    stmtText (Table.updateSQL table fields) =
      some ("\nUPDATE " ++ table ++ "\nSET\n" ++
        joinLines "," ((mutableDescriptors fields).map (fun f => placeholderEq f.Name)) ++
        "WHERE\n" ++ joinLines "AND " (wherePolicy fields) ++ ";\n") ∧
    stmtText (Table.deleteSQL table fields) =
      some ("\nDELETE FROM " ++ table ++ "\nWHERE\n" ++
        joinLines "AND " (wherePolicy fields) ++ ";\n") := by
  constructor
  · simp only [stmtText, Table.updateSQL, UpdateSQL, Stmt.text, rangeLines_eq,
      map_eqLine_eqParam, mutableFields_eq]
    rw [where_text fields _ rfl rfl]
    rfl
  · simp only [stmtText, Table.deleteSQL, DeleteSQL, Stmt.text, rangeLines_eq]
    rw [where_text fields _ rfl rfl]
    rfl

/-- C10 (as amended): for every record, the GET statement selects all
descriptors in descriptor order, and its WHERE clause is the pk equality when a
pk field exists and its value is not empty, otherwise the conjunction of all
natural-key equalities; it is the WHERE clause of the UPDATE statement whenever
the record has no pk field or its pk value is not empty. -/
theorem get_clauses (n : String) (fs : GoFields) :
    stmtText (Table.getSQL n fs.descriptors) =
      some ("\nSELECT\n" ++ joinLines "," (fs.descriptors.map (fun f => f.Name)) ++
        "FROM " ++ n ++ "\nWHERE\n" ++
        joinLines "AND " (getWherePolicy fs.descriptors) ++ ";\n") ∧
    ((∀ pk, fs.descriptors.find? (fun f => f.hasOpt "pk") = some pk → pk.isSet = true) →
      getWherePolicy fs.descriptors = wherePolicy fs.descriptors) := by
  constructor
  · simp only [stmtText, Table.getSQL, GetSQL, Stmt.text, rangeLines_eq]
    rw [getWhere_text fs.descriptors (descriptors_fresh fs) _ rfl rfl]
    rfl
  · intro h
    unfold getWherePolicy wherePolicy
    cases hfind : fs.descriptors.find? (fun f => f.hasOpt "pk") with
    | some pk => simp [h pk hfind]
    | none => rfl

/-- C10, witness: a `Widget` with pk 1 has the WHERE clause of its UPDATE. -/
theorem get_clauses_witness :
    getWherePolicy (widgetFields 1 "g1" "a") = wherePolicy (widgetFields 1 "g1" "a") :=
  (get_clauses "Widget" (widgetDecl 1 "g1" "a")).2 (by decide)

/-- C10, counterexample: for the `Widget` with the empty pk 0 the GET
statement asks for the natural key `Group`, while the UPDATE statement asks for
the pk `Id`. -/
theorem get_where_differs :
    Table.Fields (Widget 0 "g1" "a") = .ok (widgetFields 0 "g1" "a") ∧
    stmtText (Table.getSQL "Widget" (widgetFields 0 "g1" "a")) =
      some "\nSELECT\nId\n,Group\n,Name\nFROM Widget\nWHERE\nGroup = :Group\n;\n" ∧
    stmtText (Table.updateSQL "Widget" (widgetFields 0 "g1" "a")) =
      some "\nUPDATE Widget\nSET\nGroup = :Group\n,Name = :Name\nWHERE\nId = :Id\n;\n" := by
  refine ⟨rfl, ?_, ?_⟩ <;> decide

theorem sortRows_nil (rows : List (List SqlValue)) : sortRows [] rows = rows := by
  unfold sortRows
  induction rows with
  | nil => rfl
  | cons r rs ih =>
    simp only [List.insertionSort, ih]
    cases rs with
    | nil => rfl
    | cons x xs => simp [List.orderedInsert, rowLE]

theorem knownColumns_schemaOf (fields : List Field) :
    knownColumns (schemaOf fields) (fields.map (fun f => f.Name)) = true := by
  unfold knownColumns schemaOf
  simp only [List.all_eq_true, List.mem_map, List.map_map, forall_exists_index, and_imp,
    forall_apply_eq_imp_iff₂]
  intro f hf
  simp only [List.contains_iff_exists_mem_beq, List.mem_map, Function.comp_apply]
  exact ⟨f.Name, ⟨f, hf, rfl⟩, by simp⟩

/-- C7: for every template record, the WHERE clause of the list or count
statement is the AND-conjunction of `name = :name` over exactly the descriptors
whose current value is not empty, in descriptor order (followed by the label
block when a label filter is given); with no such field and no label filter the
statement has no WHERE clause, and on the reference store it returns every row
of the table. -/
theorem list_by_example (n : String) (fs : GoFields) (options : ListOptions) :
    (options.Labels = [] →
      stmtText (Table.listSQL n fs.descriptors options) =
        some ("\nSELECT\n" ++ selectList options.Count fs.descriptors ++ "FROM " ++ n ++ "\n" ++
          (if (fs.descriptors.filter Field.isSet).isEmpty then ""
           else "WHERE\n" ++ joinLines "AND "
             ((fs.descriptors.filter Field.isSet).map (fun f => placeholderEq f.Name))) ++
          orderByClause options.SortKeys ++ limitClause options.Page ++ ";\n")) ∧
    (∀ text, stmtText (Table.listSQL n fs.descriptors options) = some text →
      ∃ rest, text =
        "\nSELECT\n" ++ selectList options.Count fs.descriptors ++ "FROM " ++ n ++ "\n" ++
          (if (fs.descriptors.filter Field.isSet).isEmpty ∧ options.Labels = [] then ""
           else "WHERE\n") ++
          joinLines "AND "
            ((fs.descriptors.filter Field.isSet).map (fun f => placeholderEq f.Name)) ++ rest) ∧
    (∀ (s : Store) (t : TableState), s n = some t → t.schema = schemaOf fs.descriptors →
      fs.descriptors ≠ [] → fs.descriptors.filter Field.isSet = [] →
      ∃ stmt fields', Table.listSQL n fs.descriptors ListOptions.none = .ok (stmt, fields') ∧
        sqliteRows stmt (Table.Params fields') s =
          .ok (t.rows.map (projectRow (fs.descriptors.map (fun f => f.Name))))) := by
  refine ⟨?_, ?_, ?_⟩
  · intro hl
    rw [listSQL_text]
    simp only [hl, List.isEmpty_nil, if_true]
    by_cases hs : (fs.descriptors.filter Field.isSet).isEmpty = true
    · have : fs.descriptors.filter Field.isSet = [] := List.isEmpty_iff.mp hs
      simp [this, joinLines]
    · simp only [hs, String.append_assoc, if_false, Bool.false_eq_true]
  · intro text h
    rw [listSQL_text] at h
    by_cases hl : options.Labels.isEmpty = true
    · have hl' : options.Labels = [] := List.isEmpty_iff.mp hl
      simp only [hl, if_true, Option.some.injEq] at h
      refine ⟨orderByClause options.SortKeys ++ limitClause options.Page ++ ";\n", ?_⟩
      rw [← h]
      simp [hl', String.append_assoc]
    · have hl' : options.Labels ≠ [] := fun hh => hl (by simp [hh])
      simp only [hl, if_false, Bool.false_eq_true] at h
      cases hp : fs.descriptors.find? (fun f => f.hasOpt "pk") with
      | none => simp [hp] at h
      | some pk =>
        simp only [hp, Option.map_some', Option.some.injEq] at h
        refine ⟨labelBlock n pk.Name (fs.descriptors.filter Field.isSet).length options.Labels ++
          orderByClause options.SortKeys ++ limitClause options.Page ++ ";\n", ?_⟩
        rw [← h]
        simp [hl', String.append_assoc]
  · intro s t hs hschema hne hset
    have hnot : Table.NotEmptyFields fs.descriptors = [] := by
      have := notEmpty_conditions fs.descriptors (descriptors_fresh fs)
      rw [hset] at this
      simpa using this
    refine ⟨.list n (some (fs.descriptors.map (fun f => f.Name))) [] none [] none,
      markAll (fun f => !f.Empty.1) (fs.descriptors.map (fun f => f.Empty.2)), ?_, ?_⟩
    · unfold Table.listSQL ListSQL
      simp [TmplData.Labels, TmplData.zero, ListOptions.none, hnot]
    · simp only [sqliteRows, sqliteSelect, hs, hnot, ListOptions.none]
      have hcols : (List.map (fun f => f.Name) fs.descriptors) ≠ [] := by
        simpa using hne
      have hk2 : ∀ sch : Schema, knownColumns sch [] = true := fun _ => rfl
      simp [hcols, hschema, knownColumns_schemaOf, hk2, bindAll, labelFilter, rowMatches,
        sortRows_nil, pageRows]

/-- C7, witness: listing with the zero `Widget` returns the three stored
rows. -/
theorem list_by_example_witness :
    ∃ stmt fields',
      Table.listSQL "Widget" (widgetDecl 0 "" "").descriptors ListOptions.none =
        .ok (stmt, fields') ∧
      sqliteRows stmt (Table.Params fields') threeWidgets =
        .ok [[.int 1, .text "g1", .text "a"], [.int 2, .text "g1", .text "b"],
             [.int 3, .text "g2", .text "c"]] :=
  (list_by_example "Widget" (widgetDecl 0 "" "") ListOptions.none).2.2 threeWidgets
    ⟨schemaOf (widgetFields 0 "" ""),
      [widgetRow 1 "g1" "a", widgetRow 2 "g1" "b", widgetRow 3 "g2" "c"]⟩
    (by decide) (by decide) (by decide) (by decide)

theorem sqliteSelect_page (s : Store) (table : String) (columns : Option (List String))
    (cond : List (String × String)) (labels : Option (String × List (String × String)))
    (sort : List Int) (p : Page) (args : List NamedArg) :
    sqliteSelect s table columns cond labels sort (some p) args =
      match sqliteSelect s table columns cond labels sort none args with
      | .error e => .error e
      | .ok rows => .ok ((rows.drop p.Offset).take p.Limit) := by
  unfold sqliteSelect
  cases s table with
  | none => rfl
  | some t =>
    simp only
    split
    · rfl
    · split
      · rfl
      · split
        · rfl
        · rfl
        · split <;> rfl

theorem listLoop_drop (model : Any) (k : Nat) : ∀ (rows : List Row) (full : List (List Field)),
    listLoop model rows = .ok full → listLoop model (rows.drop k) = .ok (full.drop k) := by
  induction k with
  | zero => intro rows full h; simpa using h
  | succ k ih =>
    intro rows full h
    cases rows with
    | nil => simp [listLoop] at h; subst h; simp [listLoop]
    | cons row rest =>
      simp only [listLoop] at h
      split at h
      · cases h
      · split at h
        · cases h
        · rename_i list hrest
          injection h with h
          subst h
          simpa using ih rest list hrest

theorem listLoop_take (model : Any) (k : Nat) : ∀ (rows : List Row) (full : List (List Field)),
    listLoop model rows = .ok full → listLoop model (rows.take k) = .ok (full.take k) := by
  induction k with
  | zero => intro rows full h; simp [listLoop]
  | succ k ih =>
    intro rows full h
    cases rows with
    | nil => simp [listLoop] at h; subst h; simp [listLoop]
    | cons row rest =>
      simp only [listLoop] at h
      split at h
      · cases h
      · split at h
        · cases h
        · rename_i u hscan _ list hrest
          injection h with h
          subst h
          simp only [List.take_succ_cons, listLoop, hscan, ih rest list hrest]

theorem listSQL_page (n : String) (fields : List Field) (count : Bool)
    (labels : List (String × String)) (sort : List Int) (p : Page) :
    Table.listSQL n fields ⟨count, labels, some p, sort⟩ =
      match Table.listSQL n fields ⟨count, labels, none, sort⟩ with
      | .error e => .error e
      | .ok (.list t cols cond lab srt _, fields') => .ok (.list t cols cond lab srt (some p), fields')
      | .ok r => .ok r := by
  unfold Table.listSQL ListSQL
  simp only [TmplData.Labels, TmplData.zero]
  by_cases hl : labels.isEmpty = true
  · simp only [hl, if_true]
  · simp only [hl, if_false, Bool.false_eq_true]
    cases Table.PkField fields <;> rfl

theorem listSQL_shape (n : String) (fields : List Field) (count : Bool)
    (labels : List (String × String)) (sort : List Int) (page : Option Page)
    (stmt : Stmt) (fields' : List Field)
    (h : Table.listSQL n fields ⟨count, labels, page, sort⟩ = .ok (stmt, fields')) :
    ∃ cols cond lab, stmt = .list n cols cond lab sort page := by
  unfold Table.listSQL ListSQL at h
  simp only [TmplData.Labels, TmplData.zero] at h
  by_cases hl : labels.isEmpty = true
  · simp only [hl, if_true] at h
    injection h with h; injection h with h
    exact ⟨_, _, _, h.symm⟩
  · simp only [hl, if_false, Bool.false_eq_true] at h
    cases hpk : Table.PkField fields <;> rw [hpk] at h
    · cases h
    · injection h with h; injection h with h
      exact ⟨_, _, _, h.symm⟩

theorem list_order_and_page_plain (n : String) (fs : GoFields) (m : Option ModelMethods)
    (count : Bool) (labels : List (String × String)) :
    (∃ body : Option String, ∀ (sort : List Int) (page : Option Page),
      stmtText (Table.listSQL n fs.descriptors ⟨count, labels, page, sort⟩) =
        body.map (fun b => b ++ orderByClause sort ++ limitClause page ++ ";\n")) ∧
    (∀ (s : Store) (sort : List Int) (L O : Nat) (full : List (List Field)),
      Table.List sqlite (.ptr (.struct n fs) m) ⟨count, labels, none, sort⟩ s = .ok full →
      Table.List sqlite (.ptr (.struct n fs) m) ⟨count, labels, some ⟨L, O⟩, sort⟩ s =
          .ok ((full.drop O).take L) ∧
        ((full.drop O).take L).length ≤ L) := by
  constructor
  · by_cases hl : labels.isEmpty = true
    · refine ⟨some ("\nSELECT\n" ++ selectList count fs.descriptors ++ "FROM " ++ n ++ "\n" ++
          (if (fs.descriptors.filter Field.isSet).isEmpty then "" else "WHERE\n") ++
          joinLines "AND "
            ((fs.descriptors.filter Field.isSet).map (fun f => placeholderEq f.Name))), ?_⟩
      intro sort page
      rw [listSQL_text]
      simp [hl, String.append_assoc]
    · refine ⟨(fs.descriptors.find? (fun f => f.hasOpt "pk")).map (fun pk =>
          "\nSELECT\n" ++ selectList count fs.descriptors ++ "FROM " ++ n ++ "\n" ++
          "WHERE\n" ++
          joinLines "AND "
            ((fs.descriptors.filter Field.isSet).map (fun f => placeholderEq f.Name)) ++
          labelBlock n pk.Name (fs.descriptors.filter Field.isSet).length labels), ?_⟩
      intro sort page
      rw [listSQL_text]
      simp only [hl, if_false, Bool.false_eq_true]
      cases fs.descriptors.find? (fun f => f.hasOpt "pk") <;> simp [String.append_assoc]
  · intro s sort L O full h
    refine ⟨?_, by simp [List.length_take]⟩
    unfold Table.List at h ⊢
    simp only [Table.Fields] at h ⊢
    rw [listSQL_page]
    revert h
    cases hq : Table.listSQL (Table.Name (Any.ptr (GoValue.struct n fs) m)) fs.descriptors
        ⟨count, labels, none, sort⟩ with
    | error e => intro h; cases h
    | ok r =>
      obtain ⟨stmt, fields'⟩ := r
      obtain ⟨cols, cond, lab, hstmt⟩ := listSQL_shape _ _ _ _ _ _ _ _ hq
      subst hstmt
      simp only [sqlite, sqliteQuery, sqliteRows]
      rw [sqliteSelect_page]
      cases hsel : sqliteSelect s _ cols cond lab sort none (Table.Params fields') with
      | error e => intro h; cases h
      | ok rows =>
        simp only
        intro h
        have := listLoop_take _ L _ _ (listLoop_drop _ O _ _ h)
        simpa [List.map_take, List.map_drop] using this

theorem fresh_pull (f : Field) (h : f.Fresh) : f.Pull.1 = some f.toSql := by
  obtain ⟨hk, -⟩ := h
  obtain ⟨v, tag, name, s, i, p⟩ := f
  cases v <;> simp [GoValue.Kind] at hk <;> rfl

theorem mark_name (f : Field) : f.mark.Name = f.Name := rfl
theorem mark_isParam (f : Field) : f.mark.isParam = true := rfl
theorem mark_pull (f : Field) : f.mark.Pull.1 = f.Pull.1 := by
  obtain ⟨v, tag, name, s, i, p⟩ := f
  cases v <;> rfl

theorem colon_inj (a b : String) (h : ":" ++ a = ":" ++ b) : a = b := by
  have := congrArg String.data h
  simp only [String.data_append] at this
  exact String.ext (List.append_cancel_left this)

/-- The arguments that `Params` builds from a list in which exactly the fresh
descriptors selected by `q` are marked. -/
theorem params_markAll (q : Field → Bool) (fields : List Field) (hf : ∀ f ∈ fields, f.Fresh) :
    Table.Params (markAll q fields) = (fields.filter q).map Field.arg := by
  unfold Table.Params markAll
  induction fields with
  | nil => rfl
  | cons f fs ih =>
    have hfr := hf f (List.mem_cons_self _ _)
    have ih' := ih (fun g hg => hf g (List.mem_cons_of_mem _ hg))
    simp only [List.map_cons, List.filter_cons]
    by_cases hq : q f = true
    · simp only [hq, if_true, mark_isParam, List.map_cons, ih', mark_name, mark_pull,
        fresh_pull f hfr, Field.arg]
    · have hp : f.isParam = false := hfr.2.2.2
      simp only [hq, if_false, hp, Bool.false_eq_true, ih']

theorem lookupArg_args (fields : List Field) (hnd : (fields.map (fun f => f.Name)).Nodup)
    (f : Field) (hf : f ∈ fields) :
    lookupArg (fields.map Field.arg) (":" ++ f.Name) = some f.toSql := by
  induction fields with
  | nil => cases hf
  | cons g gs ih =>
    simp only [List.map_cons, List.nodup_cons, List.mem_map, not_exists, not_and] at hnd
    unfold lookupArg
    simp only [List.map_cons, List.find?_cons]
    by_cases hg : g.Name = f.Name
    · have : f = g := by
        rcases List.mem_cons.mp hf with h | h
        · exact h
        · exact absurd hg.symm (hnd.1 f h)
      subst this
      simp [Field.arg]
    · have hne : ¬ (":" ++ (Field.arg g).Name = ":" ++ f.Name) := fun h => hg (colon_inj _ _ h)
      simp only [hne, decide_False]
      have hfm : f ∈ gs := by
        rcases List.mem_cons.mp hf with h | h
        · exact absurd (by rw [h]) hg
        · exact h
      have := ih hnd.2 hfm
      unfold lookupArg at this
      exact this

theorem bindAll_args (args : List NamedArg) (sel : List Field)
    (h : ∀ f ∈ sel, lookupArg args (":" ++ f.Name) = some f.toSql) :
    bindAll args (sel.map Field.eqParam) = some (sel.map (fun f => (f.Name, f.toSql))) := by
  induction sel with
  | nil => rfl
  | cons f fs ih =>
    simp only [List.map_cons, bindAll, Field.eqParam, Field.Param]
    rw [h f (List.mem_cons_self _ _)]
    have := ih (fun g hg => h g (List.mem_cons_of_mem _ hg))
    simp only [Field.eqParam, Field.Param] at this
    rw [this]

theorem markAll_names (q : Field → Bool) (fields : List Field) :
    (markAll q fields).map (fun f => f.Name) = fields.map (fun f => f.Name) := by
  unfold markAll
  rw [List.map_map]
  apply List.map_congr_left
  intro f _
  simp only [Function.comp_apply]
  split <;> rfl

theorem markAll_markAll (q1 q2 : Field → Bool) (h2 : ∀ f, q2 f.mark = q2 f)
    (fields : List Field) :
    markAll q2 (markAll q1 fields) = markAll (fun f => q1 f || q2 f) fields := by
  unfold markAll
  rw [List.map_map]
  apply List.map_congr_left
  intro f _
  simp only [Function.comp_apply]
  by_cases h1 : q1 f = true
  · simp only [h1, if_true, h2, Bool.true_or]
    split <;> rfl
  · simp only [h1, if_false, Bool.false_eq_true, Bool.false_or]

theorem markAll_id (q : Field → Bool) (fields : List Field) (h : ∀ f ∈ fields, q f = false) :
    markAll q fields = fields := by
  unfold markAll
  conv => rhs; rw [← List.map_id fields]
  apply List.map_congr_left
  intro f hf
  simp [h f hf]

theorem markFirst_eq (p : Field → Bool) (fields : List Field)
    (hnd : (fields.map (fun f => f.Name)).Nodup) (pk : Field)
    (hfind : fields.find? p = some pk) :
    markFirst p fields = markAll (fun f => decide (f.Name = pk.Name)) fields := by
  induction fields with
  | nil => cases hfind
  | cons f fs ih =>
    simp only [List.map_cons, List.nodup_cons, List.mem_map, not_exists, not_and] at hnd
    simp only [List.find?_cons] at hfind
    by_cases hp : p f = true
    · simp only [hp] at hfind
      injection hfind with hfind
      subst hfind
      simp only [markFirst, hp, if_true]
      have : markAll (fun g => decide (g.Name = f.Name)) fs = fs :=
        markAll_id _ fs (fun g hg => by
          simp only [decide_eq_false_iff_not]
          exact fun h => hnd.1 g hg h)
      unfold markAll at this ⊢
      simp only [List.map_cons, decide_True, if_true, this]
    · simp only [hp] at hfind
      have hmem : pk ∈ fs := List.mem_of_find?_eq_some hfind
      have hne : ¬ f.Name = pk.Name := fun h => hnd.1 pk hmem h.symm
      simp only [markFirst, hp, if_false, Bool.false_eq_true]
      rw [ih hnd.2 hfind]
      unfold markAll
      simp only [List.map_cons, hne, decide_False, if_false, Bool.false_eq_true]

theorem find_markAll (p q : Field → Bool) (hp : ∀ f, p f.mark = p f) (fields : List Field) :
    (markAll q fields).find? p = (fields.find? p).map (fun f => if q f then f.mark else f) := by
  unfold markAll
  induction fields with
  | nil => rfl
  | cons f fs ih =>
    simp only [List.map_cons, List.find?_cons]
    have : p (if q f = true then f.mark else f) = p f := by
      split
      · exact hp f
      · rfl
    rw [this]
    cases p f
    · simpa using ih
    · rfl

theorem pk_mark (f : Field) : f.mark.Pk = f.Pk := rfl
theorem key_mark (f : Field) : f.mark.Key = f.Key := rfl
theorem mutable_mark (f : Field) : f.mark.Mutable = f.Mutable := rfl

/-- The fields that the WHERE block marks are the key descriptors. -/
theorem markWhere_eq (q : Field → Bool) (fields : List Field)
    (hnd : (fields.map (fun f => f.Name)).Nodup) :
    markWhere (markAll q fields) = markAll (fun f => q f || isKeyField fields f) fields := by
  unfold markWhere Table.PkField
  rw [find_markAll _ _ pk_mark]
  have hpk : (fun f : Field => f.Pk) = (fun f => f.hasOpt "pk") := by funext f; rfl
  cases hfind : fields.find? (fun f => f.Pk) with
  | none =>
    simp only [Option.map_none', Option.isSome_none, Bool.false_eq_true, if_false]
    rw [markAll_markAll _ _ key_mark]
    congr 1
    funext f
    rw [hpk] at hfind
    simp only [isKeyField, hfind]
    rfl
  | some pk =>
    simp only [Option.map_some', Option.isSome_some, if_true]
    have hnd' : ((markAll q fields).map (fun f => f.Name)).Nodup := by
      rw [markAll_names]; exact hnd
    have hfind' : (markAll q fields).find? Field.Pk = some (if q pk then pk.mark else pk) := by
      rw [find_markAll _ _ pk_mark]
      have : fields.find? Field.Pk = some pk := hfind
      rw [this]; rfl
    rw [markFirst_eq _ _ hnd' _ hfind']
    have hname : (if q pk = true then pk.mark else pk).Name = pk.Name := by
      split <;> rfl
    rw [hname, markAll_markAll q (fun f => decide (f.Name = pk.Name)) (fun f => rfl)]
    congr 1
    funext f
    rw [hpk] at hfind
    simp only [isKeyField, hfind]

theorem filter_names_nodup (q : Field → Bool) (fields : List Field)
    (hnd : (fields.map (fun f => f.Name)).Nodup) :
    ((fields.filter q).map (fun f => f.Name)).Nodup :=
  List.Nodup.sublist (List.Sublist.map _ (List.filter_sublist fields)) hnd

/-- Binding the placeholders of selected descriptors against the arguments of
the marked ones. -/
theorem bindAll_selected (q : Field → Bool) (fields sel : List Field)
    (hnd : (fields.map (fun f => f.Name)).Nodup)
    (hsel : ∀ f ∈ sel, f ∈ fields ∧ q f = true) :
    bindAll ((fields.filter q).map Field.arg) (sel.map Field.eqParam) =
      some (sel.map (fun f => (f.Name, f.toSql))) := by
  apply bindAll_args
  intro f hf
  apply lookupArg_args _ (filter_names_nodup q fields hnd)
  exact List.mem_filter.mpr (hsel f hf)

theorem zip_names_params (fields : List Field) :
    (fields.map (fun f => f.Name)).zip (fields.map (fun f => f.Param.1)) =
      fields.map Field.eqParam := by
  induction fields with
  | nil => rfl
  | cons f fs ih => simp only [List.map_cons, List.zip_cons_cons, ih, Field.eqParam]

theorem schemaOf_columns (fields : List Field) :
    (schemaOf fields).columns.map (fun x => x.1) = fields.map (fun f => f.Name) := by
  simp [schemaOf, List.map_map, Function.comp_def]

/-- What `Exec` does with the insert statement of a record. -/
theorem exec_insert (n : String) (fields : List Field) (hf : ∀ f ∈ fields, f.Fresh)
    (hnd : (fields.map (fun f => f.Name)).Nodup) (hne : fields ≠ [])
    (s : Store) (t : TableState) (hs : s n = some t) (hsch : t.schema = schemaOf fields) :
    sqliteExec (InsertSQL { TmplData.zero n with Fields := fields })
        (Table.Params (fields.map Field.mark)) s =
      if t.rows.any (fun r => conflict t.schema r (recordRow fields)) then
        (.error .constraint, s)
      else (.ok ⟨.ok 1⟩, s.set n { t with rows := t.rows ++ [recordRow fields] }) := by
  have hmark : fields.map Field.mark = markAll (fun _ => true) fields := by
    unfold markAll; simp
  have hfilter : fields.filter (fun _ => true) = fields := by simp
  rw [hmark, params_markAll _ _ hf]
  have hbind := bindAll_selected (fun _ => true) fields fields hnd (fun f hf => ⟨hf, rfl⟩)
  simp only [InsertSQL, TmplData.zero, sqliteExec, hs, sqliteInsert, zip_names_params, hbind,
    hsch, schemaOf_columns, List.length_map, recordRow]
  have hne' : (fields.map (fun f => f.Name)).isEmpty = false := by
    cases fields with
    | nil => exact absurd rfl hne
    | cons a l => rfl
  simp only [hne', Bool.false_eq_true, if_false, ne_eq, not_true_eq_false, or_self]
  by_cases hc : (t.rows.any fun r =>
      conflict (schemaOf fields) r (List.map (fun f => (f.Name, f.toSql)) fields)) = true
  · simp only [hc, if_true]
  · simp only [hc, if_false, Bool.false_eq_true]

theorem where_eq_keyFields (fields : List Field) (d : TmplData)
    (hk : d.Keys = Table.KeyFields fields) (hp : d.Pk = Table.PkField fields) :
    d.where = (keyFields fields).map Field.eqParam := by
  unfold TmplData.where keyFields
  rw [hp, hk]
  unfold Table.PkField Table.KeyFields
  have : (fun f : Field => f.Pk) = (fun f => f.hasOpt "pk") := by funext f; rfl
  rw [this]
  cases fields.find? (fun f => f.hasOpt "pk") <;> rfl

theorem keyFields_mem (fields : List Field) (f : Field) (h : f ∈ keyFields fields) :
    f ∈ fields ∧ isKeyField fields f = true := by
  unfold keyFields at h
  unfold isKeyField
  cases hfind : fields.find? (fun f => f.hasOpt "pk") with
  | some pk =>
    simp only [hfind, List.mem_singleton] at h
    subst h
    exact ⟨List.mem_of_find?_eq_some hfind, by simp⟩
  | none =>
    simp only [hfind, List.mem_filter] at h
    exact ⟨h.1, h.2⟩

theorem knownColumns_sel (fields sel : List Field) (h : ∀ f ∈ sel, f ∈ fields) :
    knownColumns (schemaOf fields) ((sel.map Field.eqParam).map (fun x => x.1)) = true := by
  unfold knownColumns
  rw [schemaOf_columns]
  simp only [List.all_eq_true, List.mem_map, forall_exists_index, and_imp,
    forall_apply_eq_imp_iff₂]
  intro f hf
  simp only [List.contains_iff_exists_mem_beq, List.mem_map]
  exact ⟨f.Name, ⟨f, h f hf, rfl⟩, by simp [Field.eqParam]⟩

theorem isEmpty_map_false {α β : Type} (f : α → β) (l : List α) (h : l ≠ []) :
    (l.map f).isEmpty = false := by
  cases l with
  | nil => exact absurd rfl h
  | cons a l => rfl

/-- What `Exec` does with the update statement of a record. -/
theorem exec_update (n : String) (fields : List Field) (hf : ∀ f ∈ fields, f.Fresh)
    (hnd : (fields.map (fun f => f.Name)).Nodup)
    (s : Store) (t : TableState) (hs : s n = some t) (hsch : t.schema = schemaOf fields) :
    sqliteExec (UpdateSQL { TmplData.zero n with
          Fields := Table.MutableFields fields,
          Keys := Table.KeyFields fields,
          Pk := Table.PkField fields })
        (Table.Params (markWhere (markAll Field.Mutable fields))) s =
      if mutableDescriptors fields = [] ∨ keyFields fields = [] then
        (.error (.engine "syntax error"), s)
      else if updateConflict t.schema (taggedRows fields t.rows) then (.error .constraint, s)
      else
        (.ok ⟨.ok (keyRows fields t.rows).length⟩,
          s.set n { t with rows := updatedRows fields t.rows }) := by
  rw [markWhere_eq _ _ hnd, params_markAll _ _ hf]
  have hset := bindAll_selected (fun f => f.Mutable || isKeyField fields f) fields
    (mutableDescriptors fields) hnd (fun f hf => by
      rw [← mutableFields_eq] at hf
      have := List.mem_filter.mp hf
      exact ⟨this.1, by simp [this.2]⟩)
  have hcond := bindAll_selected (fun f => f.Mutable || isKeyField fields f) fields
    (keyFields fields) hnd (fun f hf => by
      have := keyFields_mem fields f hf
      exact ⟨this.1, by simp [this.2]⟩)
  have hk1 := knownColumns_sel fields (mutableDescriptors fields) (fun f hf => by
      exact (List.mem_filter.mp hf).1)
  have hk2 := knownColumns_sel fields (keyFields fields) (fun f hf => (keyFields_mem fields f hf).1)
  simp only [UpdateSQL, TmplData.zero, sqliteExec, hs]
  rw [where_eq_keyFields fields _ rfl rfl]
  simp only [sqliteUpdate, mutableFields_eq, hset, hcond, hsch, hk1, hk2]
  by_cases h1 : mutableDescriptors fields = []
  · simp [h1]
  · by_cases h2 : keyFields fields = []
    · simp [h2]
    · simp only [h1, h2, isEmpty_map_false _ _ h1, isEmpty_map_false _ _ h2, Bool.or_self,
        Bool.false_eq_true, if_false, Bool.and_self, Bool.not_true, or_self]
      by_cases hc : updateConflict (schemaOf fields) (taggedRows fields t.rows) = true
      · simp only [taggedRows, assignments, keyCond] at hc
        simp only [hc, if_true, updatedRows, taggedRows, assignments, keyCond, keyRows]
      · simp only [taggedRows, assignments, keyCond] at hc
        simp only [hc, if_false, Bool.false_eq_true, updatedRows, taggedRows, assignments,
          keyCond, keyRows]

/-- What `Exec` does with the delete statement of a record. -/
theorem exec_delete (n : String) (fields : List Field) (hf : ∀ f ∈ fields, f.Fresh)
    (hnd : (fields.map (fun f => f.Name)).Nodup)
    (s : Store) (t : TableState) (hs : s n = some t) (hsch : t.schema = schemaOf fields) :
    sqliteExec (DeleteSQL { TmplData.zero n with
          Keys := Table.KeyFields fields,
          Pk := Table.PkField fields })
        (Table.Params (markWhere fields)) s =
      if keyFields fields = [] then (.error (.engine "syntax error"), s)
      else
        (.ok ⟨.ok (keyRows fields t.rows).length⟩,
          s.set n { t with rows := t.rows.filter (fun r => !rowMatches (keyCond fields) r) }) := by
  have h0 : markAll (fun _ => false) fields = fields := markAll_id _ _ (fun _ _ => rfl)
  have hm := markWhere_eq (fun _ => false) fields hnd
  rw [h0] at hm
  rw [hm, params_markAll _ _ hf]
  have hcond := bindAll_selected (fun f => false || isKeyField fields f) fields
    (keyFields fields) hnd (fun f hf => by
      have := keyFields_mem fields f hf
      exact ⟨this.1, by simp [this.2]⟩)
  have hk2 := knownColumns_sel fields (keyFields fields) (fun f hf => (keyFields_mem fields f hf).1)
  simp only [DeleteSQL, TmplData.zero, sqliteExec, hs]
  rw [where_eq_keyFields fields _ rfl rfl]
  simp only [sqliteDelete, hcond, hsch, hk2]
  by_cases h2 : keyFields fields = []
  · simp [h2]
  · simp only [h2, isEmpty_map_false _ _ h2, Bool.false_eq_true, if_false,
      Bool.not_true, keyCond, keyRows]

theorem length_cast_eq_zero {α : Type} (l : List α) : ((l.length : Int) = 0) ↔ l = [] := by
  cases l with
  | nil => simp
  | cons a l =>
    simp only [List.length_cons, reduceCtorEq, iff_false]
    omega

/-- `Table.Update` on the reference store, for a record whose table has its
generated schema. -/
theorem updateWith_eval (rl : String → ModelMethods → Store → Except Error Unit × Store)
    (n : String) (fs : GoFields) (m : Option ModelMethods)
    (hnd : (fs.descriptors.map (fun f => f.Name)).Nodup)
    (s : Store) (t : TableState) (hs : s n = some t)
    (hsch : t.schema = schemaOf fs.descriptors) :
    Table.UpdateWith sqlite rl (.ptr (.struct n fs) m) s =
      if mutableDescriptors fs.descriptors = [] ∨ keyFields fs.descriptors = [] then
        (.error (.engine "syntax error"), s)
      else if updateConflict t.schema (taggedRows fs.descriptors t.rows) then
        (.error .constraint, s)
      else if keyRows fs.descriptors t.rows = [] then
        (.error .noRows, s.set n { t with rows := updatedRows fs.descriptors t.rows })
      else
        match m with
        | some mm => rl n mm (s.set n { t with rows := updatedRows fs.descriptors t.rows })
        | none => (.ok (), s.set n { t with rows := updatedRows fs.descriptors t.rows }) := by
  have hex := exec_update n fs.descriptors (descriptors_fresh fs) hnd s t hs hsch
  simp only [Table.UpdateWith, Table.Fields, Table.updateSQL, Table.Name, GoValue.typeName, sqlite,
    hex]
  by_cases h1 : mutableDescriptors fs.descriptors = [] ∨ keyFields fs.descriptors = []
  · simp only [h1, if_true]
  · simp only [h1, if_false]
    by_cases h2 : updateConflict t.schema (taggedRows fs.descriptors t.rows) = true
    · simp only [h2, if_true]
    · simp only [h2, if_false, Bool.false_eq_true, length_cast_eq_zero, Any.asModel]

/-- `Table.Insert` on the reference store. -/
theorem insertWith_eval (up : Any → Store → Except Error Unit × Store)
    (il : String → ModelMethods → Store → Except Error Unit × Store)
    (n : String) (fs : GoFields) (m : Option ModelMethods)
    (hnd : (fs.descriptors.map (fun f => f.Name)).Nodup) (hne : fs.descriptors ≠ [])
    (s : Store) (t : TableState) (hs : s n = some t)
    (hsch : t.schema = schemaOf fs.descriptors) :
    Table.InsertWith sqlite up il (.ptr (.struct n fs) m) s =
      if t.rows.any (fun r => conflict t.schema r (recordRow fs.descriptors)) then
        up (.ptr (.struct n fs) m) s
      else
        match m with
        | some mm => il n mm (s.set n { t with rows := t.rows ++ [recordRow fs.descriptors] })
        | none => (.ok (), s.set n { t with rows := t.rows ++ [recordRow fs.descriptors] }) := by
  have hex := exec_insert n fs.descriptors (descriptors_fresh fs) hnd hne s t hs hsch
  simp only [Table.InsertWith, Table.Fields, Table.insertSQL, Table.Name, GoValue.typeName, sqlite,
    hex]
  by_cases h1 : (t.rows.any fun r => conflict t.schema r (recordRow fs.descriptors)) = true
  · simp only [h1, if_true]
  · simp only [h1, if_false, Bool.false_eq_true, insertDone, Any.asModel, Table.Name,
      GoValue.typeName]
    cases m <;> simp

/-- `Table.Delete` on the reference store. -/
theorem deleteWith_eval (dl : String → ModelMethods → Store → Except Error Unit × Store)
    (n : String) (fs : GoFields) (m : Option ModelMethods)
    (hnd : (fs.descriptors.map (fun f => f.Name)).Nodup)
    (s : Store) (t : TableState) (hs : s n = some t)
    (hsch : t.schema = schemaOf fs.descriptors) :
    Table.DeleteWith sqlite dl (.ptr (.struct n fs) m) s =
      if keyFields fs.descriptors = [] then (.error (.engine "syntax error"), s)
      else if keyRows fs.descriptors t.rows = [] then
        (.ok (), s.set n { t with rows := remainingRows fs.descriptors t.rows })
      else
        match m with
        | some mm => dl n mm (s.set n { t with rows := remainingRows fs.descriptors t.rows })
        | none => (.ok (), s.set n { t with rows := remainingRows fs.descriptors t.rows }) := by
  have hex := exec_delete n fs.descriptors (descriptors_fresh fs) hnd s t hs hsch
  simp only [Table.DeleteWith, Table.Fields, Table.deleteSQL, Table.Name, GoValue.typeName, sqlite,
    hex]
  by_cases h1 : keyFields fs.descriptors = []
  · simp only [h1, if_true]
  · simp only [h1, if_false, length_cast_eq_zero, Any.asModel, remainingRows]

theorem Store.set_self (s : Store) (n : String) (t : TableState) (h : s n = some t) :
    s.set n t = s := by
  funext x
  unfold Store.set
  by_cases hx : x = n
  · simp [hx, h]
  · simp [hx]

theorem keyRows_nil (fields : List Field) (rows : List StoredRow)
    (h : keyRows fields rows = []) : ∀ r ∈ rows, rowMatches (keyCond fields) r = false := by
  intro r hr
  unfold keyRows at h
  have := List.filter_eq_nil_iff.mp h r hr
  simpa using this

theorem taggedRows_nil (fields : List Field) (rows : List StoredRow)
    (h : keyRows fields rows = []) : taggedRows fields rows = rows.map (fun r => (false, r)) := by
  unfold taggedRows
  apply List.map_congr_left
  intro r hr
  simp [keyRows_nil fields rows h r hr]

theorem updateConflict_untouched (schema : Schema) (rows : List StoredRow) :
    updateConflict schema (rows.map (fun r => (false, r))) = false := by
  induction rows with
  | nil => rfl
  | cons r rs ih => simp [updateConflict, ih]

theorem Store.set_other (s : Store) (n x : String) (t : TableState) (h : x ≠ n) :
    s.set n t x = s x := by
  unfold Store.set
  simp [h]

theorem Store.set_same (s : Store) (n : String) (t : TableState) : s.set n t n = some t := by
  unfold Store.set
  simp

theorem sqliteExec_frame (stmt : Stmt) (args : List NamedArg) (s : Store) (x : String)
    (hx : x ≠ stmtTable stmt) : (sqliteExec stmt args s).2 x = s x := by
  cases stmt with
  | insert table columns values =>
    simp only [stmtTable] at hx
    simp only [sqliteExec]
    cases s table with
    | none => rfl
    | some t =>
      simp only
      cases sqliteInsert t columns values args with
      | error e => rfl
      | ok t1 => exact Store.set_other s table x t1 hx
  | update table set cond =>
    simp only [stmtTable] at hx
    simp only [sqliteExec]
    cases s table with
    | none => rfl
    | some t =>
      simp only
      cases sqliteUpdate t set cond args with
      | error e => rfl
      | ok r => exact Store.set_other s table x r.1 hx
  | delete table cond =>
    simp only [stmtTable] at hx
    simp only [sqliteExec]
    cases s table with
    | none => rfl
    | some t =>
      simp only
      cases sqliteDelete t cond args with
      | error e => rfl
      | ok r => exact Store.set_other s table x r.1 hx
  | get table columns cond => rfl
  | list table columns cond labels sort page => rfl

theorem insertWith_frame (up : Any → Store → Except Error Unit × Store)
    (il : String → ModelMethods → Store → Except Error Unit × Store) (x : String)
    (e : Any) (hup : ∀ s, (up e s).2 x = s x) (hil : ∀ k mm s, (il k mm s).2 x = s x)
    (s : Store) (hx : x ≠ Table.Name e) :
    (Table.InsertWith sqlite up il e s).2 x = s x := by
  unfold Table.InsertWith
  cases hfs : Table.Fields e with
  | error err => rfl
  | ok fields =>
    simp only [Table.insertSQL, sqlite]
    have hfr := sqliteExec_frame (InsertSQL { TmplData.zero (Table.Name e) with Fields := fields })
      (Table.Params (List.map Field.mark fields)) s x hx
    revert hfr
    cases sqliteExec (InsertSQL { TmplData.zero (Table.Name e) with Fields := fields })
      (Table.Params (List.map Field.mark fields)) s with
    | mk r s1 =>
      intro hfr
      simp only at hfr
      cases r with
      | error err =>
        cases err <;> simp only <;> first | exact hfr | (rw [hup]; exact hfr)
      | ok res =>
        simp only [insertDone]
        cases res.RowsAffected with
        | error err => exact hfr
        | ok nRows =>
          simp only
          split
          · exact hfr
          · cases e.asModel with
            | none => exact hfr
            | some mm => simp only; rw [hil]; exact hfr

theorem updateWith_frame (rl : String → ModelMethods → Store → Except Error Unit × Store)
    (x : String) (hrl : ∀ k mm s, (rl k mm s).2 x = s x)
    (e : Any) (s : Store) (hx : x ≠ Table.Name e) :
    (Table.UpdateWith sqlite rl e s).2 x = s x := by
  unfold Table.UpdateWith
  cases hfs : Table.Fields e with
  | error err => rfl
  | ok fields =>
    simp only [Table.updateSQL, sqlite]
    have hfr := sqliteExec_frame (UpdateSQL { TmplData.zero (Table.Name e) with
          Fields := Table.MutableFields fields,
          Keys := Table.KeyFields fields,
          Pk := Table.PkField fields })
      (Table.Params (markWhere (markAll Field.Mutable fields))) s x hx
    revert hfr
    cases sqliteExec (UpdateSQL { TmplData.zero (Table.Name e) with
          Fields := Table.MutableFields fields,
          Keys := Table.KeyFields fields,
          Pk := Table.PkField fields })
      (Table.Params (markWhere (markAll Field.Mutable fields))) s with
    | mk r s1 =>
      intro hfr
      simp only at hfr
      cases r with
      | error err => exact hfr
      | ok res =>
        simp only
        cases res.RowsAffected with
        | error err => exact hfr
        | ok nRows =>
          simp only
          split
          · exact hfr
          · cases e.asModel with
            | none => exact hfr
            | some mm => simp only; rw [hrl]; exact hfr

theorem deleteWith_frame (dl : String → ModelMethods → Store → Except Error Unit × Store)
    (x : String) (hdl : ∀ k mm s, (dl k mm s).2 x = s x)
    (e : Any) (s : Store) (hx : x ≠ Table.Name e) :
    (Table.DeleteWith sqlite dl e s).2 x = s x := by
  unfold Table.DeleteWith
  cases hfs : Table.Fields e with
  | error err => rfl
  | ok fields =>
    simp only [Table.deleteSQL, sqlite]
    have hfr := sqliteExec_frame (DeleteSQL { TmplData.zero (Table.Name e) with
          Keys := Table.KeyFields fields,
          Pk := Table.PkField fields })
      (Table.Params (markWhere fields)) s x hx
    revert hfr
    cases sqliteExec (DeleteSQL { TmplData.zero (Table.Name e) with
          Keys := Table.KeyFields fields,
          Pk := Table.PkField fields })
      (Table.Params (markWhere fields)) s with
    | mk r s1 =>
      intro hfr
      simp only at hfr
      cases r with
      | error err => exact hfr
      | ok res =>
        simp only
        cases res.RowsAffected with
        | error err => exact hfr
        | ok nRows =>
          simp only
          split
          · exact hfr
          · cases e.asModel with
            | none => exact hfr
            | some mm => simp only; rw [hdl]; exact hfr

theorem noLabels_frame (x : String) (k : String) (mm : ModelMethods) (s : Store) :
    (noLabels k mm s).2 x = s x := rfl

theorem insertLabel_frame (x : String) (hx : x ≠ "Label") (p k nm v : String) (s : Store) :
    (Table.InsertLabel sqlite (Label p k nm v) s).2 x = s x := by
  unfold Table.InsertLabel
  have hn : x ≠ Table.Name (Label p k nm v) := hx
  apply insertWith_frame _ _ x (Label p k nm v) _ (noLabels_frame x) _ hn
  intro s
  exact updateWith_frame _ x (noLabels_frame x) _ s hn

theorem deleteLabel_frame (x : String) (hx : x ≠ "Label") (p k nm v : String) (s : Store) :
    (Table.DeleteLabel sqlite (Label p k nm v) s).2 x = s x :=
  deleteWith_frame _ x (noLabels_frame x) (Label p k nm v) s hx

theorem insertLabelsLoop_frame (x : String) (hx : x ≠ "Label") (kind parent : String)
    (labels : List (String × String)) :
    ∀ s : Store, (insertLabelsLoop sqlite kind parent labels s).2 x = s x := by
  induction labels with
  | nil => intro s; rfl
  | cons l rest ih =>
    intro s
    obtain ⟨nm, v⟩ := l
    simp only [insertLabelsLoop]
    have h := insertLabel_frame x hx parent kind nm v s
    revert h
    cases Table.InsertLabel sqlite (Label parent kind nm v) s with
    | mk r s1 =>
      intro h
      simp only at h
      cases r with
      | error e => exact h
      | ok u => simp only; rw [ih s1]; exact h

theorem insertLabels_frame (x : String) (hx : x ≠ "Label") (kind : String) (mm : ModelMethods)
    (s : Store) : (Table.InsertLabels sqlite kind mm s).2 x = s x :=
  insertLabelsLoop_frame x hx kind mm.Pk mm.Labels s

theorem deleteLabels_frame (x : String) (hx : x ≠ "Label") (kind : String) (mm : ModelMethods)
    (s : Store) : (Table.DeleteLabels sqlite kind mm s).2 x = s x :=
  deleteLabel_frame x hx mm.Pk kind "" "" s

theorem replaceLabels_frame (x : String) (hx : x ≠ "Label") (kind : String) (mm : ModelMethods)
    (s : Store) : (Table.ReplaceLabels sqlite kind mm s).2 x = s x := by
  unfold Table.ReplaceLabels
  have h := deleteLabels_frame x hx kind mm s
  revert h
  cases Table.DeleteLabels sqlite kind mm s with
  | mk r s1 =>
    intro h
    simp only at h
    cases r with
    | error e => exact h
    | ok u => simp only; rw [insertLabels_frame x hx]; exact h

theorem lookup_recordRow (fields : List Field) (hnd : (fields.map (fun f => f.Name)).Nodup)
    (f : Field) (hf : f ∈ fields) : (recordRow fields).lookup f.Name = some f.toSql := by
  unfold recordRow
  induction fields with
  | nil => cases hf
  | cons g gs ih =>
    simp only [List.map_cons, List.nodup_cons, List.mem_map, not_exists, not_and] at hnd
    simp only [List.map_cons, List.lookup_cons]
    by_cases hg : f.Name = g.Name
    · have : f = g := by
        rcases List.mem_cons.mp hf with h | h
        · exact h
        · exact absurd hg (hnd.1 f h)
      subst this
      simp
    · have hfm : f ∈ gs := by
        rcases List.mem_cons.mp hf with h | h
        · exact absurd (by rw [h]) hg
        · exact h
      have hb : (f.Name == g.Name) = false := by simpa using hg
      simp only [hb]
      exact ih hnd.2 hfm

theorem keyFields_pk (fields : List Field) (pk : Field)
    (hpk : fields.find? (fun f => f.hasOpt "pk") = some pk) : keyFields fields = [pk] := by
  unfold keyFields
  rw [hpk]

theorem schemaOf_pk (fields : List Field) (pk : Field)
    (hpk : fields.find? (fun f => f.hasOpt "pk") = some pk) :
    (schemaOf fields).pk = some pk.Name := by
  have : Table.PkField fields = some pk := hpk
  simp [schemaOf, this]

theorem rowMatches_pk (fields : List Field) (pk : Field)
    (hpk : fields.find? (fun f => f.hasOpt "pk") = some pk) (r : StoredRow) :
    rowMatches (keyCond fields) r = decide (r.lookup pk.Name = some pk.toSql) := by
  simp [keyCond, keyFields_pk fields pk hpk, rowMatches]

/-- A stored row conflicts with the record's row exactly when, for a type
with a pk, it carries the record's pk or agrees with it on a unique group. -/
theorem conflict_of_key (fields : List Field) (hnd : (fields.map (fun f => f.Name)).Nodup)
    (pk : Field) (hpk : fields.find? (fun f => f.hasOpt "pk") = some pk) (r : StoredRow)
    (h : rowMatches (keyCond fields) r = true) :
    conflict (schemaOf fields) r (recordRow fields) = true := by
  rw [rowMatches_pk fields pk hpk] at h
  have hmem : pk ∈ fields := List.mem_of_find?_eq_some hpk
  simp only [conflict, schemaOf_pk fields pk hpk, lookup_recordRow fields hnd pk hmem]
  simp only [decide_eq_true_eq] at h
  simp [h]

theorem key_conflict (fields : List Field) (pk : Field)
    (hnd : (fields.map (fun f => f.Name)).Nodup)
    (hpk : fields.find? (fun f => f.hasOpt "pk") = some pk)
    (t : TableState) (hsch : t.schema = schemaOf fields)
    (hrow : keyRows fields t.rows ≠ []) :
    (t.rows.any fun r => conflict t.schema r (recordRow fields)) = true := by
  obtain ⟨r, hr⟩ := List.exists_mem_of_ne_nil _ hrow
  have hr' := List.mem_filter.mp hr
  rw [List.any_eq_true]
  exact ⟨r, hr'.1, by rw [hsch]; exact conflict_of_key _ hnd pk hpk r hr'.2⟩

theorem insert_is_update_plain (n : String) (fs : GoFields) (m : Option ModelMethods)
    (s : Store) (t : TableState) (pk : Field)
    (hnd : (fs.descriptors.map (fun f => f.Name)).Nodup)
    (hs : s n = some t) (hsch : t.schema = schemaOf fs.descriptors)
    (hpk : fs.descriptors.find? (fun f => f.hasOpt "pk") = some pk)
    (hrow : keyRows fs.descriptors t.rows ≠ []) :
    Table.Insert sqlite (.ptr (.struct n fs) m) s = Table.Update sqlite (.ptr (.struct n fs) m) s := by
  have hne : fs.descriptors ≠ [] := by
    intro h; rw [h] at hpk; cases hpk
  unfold Table.Insert
  rw [insertWith_eval _ _ n fs m hnd hne s t hs hsch]
  simp only [key_conflict fs.descriptors pk hnd hpk t hsch hrow, if_true]

theorem scanCell_ok (f : Field) (v : SqlValue) (h : f.holds v) :
    scanCell v (f.Pull.2.Ptr) = .ok v.cell := by
  unfold Field.holds at h
  obtain ⟨fv, tag, name, st, i, p⟩ := f
  cases fv <;> cases v <;> simp [GoValue.Kind, SqlValue.toGo] at h <;> rfl

theorem scanValues_ok : ∀ (fields : List Field) (vals : List SqlValue),
    List.Forall₂ Field.holds fields vals →
    scanValues vals ((fields.map (fun f => f.Pull.2)).map Field.Ptr) =
      .ok (vals.map SqlValue.cell)
  | [], [], _ => rfl
  | f :: fs, v :: vs, h => by
    have hfv : f.holds v := by cases h; assumption
    have hrest : List.Forall₂ Field.holds fs vs := by cases h; assumption
    simp only [List.map_cons, scanValues, scanValues_ok fs vs hrest, scanCell_ok f v hfv]
  | [], _ :: _, h => by cases h
  | _ :: _, [], h => by cases h

theorem storeAll_push : ∀ (fields : List Field) (vals : List SqlValue),
    List.Forall₂ Field.holds fields vals →
    (storeAll (fields.map (fun f => f.Pull.2)) (vals.map SqlValue.cell)).map Field.Push =
      List.zipWith Field.scanned fields vals
  | [], [], _ => rfl
  | f :: fs, v :: vs, h => by
    have hrest : List.Forall₂ Field.holds fs vs := by cases h; assumption
    simp only [List.map_cons, storeAll, List.zipWith_cons_cons, storeAll_push fs vs hrest,
      Field.scanned]
  | [], _ :: _, h => by cases h
  | _ :: _, [], h => by cases h

theorem scan_rowOf (fields : List Field) (vals : List SqlValue)
    (h : List.Forall₂ Field.holds fields vals) :
    Table.scan (rowOf vals) fields = (.ok (), List.zipWith Field.scanned fields vals) := by
  simp only [Table.scan, rowOf, scanValues_ok fields vals h, storeAll_push fields vals h]

theorem scanned_value (f : Field) (v : SqlValue) (h : f.holds v) :
    (f.scanned v).Name = f.Name ∧ (f.scanned v).Value = v.toGo := by
  unfold Field.holds at h
  obtain ⟨fv, tag, name, st, i, p⟩ := f
  cases fv <;> cases v <;> simp [GoValue.Kind, SqlValue.toGo] at h <;> exact ⟨rfl, rfl⟩

theorem map_of_shape {β : Type} (g : String × String × Kind → β) (l1 l2 : List Field)
    (h : l1.map Field.shape = l2.map Field.shape) :
    l1.map (fun f => g f.shape) = l2.map (fun f => g f.shape) := by
  have : ∀ l : List Field, l.map (fun f => g f.shape) = (l.map Field.shape).map g := by
    intro l; simp [List.map_map, Function.comp_def]
  rw [this l1, this l2, h]

theorem schemaOf_congr (l1 l2 : List Field) (h : l1.map Field.shape = l2.map Field.shape) :
    schemaOf l1 = schemaOf l2 := by
  have hcols : l1.map (fun f => (f.Name, f.colType)) = l2.map (fun f => (f.Name, f.colType)) := by
    have hfun : (fun f : Field => (f.Name, f.colType)) = (fun f => shapeColumn f.shape) := by
      funext f
      simp only [Field.shape, Field.colType, shapeColumn]
    rw [hfun]
    exact map_of_shape shapeColumn l1 l2 h
  have hpk : ∀ l : List Field, (Table.PkField l).map (fun f => f.Name) =
      ((l.map Field.shape).find? (fun sh =>
        (tagOptions sh.2.1).any (fun opt => opt = "pk".toList))).map (fun sh => sh.1) := by
    intro l
    rw [List.find?_map, Option.map_map]
    rfl
  have hun : ∀ l : List Field, uniqueGroups l =
      (l.map Field.shape).foldl (fun m sh =>
        ((tagOptions sh.2.1).filterMap
          (fun opt => (findGroup "unique".toList opt).map String.mk)).foldl
            (fun m g => addToGroup g sh.1 m) m) [] := by
    intro l
    rw [List.foldl_map]
    rfl
  unfold schemaOf
  rw [hcols, hpk l1, hpk l2, hun l1, hun l2, h]

theorem update_absent (rl : String → ModelMethods → Store → Except Error Unit × Store)
    (n : String) (fs : GoFields) (m : Option ModelMethods)
    (hnd : (fs.descriptors.map (fun f => f.Name)).Nodup)
    (s : Store) (t : TableState) (hs : s n = some t)
    (hsch : t.schema = schemaOf fs.descriptors)
    (hfree : keyRows fs.descriptors t.rows = []) (s1 : Store) :
    Table.UpdateWith sqlite rl (.ptr (.struct n fs) m) s ≠ (.ok (), s1) := by
  rw [updateWith_eval rl n fs m hnd s t hs hsch]
  by_cases h1 : mutableDescriptors fs.descriptors = [] ∨ keyFields fs.descriptors = []
  · simp only [h1, if_true]
    intro h; cases h
  · simp only [h1, if_false, taggedRows_nil _ _ hfree, updateConflict_untouched,
      Bool.false_eq_true, hfree, if_true]
    intro h; cases h

/-- The store after an Insert that succeeded where no row carried the
record's key: the record's row was added to its table. -/
theorem insert_fresh (n : String) (fs : GoFields) (m : Option ModelMethods)
    (hnd : (fs.descriptors.map (fun f => f.Name)).Nodup) (hne : fs.descriptors ≠ [])
    (s s1 : Store) (t : TableState) (hs : s n = some t)
    (hsch : t.schema = schemaOf fs.descriptors)
    (hlabel : m = none ∨ n ≠ "Label")
    (hfree : keyRows fs.descriptors t.rows = [])
    (hins : Table.Insert sqlite (.ptr (.struct n fs) m) s = (.ok (), s1)) :
    s1 n = some { t with rows := t.rows ++ [recordRow fs.descriptors] } := by
  unfold Table.Insert at hins
  rw [insertWith_eval _ _ n fs m hnd hne s t hs hsch] at hins
  by_cases hc : (t.rows.any fun r => conflict t.schema r (recordRow fs.descriptors)) = true
  · simp only [hc, if_true] at hins
    exact absurd hins (update_absent _ n fs m hnd s t hs hsch hfree s1)
  · simp only [hc, if_false, Bool.false_eq_true] at hins
    cases m with
    | none =>
      simp only at hins
      injection hins with _ h2
      rw [← h2, Store.set_same]
    | some mm =>
      simp only at hins
      have hn : n ≠ "Label" := by
        rcases hlabel with h | h
        · cases h
        · exact h
      have hfr := insertLabels_frame n hn n mm
        (s.set n { t with rows := t.rows ++ [recordRow fs.descriptors] })
      rw [hins] at hfr
      simp only at hfr
      rw [hfr, Store.set_same]

theorem keyFields_sublist (fields : List Field) : ∀ f ∈ keyFields fields, f ∈ fields :=
  fun f hf => (keyFields_mem fields f hf).1

theorem rowMatches_recordRow (fields : List Field)
    (hnd : (fields.map (fun f => f.Name)).Nodup) :
    rowMatches (keyCond fields) (recordRow fields) = true := by
  unfold rowMatches keyCond
  simp only [List.all_eq_true, List.mem_map, forall_exists_index, and_imp,
    forall_apply_eq_imp_iff₂, decide_eq_true_eq]
  intro f hf
  exact lookup_recordRow fields hnd f (keyFields_sublist fields f hf)

theorem lookup_mem {β : Type} : ∀ (l : List (String × β)) (c : String) (w : β),
    l.lookup c = some w → (c, w) ∈ l
  | [], _, _, h => by cases h
  | (k, v) :: l, c, w, h => by
    simp only [List.lookup_cons] at h
    by_cases hk : c = k
    · subst hk
      simp only [beq_self_eq_true, Option.some.injEq] at h
      subst h
      exact List.mem_cons_self _ _
    · have hb : (c == k) = false := by simpa using hk
      simp only [hb] at h
      exact List.mem_cons_of_mem _ (lookup_mem l c w h)

theorem setColumns_idem (a : List (String × SqlValue)) (r : StoredRow) :
    setColumns a (setColumns a r) = setColumns a r := by
  unfold setColumns
  rw [List.map_map]
  apply List.map_congr_left
  intro cv _
  simp only [Function.comp_apply]
  cases h : List.lookup cv.1 a with
  | none => simp [h]
  | some w => simp [h]

theorem setColumns_recordRow (fields : List Field)
    (hnd : (fields.map (fun f => f.Name)).Nodup) :
    setColumns (assignments fields) (recordRow fields) = recordRow fields := by
  unfold setColumns recordRow
  rw [List.map_map]
  apply List.map_congr_left
  intro f hf
  simp only [Function.comp_apply]
  cases h : List.lookup f.Name (assignments fields) with
  | none => rfl
  | some w =>
    simp only
    have hmem := lookup_mem _ _ _ h
    unfold assignments at hmem
    obtain ⟨g, hg, hgeq⟩ := List.mem_map.mp hmem
    have hgf : g ∈ fields := (List.mem_filter.mp hg).1
    injection hgeq with hn hw
    have : g = f := by
      by_contra hne
      have := List.inj_on_of_nodup_map hnd hgf hf hn
      exact hne this
    rw [← hw, this]

theorem lookup_setColumns (a : List (String × SqlValue)) (r : StoredRow) (c : String)
    (h : a.lookup c = none) : (setColumns a r).lookup c = r.lookup c := by
  unfold setColumns
  induction r with
  | nil => rfl
  | cons cv r ih =>
    obtain ⟨k, v⟩ := cv
    simp only [List.map_cons]
    by_cases hc : c = k
    · subst hc
      simp only [h, List.lookup_cons, beq_self_eq_true]
    · have hb : (c == k) = false := by simpa using hc
      cases hl : List.lookup k a with
      | none => simp only [List.lookup_cons, hb, ih]
      | some w => simp only [List.lookup_cons, hb, ih]

theorem assignments_lookup_pk (fields : List Field)
    (hnd : (fields.map (fun f => f.Name)).Nodup) (pk : Field)
    (hpk : fields.find? (fun f => f.hasOpt "pk") = some pk) :
    (assignments fields).lookup pk.Name = none := by
  cases h : (assignments fields).lookup pk.Name with
  | none => rfl
  | some w =>
    exfalso
    have hmem := lookup_mem _ _ _ h
    unfold assignments at hmem
    obtain ⟨g, hg, hgeq⟩ := List.mem_map.mp hmem
    have hg' := List.mem_filter.mp hg
    injection hgeq with hn hw
    have hpkmem : pk ∈ fields := List.mem_of_find?_eq_some hpk
    have : g = pk := List.inj_on_of_nodup_map hnd hg'.1 hpkmem hn
    subst this
    have hpkopt : g.hasOpt "pk" = true := by
      have := List.find?_some hpk
      simpa using this
    simp [hpkopt] at hg'

theorem rowMatches_setColumns (fields : List Field)
    (hnd : (fields.map (fun f => f.Name)).Nodup) (pk : Field)
    (hpk : fields.find? (fun f => f.hasOpt "pk") = some pk) (r : StoredRow) :
    rowMatches (keyCond fields) (setColumns (assignments fields) r) =
      rowMatches (keyCond fields) r := by
  rw [rowMatches_pk fields pk hpk, rowMatches_pk fields pk hpk,
    lookup_setColumns _ _ _ (assignments_lookup_pk fields hnd pk hpk)]

theorem updatedRows_eq (fields : List Field) (rows : List StoredRow) :
    updatedRows fields rows =
      rows.map (fun r => if rowMatches (keyCond fields) r then setColumns (assignments fields) r
        else r) := by
  unfold updatedRows taggedRows
  rw [List.map_map]
  apply List.map_congr_left
  intro r _
  simp only [Function.comp_apply]
  split <;> rfl

theorem updatedRows_fixed (fields : List Field) (rows : List StoredRow)
    (h : ∀ r ∈ rows, rowMatches (keyCond fields) r = true →
      setColumns (assignments fields) r = r) :
    updatedRows fields rows = rows := by
  rw [updatedRows_eq]
  conv => rhs; rw [← List.map_id rows]
  apply List.map_congr_left
  intro r hr
  by_cases hm : rowMatches (keyCond fields) r = true
  · simp [hm, h r hr hm]
  · simp [hm]

theorem keyRows_updatedRows (fields : List Field)
    (hnd : (fields.map (fun f => f.Name)).Nodup) (pk : Field)
    (hpk : fields.find? (fun f => f.hasOpt "pk") = some pk) (rows : List StoredRow) :
    keyRows fields (updatedRows fields rows) =
      (keyRows fields rows).map (setColumns (assignments fields)) := by
  rw [updatedRows_eq]
  unfold keyRows
  induction rows with
  | nil => rfl
  | cons r rs ih =>
    simp only [List.map_cons, List.filter_cons]
    by_cases hm : rowMatches (keyCond fields) r = true
    · simp only [hm, if_true, rowMatches_setColumns fields hnd pk hpk, List.map_cons, ih]
    · simp only [hm, if_false, Bool.false_eq_true, ih]

theorem tagged_count (fields : List Field) (rows : List StoredRow) :
    ((taggedRows fields rows).filter (fun x => x.1)).length = (keyRows fields rows).length := by
  unfold taggedRows keyRows
  induction rows with
  | nil => rfl
  | cons r rs ih =>
    simp only [List.map_cons, List.filter_cons]
    by_cases hm : rowMatches (keyCond fields) r = true
    · simp only [hm, if_true, List.length_cons, ih]
    · simp only [hm, if_false, Bool.false_eq_true, ih]

theorem updateConflict_one (schema : Schema) (pkn : String) (v : SqlValue)
    (hs : schema.pk = some pkn) : ∀ (tagged : List (Bool × StoredRow)),
    (∀ x ∈ tagged, x.1 = true → x.2.lookup pkn = some v) →
    updateConflict schema tagged = false →
    (tagged.filter (fun x => x.1)).length ≤ 1
  | [], _, _ => by simp
  | x :: rest, hv, hc => by
    simp only [updateConflict, Bool.or_eq_false_iff, List.any_eq_false, Bool.and_eq_true,
      Bool.or_eq_true, not_and, Bool.not_eq_true] at hc
    have ih := updateConflict_one schema pkn v hs rest
      (fun y hy => hv y (List.mem_cons_of_mem _ hy)) hc.2
    simp only [List.filter_cons]
    by_cases hx : x.1 = true
    · simp only [hx, if_true, List.length_cons]
      have hnone : rest.filter (fun y => y.1) = [] := by
        apply List.filter_eq_nil_iff.mpr
        intro y hy hy1
        have h1 := hc.1 y hy (Or.inl hx)
        have hxv := hv x (List.mem_cons_self _ _) hx
        have hyv := hv y (List.mem_cons_of_mem _ hy) hy1
        simp [conflict, hs, hxv, hyv] at h1
      simp [hnone]
    · simp only [hx, if_false, Bool.false_eq_true]
      exact ih

theorem tagged_pk (fields : List Field)
    (hnd : (fields.map (fun f => f.Name)).Nodup) (pk : Field)
    (hpk : fields.find? (fun f => f.hasOpt "pk") = some pk) (rows : List StoredRow) :
    ∀ x ∈ taggedRows fields rows, x.1 = true → x.2.lookup pk.Name = some pk.toSql := by
  intro x hx hx1
  unfold taggedRows at hx
  obtain ⟨r, _, hr⟩ := List.mem_map.mp hx
  by_cases hm : rowMatches (keyCond fields) r = true
  · simp only [hm, if_true] at hr
    subst hr
    simp only
    rw [lookup_setColumns _ _ _ (assignments_lookup_pk fields hnd pk hpk)]
    rw [rowMatches_pk fields pk hpk] at hm
    simpa using hm
  · simp only [hm, if_false, Bool.false_eq_true] at hr
    subst hr
    simp at hx1

/-- After an Update of a record with a pk that succeeded, exactly one row
carries the pk, and every row that carries it holds the record's mutable
values. -/
theorem update_ok_rows (rl : String → ModelMethods → Store → Except Error Unit × Store)
    (hrl : ∀ x k mm s, x ≠ "Label" → (rl k mm s).2 x = s x)
    (n : String) (fs : GoFields) (m : Option ModelMethods)
    (hnd : (fs.descriptors.map (fun f => f.Name)).Nodup) (pk : Field)
    (hpk : fs.descriptors.find? (fun f => f.hasOpt "pk") = some pk)
    (hlabel : m = none ∨ n ≠ "Label")
    (s s1 : Store) (t : TableState) (hs : s n = some t)
    (hsch : t.schema = schemaOf fs.descriptors)
    (hup : Table.UpdateWith sqlite rl (.ptr (.struct n fs) m) s = (.ok (), s1)) :
    s1 n = some { t with rows := updatedRows fs.descriptors t.rows } ∧
    (keyRows fs.descriptors (updatedRows fs.descriptors t.rows)).length = 1 := by
  rw [updateWith_eval rl n fs m hnd s t hs hsch] at hup
  by_cases h1 : mutableDescriptors fs.descriptors = [] ∨ keyFields fs.descriptors = []
  · simp only [h1, if_true] at hup; cases hup
  · simp only [h1, if_false] at hup
    by_cases h2 : updateConflict t.schema (taggedRows fs.descriptors t.rows) = true
    · simp only [h2, if_true] at hup; cases hup
    · simp only [h2, if_false, Bool.false_eq_true] at hup
      by_cases h3 : keyRows fs.descriptors t.rows = []
      · simp only [h3, if_true] at hup; cases hup
      · simp only [h3, if_false] at hup
        constructor
        · cases m with
          | none =>
            simp only at hup
            injection hup with _ hh
            rw [← hh, Store.set_same]
          | some mm =>
            simp only at hup
            have hn : n ≠ "Label" := by
              rcases hlabel with h | h
              · cases h
              · exact h
            have hfr := hrl n n mm
              (s.set n { t with rows := updatedRows fs.descriptors t.rows }) hn
            rw [hup] at hfr
            simp only at hfr
            rw [hfr, Store.set_same]
        · rw [keyRows_updatedRows fs.descriptors hnd pk hpk, List.length_map]
          have hle := updateConflict_one t.schema pk.Name pk.toSql
            (by rw [hsch]; exact schemaOf_pk _ pk hpk) _
            (tagged_pk fs.descriptors hnd pk hpk t.rows) (by simpa using h2)
          rw [tagged_count] at hle
          have hpos : 0 < (keyRows fs.descriptors t.rows).length :=
            List.length_pos.mpr h3
          omega

theorem update_keeps_fixed (n : String) (fs : GoFields) (m : Option ModelMethods)
    (hnd : (fs.descriptors.map (fun f => f.Name)).Nodup)
    (hlabel : m = none ∨ n ≠ "Label")
    (s : Store) (t : TableState) (hs : s n = some t)
    (hsch : t.schema = schemaOf fs.descriptors)
    (hfix : ∀ r ∈ t.rows, rowMatches (keyCond fs.descriptors) r = true →
      setColumns (assignments fs.descriptors) r = r) :
    (Table.Update sqlite (.ptr (.struct n fs) m) s).2 n = some t := by
  unfold Table.Update
  rw [updateWith_eval _ n fs m hnd s t hs hsch, updatedRows_fixed _ _ hfix]
  have hset : (s.set n { t with rows := t.rows }) n = some t := Store.set_same s n t
  by_cases h1 : mutableDescriptors fs.descriptors = [] ∨ keyFields fs.descriptors = []
  · simp only [h1, if_true, hs]
  · simp only [h1, if_false]
    by_cases h2 : updateConflict t.schema (taggedRows fs.descriptors t.rows) = true
    · simp only [h2, if_true, hs]
    · simp only [h2, if_false, Bool.false_eq_true]
      by_cases h3 : keyRows fs.descriptors t.rows = []
      · simp only [h3, if_true, hset]
      · simp only [h3, if_false]
        cases m with
        | none => exact hset
        | some mm =>
          simp only
          have hn : n ≠ "Label" := by
            rcases hlabel with h | h
            · cases h
            · exact h
          rw [replaceLabels_frame n hn, hset]

theorem not_conflict_not_key (fields : List Field)
    (hnd : (fields.map (fun f => f.Name)).Nodup) (pk : Field)
    (hpk : fields.find? (fun f => f.hasOpt "pk") = some pk) (rows : List StoredRow)
    (hc : (rows.any fun r => conflict (schemaOf fields) r (recordRow fields)) = false) :
    keyRows fields rows = [] := by
  unfold keyRows
  apply List.filter_eq_nil_iff.mpr
  intro r hr hm
  have := conflict_of_key fields hnd pk hpk r hm
  rw [List.any_eq_false] at hc
  exact hc r hr this

theorem insert_twice_plain (n : String) (fs : GoFields) (m : Option ModelMethods)
    (s s1 : Store) (t : TableState) (pk : Field)
    (hnd : (fs.descriptors.map (fun f => f.Name)).Nodup)
    (hs : s n = some t) (hsch : t.schema = schemaOf fs.descriptors)
    (hpk : fs.descriptors.find? (fun f => f.hasOpt "pk") = some pk)
    (hlabel : m = none ∨ n ≠ "Label")
    (hins : Table.Insert sqlite (.ptr (.struct n fs) m) s = (.ok (), s1)) :
    ∃ t1, s1 n = some t1 ∧ (keyRows fs.descriptors t1.rows).length = 1 ∧
      (Table.Insert sqlite (.ptr (.struct n fs) m) s1).2 n = some t1 := by
  have hne : fs.descriptors ≠ [] := by
    intro h; rw [h] at hpk; cases hpk
  -- the state after the first Insert
  have key : ∃ t1, s1 n = some t1 ∧ t1.schema = schemaOf fs.descriptors ∧
      (keyRows fs.descriptors t1.rows).length = 1 ∧
      (∀ r ∈ t1.rows, rowMatches (keyCond fs.descriptors) r = true →
        setColumns (assignments fs.descriptors) r = r) := by
    have hins' := hins
    unfold Table.Insert at hins'
    rw [insertWith_eval _ _ n fs m hnd hne s t hs hsch] at hins'
    by_cases hc : (t.rows.any fun r => conflict t.schema r (recordRow fs.descriptors)) = true
    · simp only [hc, if_true] at hins'
      have hup := update_ok_rows (Table.ReplaceLabels sqlite)
        (fun x k mm s hx => replaceLabels_frame x hx k mm s) n fs m hnd pk hpk hlabel s s1 t hs
        hsch hins'
      refine ⟨_, hup.1, hsch, hup.2, ?_⟩
      intro r hr hm
      simp only [updatedRows_eq, List.mem_map] at hr
      obtain ⟨r0, _, hr0⟩ := hr
      by_cases hm0 : rowMatches (keyCond fs.descriptors) r0 = true
      · simp only [hm0, if_true] at hr0
        rw [← hr0, setColumns_idem]
      · simp only [hm0, if_false, Bool.false_eq_true] at hr0
        rw [hr0] at hm0
        exact absurd hm hm0
    · have hc' : (t.rows.any fun r => conflict t.schema r (recordRow fs.descriptors)) = false := by
        simpa using hc
      have hfree : keyRows fs.descriptors t.rows = [] :=
        not_conflict_not_key _ hnd pk hpk _ (by rw [← hsch]; exact hc')
      have h1 := insert_fresh n fs m hnd hne s s1 t hs hsch hlabel hfree hins
      refine ⟨_, h1, hsch, ?_, ?_⟩
      · show (keyRows fs.descriptors (t.rows ++ [recordRow fs.descriptors])).length = 1
        unfold keyRows at hfree ⊢
        rw [List.filter_append, hfree]
        simp [rowMatches_recordRow fs.descriptors hnd]
      · intro r hr hm
        simp only [List.mem_append, List.mem_singleton] at hr
        rcases hr with hr | hr
        · have := keyRows_nil _ _ hfree r hr
          rw [this] at hm; cases hm
        · rw [hr]; exact setColumns_recordRow _ hnd
  obtain ⟨t1, hs1, hsch1, hcount, hfix⟩ := key
  refine ⟨t1, hs1, hcount, ?_⟩
  have hrow : keyRows fs.descriptors t1.rows ≠ [] := by
    intro h; rw [h] at hcount; simp at hcount
  have hagain : Table.Insert sqlite (.ptr (.struct n fs) m) s1 =
      Table.Update sqlite (.ptr (.struct n fs) m) s1 := by
    unfold Table.Insert
    rw [insertWith_eval _ _ n fs m hnd hne s1 t1 hs1 hsch1]
    simp only [key_conflict fs.descriptors pk hnd hpk t1 hsch1 hrow, if_true]
  rw [hagain]
  exact update_keeps_fixed n fs m hnd hlabel s1 t1 hs1 hsch1 hfix

theorem labelSchema_eq (p k nm v : String) :
    schemaOf (labelDecl p k nm v).descriptors = labelSchema := by
  apply schemaOf_congr
  rfl

theorem label_nodup (p k nm v : String) :
    ((labelDecl p k nm v).descriptors.map (fun f => f.Name)).Nodup := by
  simp [labelDecl, GoFields.descriptors]

theorem label_recordRow (p k nm v : String) :
    recordRow (labelDecl p k nm v).descriptors = labelRow p k (nm, v) := rfl

theorem label_no_conflict (r1 r2 : StoredRow) : conflict labelSchema r1 r2 = false := by
  have h1 : labelSchema.pk = none := by decide
  have h2 : labelSchema.unique = [] := by decide
  simp [conflict, h1, h2]

theorem Store.set_set (s : Store) (n : String) (a b : TableState) :
    (s.set n a).set n b = s.set n b := by
  funext x
  unfold Store.set
  by_cases hx : x = n <;> simp [hx]

theorem insertLabel_eval (p k nm v : String) (s : Store) (lt : TableState)
    (hs : s "Label" = some lt) (hsch : lt.schema = labelSchema) :
    Table.InsertLabel sqlite (Label p k nm v) s =
      (.ok (), s.set "Label" { lt with rows := lt.rows ++ [labelRow p k (nm, v)] }) := by
  unfold Table.InsertLabel Label
  rw [insertWith_eval _ _ "Label" (labelDecl p k nm v) none (label_nodup p k nm v)
    (by simp [labelDecl, GoFields.descriptors]) s lt hs (by rw [hsch, labelSchema_eq])]
  have : (lt.rows.any fun r => conflict lt.schema r (labelRow p k (nm, v))) = false := by
    rw [hsch, List.any_eq_false]
    intro r _
    simp [label_no_conflict]
  simp only [label_recordRow, this, Bool.false_eq_true, if_false]

theorem insertLabelsLoop_eval (kind parent : String) (labels : List (String × String)) :
    ∀ (s : Store) (lt : TableState), s "Label" = some lt → lt.schema = labelSchema →
    insertLabelsLoop sqlite kind parent labels s =
      (.ok (), s.set "Label" { lt with rows := lt.rows ++ labels.map (labelRow parent kind) }) := by
  induction labels with
  | nil =>
    intro s lt hs _
    simp only [insertLabelsLoop, List.map_nil, List.append_nil]
    rw [Store.set_self s "Label" lt hs]
  | cons l rest ih =>
    intro s lt hs hsch
    obtain ⟨nm, v⟩ := l
    simp only [insertLabelsLoop, insertLabel_eval parent kind nm v s lt hs hsch]
    rw [ih _ { lt with rows := lt.rows ++ [labelRow parent kind (nm, v)] }
      (Store.set_same _ _ _) hsch, Store.set_set]
    simp

theorem label_keyCond (p k nm v : String) :
    keyCond (labelDecl p k nm v).descriptors = [("Parent", .text p), ("Kind", .text k)] := rfl

theorem label_keyFields_ne (p k nm v : String) :
    keyFields (labelDecl p k nm v).descriptors ≠ [] := by
  intro h
  have := label_keyCond p k nm v
  unfold keyCond at this
  rw [h] at this
  cases this

theorem label_remaining (p k nm v : String) (rows : List StoredRow) :
    remainingRows (labelDecl p k nm v).descriptors rows =
      rows.filter (fun r => !ownedBy k p r) := by
  unfold remainingRows
  rw [label_keyCond]
  apply List.filter_congr
  intro r _
  simp only [rowMatches, ownedBy, List.all_cons, List.all_nil, Bool.and_true]
  rw [Bool.and_comm]

theorem deleteLabels_eval (kind : String) (mm : ModelMethods) (s : Store) (lt : TableState)
    (hs : s "Label" = some lt) (hsch : lt.schema = labelSchema) :
    Table.DeleteLabels sqlite kind mm s =
      (.ok (), s.set "Label"
        { lt with rows := lt.rows.filter (fun r => !ownedBy kind mm.Pk r) }) := by
  unfold Table.DeleteLabels Table.DeleteLabel Label
  rw [deleteWith_eval _ "Label" (labelDecl mm.Pk kind "" "") none (label_nodup _ _ _ _) s lt hs
    (by rw [hsch, labelSchema_eq])]
  simp only [label_keyFields_ne, if_false, label_remaining]
  split <;> rfl

theorem replaceLabels_eval (kind : String) (mm : ModelMethods) (s : Store) (lt : TableState)
    (hs : s "Label" = some lt) (hsch : lt.schema = labelSchema) :
    Table.ReplaceLabels sqlite kind mm s =
      (.ok (), s.set "Label"
        { lt with rows := lt.rows.filter (fun r => !ownedBy kind mm.Pk r) ++
            mm.Labels.map (labelRow mm.Pk kind) }) := by
  unfold Table.ReplaceLabels Table.InsertLabels
  rw [deleteLabels_eval kind mm s lt hs hsch]
  simp only
  rw [insertLabelsLoop_eval kind mm.Pk mm.Labels _
    { lt with rows := lt.rows.filter (fun r => !ownedBy kind mm.Pk r) }
    (Store.set_same _ _ _) hsch, Store.set_set]

theorem owned_labelRow (kind parent : String) (l : String × String) :
    ownedBy kind parent (labelRow parent kind l) = true := by
  simp [ownedBy, labelRow, List.lookup]

theorem filter_owned_new (kind parent : String) (labels : List (String × String)) :
    (labels.map (labelRow parent kind)).filter (ownedBy kind parent) =
      labels.map (labelRow parent kind) := by
  apply List.filter_eq_self.mpr
  intro r hr
  obtain ⟨l, _, hl⟩ := List.mem_map.mp hr
  rw [← hl]
  exact owned_labelRow kind parent l

theorem filter_owned_rest (kind parent : String) (rows : List StoredRow) :
    (rows.filter (fun r => !ownedBy kind parent r)).filter (ownedBy kind parent) = [] := by
  apply List.filter_eq_nil_iff.mpr
  intro r hr
  have := (List.mem_filter.mp hr).2
  simpa using this

/-- The statement that a successful `Update` of a record with labels ended
with: the label rewrite, on a store whose other tables are as before. -/
theorem updateWith_ok (rl : String → ModelMethods → Store → Except Error Unit × Store)
    (e : Any) (mm : ModelMethods) (hm : e.asModel = some mm) (s s1 : Store)
    (h : Table.UpdateWith sqlite rl e s = (.ok (), s1)) :
    ∃ s', (∀ x, x ≠ Table.Name e → s' x = s x) ∧ rl (Table.Name e) mm s' = (.ok (), s1) := by
  unfold Table.UpdateWith at h
  cases hfs : Table.Fields e with
  | error err => rw [hfs] at h; cases h
  | ok fields =>
    rw [hfs] at h
    simp only [Table.updateSQL, sqlite] at h
    have hfr := fun x hx => sqliteExec_frame (UpdateSQL { TmplData.zero (Table.Name e) with
          Fields := Table.MutableFields fields,
          Keys := Table.KeyFields fields,
          Pk := Table.PkField fields })
      (Table.Params (markWhere (markAll Field.Mutable fields))) s x hx
    revert hfr h
    cases sqliteExec (UpdateSQL { TmplData.zero (Table.Name e) with
          Fields := Table.MutableFields fields,
          Keys := Table.KeyFields fields,
          Pk := Table.PkField fields })
      (Table.Params (markWhere (markAll Field.Mutable fields))) s with
    | mk r s2 =>
      intro h hfr
      cases r with
      | error err => cases h
      | ok res =>
        simp only at h
        cases hra : res.RowsAffected with
        | error err => rw [hra] at h; cases h
        | ok nRows =>
          rw [hra] at h
          simp only at h
          split at h
          · cases h
          · rw [hm] at h
            exact ⟨s2, hfr, h⟩

theorem sqliteExec_error (stmt : Stmt) (args : List NamedArg) (s s2 : Store) (err : Error)
    (h : sqliteExec stmt args s = (.error err, s2)) : s2 = s := by
  cases stmt with
  | insert table columns values =>
    simp only [sqliteExec] at h
    cases hs : s table with
    | none => rw [hs] at h; injection h with _ h2; exact h2.symm
    | some t =>
      rw [hs] at h
      simp only at h
      cases hi : sqliteInsert t columns values args with
      | error e => rw [hi] at h; injection h with _ h2; exact h2.symm
      | ok t1 => rw [hi] at h; injection h with h1 _; cases h1
  | update table set cond =>
    simp only [sqliteExec] at h
    cases hs : s table with
    | none => rw [hs] at h; injection h with _ h2; exact h2.symm
    | some t =>
      rw [hs] at h
      simp only at h
      cases hi : sqliteUpdate t set cond args with
      | error e => rw [hi] at h; injection h with _ h2; exact h2.symm
      | ok t1 => rw [hi] at h; injection h with h1 _; cases h1
  | delete table cond =>
    simp only [sqliteExec] at h
    cases hs : s table with
    | none => rw [hs] at h; injection h with _ h2; exact h2.symm
    | some t =>
      rw [hs] at h
      simp only at h
      cases hi : sqliteDelete t cond args with
      | error e => rw [hi] at h; injection h with _ h2; exact h2.symm
      | ok t1 => rw [hi] at h; injection h with h1 _; cases h1
  | get table columns cond =>
    simp only [sqliteExec] at h; injection h with _ h2; exact h2.symm
  | list table columns cond labels sort page =>
    simp only [sqliteExec] at h; injection h with _ h2; exact h2.symm

theorem sqliteExec_insert_ok (table : String) (columns values : List String)
    (args : List NamedArg) (s s2 : Store) (r : Result)
    (h : sqliteExec (.insert table columns values) args s = (.ok r, s2)) :
    r.RowsAffected = .ok 1 := by
  simp only [sqliteExec] at h
  cases hs : s table with
  | none => rw [hs] at h; injection h with h1 _; cases h1
  | some t =>
    rw [hs] at h
    simp only at h
    cases hi : sqliteInsert t columns values args with
    | error e => rw [hi] at h; injection h with h1 _; cases h1
    | ok t1 =>
      rw [hi] at h
      injection h with h1 _
      injection h1 with h1
      rw [← h1]

/-- How a successful `Insert` of a record with labels ended: with the
`Update` it fell back to, or with the insert of the labels on a store whose
other tables are as before. -/
theorem insertWith_ok (up : Any → Store → Except Error Unit × Store)
    (il : String → ModelMethods → Store → Except Error Unit × Store)
    (e : Any) (mm : ModelMethods) (hm : e.asModel = some mm) (s s1 : Store)
    (h : Table.InsertWith sqlite up il e s = (.ok (), s1)) :
    up e s = (.ok (), s1) ∨
    ∃ s', (∀ x, x ≠ Table.Name e → s' x = s x) ∧ il (Table.Name e) mm s' = (.ok (), s1) := by
  unfold Table.InsertWith at h
  cases hfs : Table.Fields e with
  | error err => rw [hfs] at h; cases h
  | ok fields =>
    rw [hfs] at h
    simp only [Table.insertSQL, sqlite, InsertSQL] at h
    have hfr := fun x hx => sqliteExec_frame
      (.insert (TmplData.zero (Table.Name e)).Table (fields.map (fun f => f.Name))
        (fields.map (fun f => f.Param.1)))
      (Table.Params (List.map Field.mark fields)) s x hx
    have herr := sqliteExec_error
      (.insert (TmplData.zero (Table.Name e)).Table (fields.map (fun f => f.Name))
        (fields.map (fun f => f.Param.1)))
      (Table.Params (List.map Field.mark fields)) s
    have hone := sqliteExec_insert_ok (TmplData.zero (Table.Name e)).Table
      (fields.map (fun f => f.Name)) (fields.map (fun f => f.Param.1))
      (Table.Params (List.map Field.mark fields)) s
    revert hfr h herr hone
    cases sqliteExec
      (.insert (TmplData.zero (Table.Name e)).Table (fields.map (fun f => f.Name))
        (fields.map (fun f => f.Param.1)))
      (Table.Params (List.map Field.mark fields)) s with
    | mk r s2 =>
      intro h hfr herr hone
      cases r with
      | error err =>
        have hs2 := herr s2 err rfl
        subst hs2
        cases err <;> simp only at h <;> first | cases h | exact Or.inl h
      | ok res =>
        simp only [insertDone, hone s2 res rfl, hm] at h
        exact Or.inr ⟨s2, hfr, by simpa using h⟩

theorem labelRowsOf_set (s : Store) (lt : TableState) (kind parent : String) :
    labelRowsOf (s.set "Label" lt) kind parent = lt.rows.filter (ownedBy kind parent) := by
  unfold labelRowsOf
  rw [Store.set_same]

theorem descriptors_valid : ∀ (fs : GoFields), ∀ f ∈ fs.descriptors, f.Validate = .ok ()
  | .nil, f, h => by cases h
  | .cons name tag (.struct _ sub) rest, f, h => by
    simp only [GoFields.descriptors, List.mem_append] at h
    rcases h with h | h
    · exact descriptors_valid sub f h
    · exact descriptors_valid rest f h
  | .cons name tag (.string s) rest, f, h => by
    simp only [GoFields.descriptors, List.mem_append, List.mem_singleton] at h
    rcases h with h | h
    · subst h; rfl
    · exact descriptors_valid rest f h
  | .cons name tag (.int s) rest, f, h => by
    simp only [GoFields.descriptors, List.mem_append, List.mem_singleton] at h
    rcases h with h | h
    · subst h; rfl
    · exact descriptors_valid rest f h
  | .cons name tag (.other s) rest, f, h => by
    simp only [GoFields.descriptors, List.nil_append] at h
    exact descriptors_valid rest f h

theorem validateAll_ok : ∀ (fields : List Field), (∀ f ∈ fields, f.Validate = .ok ()) →
    validateAll fields = .ok ()
  | [], _ => rfl
  | f :: fs, h => by
    simp only [validateAll, h f (List.mem_cons_self _ _)]
    exact validateAll_ok fs (fun g hg => h g (List.mem_cons_of_mem _ hg))

/-- C12, the code at the failing input: for the record type `Flagged` with
the fields `Id int` and `Active bool`, Fields returns the descriptor of `Id`
alone, it passes Validate, and DDL returns the one statement `CREATE TABLE`
with the column `Id` and no column for `Active`; and for no pointer to a
struct does a descriptor that Fields returns fail Validate, or DDL return an
error. -/
theorem unsupported_field_dropped :
    Table.Fields (.ptr (.struct "Flagged" (flaggedDecl 1)) none) =
      .ok [⟨.int 1, "pk", "Id", "", 0, false⟩] ∧
    (Table.DDL RangeOrder.added RangeOrder.added
        (.ptr (.struct "Flagged" (flaggedDecl 1)) none)).map (fun l => l.map DDLStmt.text) =
      .ok ["\nCREATE TABLE IF NOT EXISTS Flagged (\nId INTEGER PRIMARY KEY\n);\n"] ∧
    (∀ (n : String) (fs : GoFields) (m : Option ModelMethods) (uo io : RangeOrder),
      (∀ f ∈ fs.descriptors, f.Validate = .ok ()) ∧
      ∃ stmts, Table.DDL uo io (.ptr (.struct n fs) m) = .ok stmts) := by
  refine ⟨by decide, by decide, ?_⟩
  intro n fs m uo io
  refine ⟨descriptors_valid fs, ?_⟩
  have hf : Table.Fields (.ptr (.struct n fs) m) = .ok fs.descriptors := rfl
  simp only [Table.DDL, hf, validateAll_ok _ (descriptors_valid fs)]
  exact ⟨_, rfl⟩

theorem descriptors_leaves : ∀ (fs : GoFields),
    fs.descriptors.map (fun f => (f.Name, f.Tag, f.Value)) =
      fs.leaves.filter (fun l => l.2.2.supported)
  | .nil => rfl
  | .cons name tag (.struct _ sub) rest => by
    simp only [GoFields.descriptors, GoFields.leaves, List.map_append, List.filter_append,
      descriptors_leaves sub, descriptors_leaves rest]
  | .cons name tag (.string s) rest => by
    simp only [GoFields.descriptors, GoFields.leaves, List.map_append, List.filter_append,
      descriptors_leaves rest]
    rfl
  | .cons name tag (.int s) rest => by
    simp only [GoFields.descriptors, GoFields.leaves, List.map_append, List.filter_append,
      descriptors_leaves rest]
    rfl
  | .cons name tag (.other s) rest => by
    simp only [GoFields.descriptors, GoFields.leaves, List.map_append, List.filter_append,
      descriptors_leaves rest]
    rfl

theorem splitCommaAux_ne_nil : ∀ (s cur : List Char), splitCommaAux s cur ≠ []
  | [], cur => by simp [splitCommaAux]
  | c :: cs, cur => by
    unfold splitCommaAux
    by_cases h : c = ','
    · simp [h]
    · simp only [h, if_false]
      exact splitCommaAux_ne_nil cs (c :: cur)

theorem joinComma_cons (p : List Char) (ps : List (List Char)) (h : ps ≠ []) :
    joinComma (p :: ps) = p ++ ',' :: joinComma ps := by
  cases ps with
  | nil => exact absurd rfl h
  | cons q rest => rfl

theorem splitCommaAux_join : ∀ (s cur : List Char),
    joinComma (splitCommaAux s cur) = cur.reverse ++ s
  | [], cur => by simp [splitCommaAux, joinComma]
  | c :: cs, cur => by
    unfold splitCommaAux
    by_cases h : c = ','
    · simp only [h, if_true]
      rw [joinComma_cons _ _ (splitCommaAux_ne_nil cs []), splitCommaAux_join cs []]
      simp
    · simp only [h, if_false]
      rw [splitCommaAux_join cs (c :: cur)]
      simp

theorem splitCommaAux_no_comma : ∀ (s cur : List Char), ',' ∉ cur →
    ∀ p ∈ splitCommaAux s cur, ',' ∉ p
  | [], cur, hc, p, hp => by
    simp only [splitCommaAux, List.mem_singleton] at hp
    subst hp
    simpa using hc
  | c :: cs, cur, hc, p, hp => by
    unfold splitCommaAux at hp
    by_cases h : c = ','
    · simp only [h, if_true, List.mem_cons] at hp
      rcases hp with hp | hp
      · subst hp; simpa using hc
      · exact splitCommaAux_no_comma cs [] (by simp) p hp
    · simp only [h, if_false] at hp
      refine splitCommaAux_no_comma cs (c :: cur) ?_ p hp
      simp only [List.mem_cons, not_or]
      exact ⟨fun hh => h hh.symm, hc⟩

theorem trimSpace_trimmed (p : List Char) : Trimmed p (trimSpace p) := by
  have h1 := List.takeWhile_append_dropWhile isSpace p
  have h2 := List.takeWhile_append_dropWhile isSpace (p.dropWhile isSpace).reverse
  refine ⟨p.takeWhile isSpace, ((p.dropWhile isSpace).reverse.takeWhile isSpace).reverse,
    ?_, ?_, ?_, ?_, ?_⟩
  · unfold trimSpace
    have h3 := congrArg List.reverse h2
    simp only [List.reverse_append, List.reverse_reverse] at h3
    rw [List.append_assoc, h3, h1]
  · intro c hc
    exact List.mem_takeWhile_imp hc
  · intro c hc
    exact List.mem_takeWhile_imp (List.mem_reverse.mp hc)
  · intro c hc
    unfold trimSpace at hc
    -- the head of the trimmed text is the head of the text without leading space
    have h3 := congrArg List.reverse h2
    simp only [List.reverse_append, List.reverse_reverse] at h3
    have hd : (p.dropWhile isSpace).head? = some c := by
      rw [← h3]
      cases hr : ((p.dropWhile isSpace).reverse.dropWhile isSpace).reverse with
      | nil => rw [hr] at hc; cases hc
      | cons a as => rw [hr] at hc; simpa using hc
    cases hq : p.dropWhile isSpace with
    | nil => rw [hq] at hd; cases hd
    | cons a as =>
      rw [hq] at hd
      simp only [List.head?_cons, Option.some.injEq] at hd
      have := List.head_dropWhile_not isSpace p (by rw [hq]; simp)
      simp only [hq, List.head_cons] at this
      rw [← hd]
      simpa using this
  · intro c hc
    unfold trimSpace at hc
    rw [List.getLast?_reverse] at hc
    cases hq : (p.dropWhile isSpace).reverse.dropWhile isSpace with
    | nil => rw [hq] at hc; cases hc
    | cons a as =>
      rw [hq] at hc
      simp only [List.head?_cons, Option.some.injEq] at hc
      have := List.head_dropWhile_not isSpace (p.dropWhile isSpace).reverse (by rw [hq]; simp)
      simp only [hq, List.head_cons] at this
      rw [← hc]
      simpa using this

theorem dropLeading_eq : ∀ (p s r : List Char), dropLeading p s = some r ↔ s = p ++ r
  | [], s, r => by simp [dropLeading, eq_comm]
  | _ :: _, [], r => by simp [dropLeading]
  | a :: p, c :: cs, r => by
    unfold dropLeading
    by_cases h : a = c
    · simp only [h, if_true, List.cons_append, List.cons.injEq, true_and]
      exact dropLeading_eq p cs r
    · simp only [h, if_false, List.cons_append, List.cons.injEq]
      constructor
      · intro hh; cases hh
      · intro hh; exact absurd hh.1.symm h

theorem beforeLastClose_none : ∀ (l : List Char), beforeLastClose l = none ↔ ')' ∉ l
  | [] => by simp [beforeLastClose]
  | c :: cs => by
    unfold beforeLastClose
    cases h : beforeLastClose cs with
    | some g =>
      have := (beforeLastClose_none cs).not.mp (by rw [h]; simp)
      simp only [not_not] at this
      simp [this]
    | none =>
      have := (beforeLastClose_none cs).mp h
      by_cases hc : c = ')'
      · simp [hc]
      · simp only [hc, if_false, List.mem_cons, not_or, true_iff]
        exact ⟨fun hh => hc hh.symm, this⟩

theorem beforeLastClose_some : ∀ (l g : List Char), beforeLastClose l = some g →
    ∃ post, l = g ++ ')' :: post ∧ ')' ∉ post
  | [], g, h => by simp [beforeLastClose] at h
  | c :: cs, g, h => by
    unfold beforeLastClose at h
    cases hr : beforeLastClose cs with
    | some g1 =>
      rw [hr] at h
      simp only [Option.some.injEq] at h
      obtain ⟨post, hp, hn⟩ := beforeLastClose_some cs g1 hr
      exact ⟨post, by rw [← h, hp]; rfl, hn⟩
    | none =>
      rw [hr] at h
      by_cases hc : c = ')'
      · simp only [hc, if_true, Option.some.injEq] at h
        exact ⟨cs, by rw [← h, hc]; rfl, (beforeLastClose_none cs).mp hr⟩
      · simp [hc] at h

theorem takeWhile_line (g post : List Char) (hg : '\n' ∉ g) :
    (g ++ ')' :: post).takeWhile (fun c => c ≠ '\n') =
      g ++ ')' :: post.takeWhile (fun c => c ≠ '\n') := by
  induction g with
  | nil => simp [List.takeWhile]
  | cons a g ih =>
    simp only [List.mem_cons, not_or] at hg
    have ha : a ≠ '\n' := fun h => hg.1 h.symm
    simp only [List.cons_append, List.takeWhile_cons, ha, ne_eq, not_false_eq_true,
      decide_True, if_true, List.cons.injEq, true_and]
    exact ih hg.2

theorem greedyGroup_sound (r g : List Char) (h : greedyGroup r = some g) :
    g ≠ [] ∧ '\n' ∉ g ∧ ∃ post, r = g ++ ')' :: post := by
  unfold greedyGroup at h
  cases hb : beforeLastClose (r.takeWhile (fun c => c ≠ '\n')) with
  | none => rw [hb] at h; cases h
  | some g1 =>
    rw [hb] at h
    cases g1 with
    | nil => cases h
    | cons c g2 =>
      simp only [Option.some.injEq] at h
      subst h
      obtain ⟨post, hp, _⟩ := beforeLastClose_some _ _ hb
      refine ⟨by simp, ?_, post ++ r.dropWhile (fun c => c ≠ '\n'), ?_⟩
      · intro hmem
        have hin : '\n' ∈ r.takeWhile (fun c => c ≠ '\n') := by
          rw [hp]; exact List.mem_append_left _ hmem
        have := List.mem_takeWhile_imp hin
        simp at this
      · have := List.takeWhile_append_dropWhile (fun c => decide (c ≠ '\n')) r
        rw [hp] at this
        exact this.symm.trans (by simp)

theorem greedyGroup_complete (g post : List Char) (hg : g ≠ []) (hn : '\n' ∉ g) :
    ∃ g1, greedyGroup (g ++ ')' :: post) = some g1 := by
  unfold greedyGroup
  rw [takeWhile_line g post hn]
  cases hb : beforeLastClose (g ++ ')' :: post.takeWhile (fun c => c ≠ '\n')) with
  | none =>
    have := (beforeLastClose_none _).mp hb
    simp at this
  | some g1 =>
    cases g1 with
    | nil =>
      obtain ⟨p1, hp, hnot⟩ := beforeLastClose_some _ _ hb
      cases g with
      | nil => exact absurd rfl hg
      | cons a g' =>
        simp only [List.cons_append, List.nil_append, List.cons.injEq] at hp
        exfalso
        apply hnot
        rw [← hp.2]
        simp
    | cons c g2 => exact ⟨_, rfl⟩

theorem greedyGroup_exact (g : List Char) (hg : g ≠ []) (hn : '\n' ∉ g) :
    greedyGroup (g ++ [')']) = some g := by
  unfold greedyGroup
  rw [takeWhile_line g [] hn]
  simp only [List.takeWhile_nil]
  cases hb : beforeLastClose (g ++ [')']) with
  | none =>
    have := (beforeLastClose_none _).mp hb
    simp at this
  | some g1 =>
    obtain ⟨p1, hp, hnot⟩ := beforeLastClose_some _ _ hb
    have hp1 : p1 = [] := by
      cases hq : p1.reverse with
      | nil => simpa using hq
      | cons a as =>
        have hp1 : p1 = as.reverse ++ [a] := by
          have := congrArg List.reverse hq
          simpa using this
        rw [hp1] at hp hnot
        have h2 := congrArg List.reverse hp
        simp only [List.reverse_append, List.reverse_cons, List.reverse_nil, List.nil_append,
          List.singleton_append, List.reverse_reverse, List.cons_append, List.cons.injEq] at h2
        exfalso; apply hnot
        rw [← h2.1]; simp
    subst hp1
    have : g = g1 := List.append_cancel_right hp
    subst this
    cases g with
    | nil => exact absurd rfl hg
    | cons c g' => rfl

theorem findGroup_sound (word : List Char) : ∀ (s g : List Char),
    findGroup word s = some g → HasGroup word s g
  | [], g, h => by simp [findGroup] at h
  | c :: cs, g, h => by
    unfold findGroup at h
    cases hm : (dropLeading (word ++ ['(']) (c :: cs)).bind greedyGroup with
    | some g1 =>
      rw [hm] at h
      simp only [Option.some.injEq] at h
      subst h
      obtain ⟨r, hr, hg⟩ := Option.bind_eq_some.mp hm
      obtain ⟨hne, hnl, post, hpost⟩ := greedyGroup_sound r g1 hg
      have := (dropLeading_eq _ _ _).mp hr
      refine ⟨[], post, ?_, hne, hnl⟩
      rw [this, hpost]
      simp
    | none =>
      rw [hm] at h
      obtain ⟨pre, post, hp, hne, hnl⟩ := findGroup_sound word cs g h
      exact ⟨c :: pre, post, by rw [hp]; simp, hne, hnl⟩

theorem findGroup_complete (word : List Char) : ∀ (pre g post : List Char),
    g ≠ [] → '\n' ∉ g →
    ∃ g1, findGroup word (pre ++ word ++ '(' :: g ++ ')' :: post) = some g1
  | [], g, post, hne, hnl => by
    obtain ⟨g1, hg1⟩ := greedyGroup_complete g post hne hnl
    have hd : dropLeading (word ++ ['(']) (word ++ '(' :: g ++ ')' :: post) =
        some (g ++ ')' :: post) := (dropLeading_eq _ _ _).mpr (by simp)
    cases hw : word ++ '(' :: g ++ ')' :: post with
    | nil => simp at hw
    | cons c cs =>
      rw [hw] at hd
      simp only [List.nil_append, List.append_assoc] at hw ⊢
      rw [hw]
      unfold findGroup
      simp only [hd, Option.some_bind, hg1]
      exact ⟨_, rfl⟩
  | a :: pre, g, post, hne, hnl => by
    obtain ⟨g1, hg1⟩ := findGroup_complete word pre g post hne hnl
    simp only [List.cons_append]
    unfold findGroup
    cases (dropLeading (word ++ ['(']) (a :: (pre ++ word ++ '(' :: g ++ ')' :: post))).bind
        greedyGroup with
    | some g2 => exact ⟨_, rfl⟩
    | none => exact ⟨g1, by simpa using hg1⟩

theorem findGroup_exact (word g : List Char) (hne : g ≠ []) (hnl : '\n' ∉ g) :
    findGroup word (word ++ '(' :: g ++ [')']) = some g := by
  have hd : dropLeading (word ++ ['(']) (word ++ '(' :: g ++ [')']) = some (g ++ [')']) :=
    (dropLeading_eq _ _ _).mpr (by simp)
  cases hw : word ++ '(' :: g ++ [')'] with
  | nil => simp at hw
  | cons c cs =>
    rw [hw] at hd
    unfold findGroup
    simp only [hd, Option.some_bind, greedyGroup_exact g hne hnl]

theorem findGroup_none (word s : List Char) :
    findGroup word s = none ↔ ¬ ∃ g, HasGroup word s g := by
  constructor
  · rintro h ⟨g, pre, post, hp, hne, hnl⟩
    obtain ⟨g1, hg1⟩ := findGroup_complete word pre g post hne hnl
    rw [← hp, h] at hg1
    cases hg1
  · intro h
    cases hf : findGroup word s with
    | none => rfl
    | some g => exact absurd ⟨g, findGroup_sound word s g hf⟩ h

theorem tableRest_sound : ∀ (cs t g : List Char), tableRest cs = some (t, g) →
    '\n' ∉ t ∧ g ≠ [] ∧ '\n' ∉ g ∧ ∃ post, cs = t ++ '(' :: g ++ ')' :: post
  | [], t, g, h => by simp [tableRest] at h
  | c :: cs, t, g, h => by
    unfold tableRest at h
    cases hr : (if c = '\n' then none else tableRest cs) with
    | some p =>
      obtain ⟨t1, g1⟩ := p
      rw [hr] at h
      simp only [Option.some.injEq, Prod.mk.injEq] at h
      obtain ⟨ht, hg⟩ := h
      subst ht; subst hg
      by_cases hc : c = '\n'
      · simp [hc] at hr
      · simp only [hc, if_false] at hr
        obtain ⟨h1, h2, h3, post, h4⟩ := tableRest_sound cs t1 g1 hr
        refine ⟨?_, h2, h3, post, by rw [h4]; rfl⟩
        simp only [List.mem_cons, not_or]
        exact ⟨fun hh => hc hh.symm, h1⟩
    | none =>
      rw [hr] at h
      by_cases hc : c = '('
      · simp only [hc, if_true, Option.map_eq_some', Prod.mk.injEq] at h
        obtain ⟨g1, hg1, ht, hg⟩ := h
        subst ht; subst hg
        obtain ⟨h2, h3, post, h4⟩ := greedyGroup_sound cs g1 hg1
        exact ⟨by simp, h2, h3, post, by rw [h4, hc]; rfl⟩
      · simp [hc] at h

theorem tableRest_complete : ∀ (t g post : List Char), '\n' ∉ t → g ≠ [] → '\n' ∉ g →
    ∃ p, tableRest (t ++ '(' :: g ++ ')' :: post) = some p
  | [], g, post, _, hne, hnl => by
    obtain ⟨g1, hg1⟩ := greedyGroup_complete g post hne hnl
    simp only [List.nil_append, List.cons_append]
    unfold tableRest
    cases (if '(' = '\n' then none else tableRest (g ++ ')' :: post)) with
    | some p => exact ⟨_, rfl⟩
    | none => simp [hg1]
  | a :: t, g, post, ht, hne, hnl => by
    simp only [List.mem_cons, not_or] at ht
    obtain ⟨p, hp⟩ := tableRest_complete t g post ht.2 hne hnl
    have ha : ¬ a = '\n' := fun h => ht.1 h.symm
    simp only [List.cons_append]
    unfold tableRest
    simp only [ha, if_false]
    simp only [List.cons_append, List.append_assoc] at hp
    simp only [List.append_assoc, List.cons_append, hp]
    exact ⟨_, rfl⟩

theorem tableRest_open : ∀ (cs : List Char) (p : List Char × List Char),
    tableRest cs = some p → '(' ∈ cs
  | [], p, h => by simp [tableRest] at h
  | c :: cs, p, h => by
    unfold tableRest at h
    cases hr : (if c = '\n' then none else tableRest cs) with
    | some q =>
      by_cases hc : c = '\n'
      · simp [hc] at hr
      · simp only [hc, if_false] at hr
        exact List.mem_cons_of_mem _ (tableRest_open cs q hr)
    | none =>
      rw [hr] at h
      by_cases hc : c = '('
      · rw [hc]; exact List.mem_cons_self _ _
      · simp [hc] at h

theorem tableRest_exact : ∀ (t g : List Char), '\n' ∉ t → g ≠ [] → '\n' ∉ g → '(' ∉ g →
    tableRest (t ++ '(' :: g ++ [')']) = some (t, g)
  | [], g, _, hne, hnl, hop => by
    have hnone : tableRest (g ++ [')']) = none := by
      cases hr : tableRest (g ++ [')']) with
      | none => rfl
      | some p =>
        have := tableRest_open _ p hr
        simp only [List.mem_append, List.mem_singleton] at this
        rcases this with h | h
        · exact absurd h hop
        · cases h
    simp only [List.nil_append, List.cons_append]
    unfold tableRest
    have hd : ('(' = '\n') = False := by decide
    simp only [hd, if_false, hnone, if_true, greedyGroup_exact g hne hnl, Option.map_some']
  | a :: t, g, ht, hne, hnl, hop => by
    simp only [List.mem_cons, not_or] at ht
    have ih := tableRest_exact t g ht.2 hne hnl hop
    have ha : ¬ a = '\n' := fun h => ht.1 h.symm
    simp only [List.cons_append]
    unfold tableRest
    simp only [ha, if_false]
    simp only [List.cons_append, List.append_assoc] at ih
    simp only [List.append_assoc, List.cons_append, ih]

theorem greedyPair_sound (r t g : List Char) (h : greedyPair r = some (t, g)) :
    t ≠ [] ∧ '\n' ∉ t ∧ g ≠ [] ∧ '\n' ∉ g ∧ ∃ post, r = t ++ '(' :: g ++ ')' :: post := by
  cases r with
  | nil => simp [greedyPair] at h
  | cons c cs =>
    unfold greedyPair at h
    by_cases hc : c = '\n'
    · simp [hc] at h
    · simp only [hc, if_false, Option.map_eq_some', Prod.mk.injEq] at h
      obtain ⟨⟨t1, g1⟩, hr, ht, hg⟩ := h
      simp only at ht hg
      subst ht; subst hg
      obtain ⟨h1, h2, h3, post, h4⟩ := tableRest_sound cs t1 g1 hr
      refine ⟨by simp, ?_, h2, h3, post, by rw [h4]; rfl⟩
      simp only [List.mem_cons, not_or]
      exact ⟨fun hh => hc hh.symm, h1⟩

theorem greedyPair_complete (t g post : List Char) (hte : t ≠ []) (ht : '\n' ∉ t)
    (hne : g ≠ []) (hnl : '\n' ∉ g) :
    ∃ p, greedyPair (t ++ '(' :: g ++ ')' :: post) = some p := by
  cases t with
  | nil => exact absurd rfl hte
  | cons a t =>
    simp only [List.mem_cons, not_or] at ht
    obtain ⟨p, hp⟩ := tableRest_complete t g post ht.2 hne hnl
    have ha : ¬ a = '\n' := fun h => ht.1 h.symm
    simp only [List.cons_append]
    unfold greedyPair
    simp only [ha, if_false]
    simp only [List.cons_append, List.append_assoc] at hp
    simp only [List.append_assoc, List.cons_append, hp]
    exact ⟨_, rfl⟩

theorem greedyPair_exact (t g : List Char) (hte : t ≠ []) (ht : '\n' ∉ t)
    (hne : g ≠ []) (hnl : '\n' ∉ g) (hop : '(' ∉ g) :
    greedyPair (t ++ '(' :: g ++ [')']) = some (t, g) := by
  cases t with
  | nil => exact absurd rfl hte
  | cons a t =>
    simp only [List.mem_cons, not_or] at ht
    have ih := tableRest_exact t g ht.2 hne hnl hop
    have ha : ¬ a = '\n' := fun h => ht.1 h.symm
    simp only [List.cons_append]
    unfold greedyPair
    simp only [ha, if_false]
    simp only [List.cons_append, List.append_assoc] at ih
    simp only [List.append_assoc, List.cons_append, ih, Option.map_some']

theorem findFk_sound : ∀ (s t g : List Char), findFk s = some (t, g) → HasFk s t g
  | [], t, g, h => by simp [findFk] at h
  | c :: cs, t, g, h => by
    unfold findFk at h
    cases hm : (dropLeading "fk:".toList (c :: cs)).bind greedyPair with
    | some p =>
      rw [hm] at h
      simp only [Option.some.injEq] at h
      subst h
      obtain ⟨r, hr, hg⟩ := Option.bind_eq_some.mp hm
      obtain ⟨h1, h2, h3, h4, post, hpost⟩ := greedyPair_sound r t g hg
      have := (dropLeading_eq _ _ _).mp hr
      refine ⟨[], post, ?_, h1, h3, h2, h4⟩
      rw [this, hpost]
      simp
    | none =>
      rw [hm] at h
      obtain ⟨pre, post, hp, h1, h2, h3, h4⟩ := findFk_sound cs t g h
      exact ⟨c :: pre, post, by rw [hp]; simp, h1, h2, h3, h4⟩

theorem findFk_complete : ∀ (pre t g post : List Char),
    t ≠ [] → g ≠ [] → '\n' ∉ t → '\n' ∉ g →
    ∃ p, findFk (pre ++ "fk:".toList ++ t ++ '(' :: g ++ ')' :: post) = some p
  | [], t, g, post, hte, hne, ht, hnl => by
    obtain ⟨p, hp⟩ := greedyPair_complete t g post hte ht hne hnl
    have hd : dropLeading "fk:".toList ("fk:".toList ++ t ++ '(' :: g ++ ')' :: post) =
        some (t ++ '(' :: g ++ ')' :: post) := (dropLeading_eq _ _ _).mpr (by simp)
    cases hw : "fk:".toList ++ t ++ '(' :: g ++ ')' :: post with
    | nil => simp at hw
    | cons c cs =>
      rw [hw] at hd
      simp only [List.nil_append, List.append_assoc] at hw ⊢
      rw [hw]
      unfold findFk
      simp only [hd, Option.some_bind, hp]
      exact ⟨_, rfl⟩
  | a :: pre, t, g, post, hte, hne, ht, hnl => by
    obtain ⟨p, hp⟩ := findFk_complete pre t g post hte hne ht hnl
    simp only [List.cons_append]
    unfold findFk
    cases (dropLeading "fk:".toList
        (a :: (pre ++ "fk:".toList ++ t ++ '(' :: g ++ ')' :: post))).bind greedyPair with
    | some q => exact ⟨_, rfl⟩
    | none => exact ⟨p, by simpa using hp⟩

theorem findFk_exact (t g : List Char) (hte : t ≠ []) (hne : g ≠ []) (ht : '\n' ∉ t)
    (hnl : '\n' ∉ g) (hop : '(' ∉ g) :
    findFk ("fk:".toList ++ t ++ '(' :: g ++ [')']) = some (t, g) := by
  have hd : dropLeading "fk:".toList ("fk:".toList ++ t ++ '(' :: g ++ [')']) =
      some (t ++ '(' :: g ++ [')']) := (dropLeading_eq _ _ _).mpr (by simp)
  cases hw : "fk:".toList ++ t ++ '(' :: g ++ [')'] with
  | nil => simp at hw
  | cons c cs =>
    rw [hw] at hd
    unfold findFk
    simp only [hd, Option.some_bind, greedyPair_exact t g hte ht hne hnl hop]

theorem findFk_none (s : List Char) : findFk s = none ↔ ¬ ∃ t g, HasFk s t g := by
  constructor
  · rintro h ⟨t, g, pre, post, hp, h1, h2, h3, h4⟩
    obtain ⟨p, hp1⟩ := findFk_complete pre t g post h1 h2 h3 h4
    rw [← hp, h] at hp1
    cases hp1
  · intro h
    cases hf : findFk s with
    | none => rfl
    | some p => exact absurd ⟨p.1, p.2, findFk_sound s p.1 p.2 hf⟩ h

theorem forall₂_map_self {α β : Type} (R : α → β → Prop) (g : α → β) :
    ∀ (l : List α), (∀ a ∈ l, R a (g a)) → List.Forall₂ R l (l.map g)
  | [], _ => List.Forall₂.nil
  | a :: l, h =>
    List.Forall₂.cons (h a (List.mem_cons_self _ _))
      (forall₂_map_self R g l (fun b hb => h b (List.mem_cons_of_mem _ hb)))

theorem groupsOf_findGroup (word : List Char) (opts : List (List Char)) :
    GroupsOf word opts (opts.filterMap (fun opt => (findGroup word opt).map String.mk)) := by
  refine ⟨opts.map (findGroup word), ?_, ?_⟩
  · rw [List.filterMap_map]
    rfl
  · apply forall₂_map_self
    intro opt _
    refine ⟨fun G h => findGroup_sound word opt G h, fun h => (findGroup_none word opt).mp h, ?_⟩
    intro G hopt hne hnl
    rw [hopt]
    exact findGroup_exact word G hne hnl

theorem hasOpt_iff (f : Field) (name : String) :
    f.hasOpt name = true ↔ name.toList ∈ tagOptions f.Tag := by
  unfold Field.hasOpt
  simp only [List.any_eq_true, decide_eq_true_eq]
  constructor
  · rintro ⟨opt, h, rfl⟩; exact h
  · intro h; exact ⟨_, h, rfl⟩

/-- C14 (as amended): the options of a tag are its comma-separated pieces with
the white space around each taken away. The descriptor is a primary key iff
some option is `pk`, a natural key iff some option is `key`, immutable iff some
option is `pk` or `const`. Fk returns nothing iff no option holds a text
`fk:T(F)`; what it returns is held so by the first option that holds such a
text; and it is (T, F) when that option is `fk:T(F)` and nothing else, with no
`(` in F. Unique and Index return, in tag order, one group for each option
that holds a text `unique(G)`, respectively `index(G)`, which is G when the
option is nothing else, and no group for an option that holds no such
text. -/
theorem tag_grammar (f : Field) :
    (∃ pieces, pieces ≠ [] ∧ joinComma pieces = f.Tag.toList ∧ (∀ p ∈ pieces, ',' ∉ p) ∧
      List.Forall₂ Trimmed pieces (tagOptions f.Tag)) ∧
    (f.Pk = true ↔ "pk".toList ∈ tagOptions f.Tag) ∧
    (f.Key = true ↔ "key".toList ∈ tagOptions f.Tag) ∧
    (f.Mutable = false ↔
      "pk".toList ∈ tagOptions f.Tag ∨ "const".toList ∈ tagOptions f.Tag) ∧
    (f.Fk = none ↔ ∀ opt ∈ tagOptions f.Tag, ¬ ∃ T F, HasFk opt T F) ∧
    (∀ fk, f.Fk = some fk →
      ∃ before opt after, tagOptions f.Tag = before ++ opt :: after ∧
        (∀ o ∈ before, ¬ ∃ T F, HasFk o T F) ∧
        HasFk opt fk.Table.toList fk.Field.toList) ∧
    (∀ before after T F,
      tagOptions f.Tag = before ++ ("fk:".toList ++ T ++ '(' :: F ++ [')']) :: after →
      (∀ o ∈ before, ¬ ∃ T F, HasFk o T F) →
      T ≠ [] → F ≠ [] → '\n' ∉ T → '\n' ∉ F → '(' ∉ F →
      f.Fk = some ⟨String.mk T, String.mk F⟩) ∧
    GroupsOf "unique".toList (tagOptions f.Tag) f.Unique ∧
    GroupsOf "index".toList (tagOptions f.Tag) f.Index := by
  refine ⟨?_, hasOpt_iff f "pk", hasOpt_iff f "key", ?_, ?_, ?_, ?_,
    groupsOf_findGroup _ _, groupsOf_findGroup _ _⟩
  · refine ⟨splitComma f.Tag.toList, splitCommaAux_ne_nil _ _, ?_, ?_, ?_⟩
    · simpa [splitComma] using splitCommaAux_join f.Tag.toList []
    · exact splitCommaAux_no_comma _ [] (by simp)
    · exact forall₂_map_self Trimmed trimSpace _ (fun p _ => trimSpace_trimmed p)
  · rw [← hasOpt_iff f "pk", ← hasOpt_iff f "const"]
    unfold Field.Mutable Field.Pk
    cases f.hasOpt "pk" <;> cases f.hasOpt "const" <;> simp
  · unfold Field.Fk
    rw [List.findSome?_eq_none_iff]
    constructor
    · intro h opt hopt
      have := h opt hopt
      simp only [Option.map_eq_none'] at this
      exact (findFk_none opt).mp this
    · intro h opt hopt
      simp only [Option.map_eq_none']
      exact (findFk_none opt).mpr (h opt hopt)
  · intro fk hfk
    unfold Field.Fk at hfk
    obtain ⟨before, opt, after, hl, hopt, hbefore⟩ := List.findSome?_eq_some_iff.mp hfk
    refine ⟨before, opt, after, hl, ?_, ?_⟩
    · intro o ho
      have := hbefore o ho
      simp only [Option.map_eq_none'] at this
      exact (findFk_none o).mp this
    · simp only [Option.map_eq_some'] at hopt
      obtain ⟨⟨t, g⟩, hp, hfk2⟩ := hopt
      rw [← hfk2]
      exact findFk_sound opt t g hp
  · intro before after T F hl hbefore hT hF hnT hnF hop
    unfold Field.Fk
    rw [List.findSome?_eq_some_iff]
    refine ⟨before, _, after, hl, ?_, ?_⟩
    · rw [findFk_exact T F hT hF hnT hnF hop]
      rfl
    · intro o ho
      simp only [Option.map_eq_none']
      exact (findFk_none o).mpr (hbefore o ho)

/-- C14, counterexample: the options `xunique(g)y`, `xindex(h)y` and
`afk:t(f)b` are not of the form `unique(G)`, `index(G)` and `fk:T(F)`, and yet
Unique returns the group g, Index the group h, and Fk the table t with the
field f. -/
theorem tag_grammar_fails :
    tagOptions "xunique(g)y, xindex(h)y, afk:t(f)b" =
      ["xunique(g)y".toList, "xindex(h)y".toList, "afk:t(f)b".toList] ∧
    (∀ G, "xunique(g)y".toList ≠ "unique".toList ++ '(' :: G ++ [')']) ∧
    (∀ G, "xindex(h)y".toList ≠ "index".toList ++ '(' :: G ++ [')']) ∧
    (∀ T F, "afk:t(f)b".toList ≠ "fk:".toList ++ T ++ '(' :: F ++ [')']) ∧
    Field.Unique ⟨.string "", "xunique(g)y, xindex(h)y, afk:t(f)b", "A", "", 0, false⟩ = ["g"] ∧
    Field.Index ⟨.string "", "xunique(g)y, xindex(h)y, afk:t(f)b", "A", "", 0, false⟩ = ["h"] ∧
    Field.Fk ⟨.string "", "xunique(g)y, xindex(h)y, afk:t(f)b", "A", "", 0, false⟩ =
      some ⟨"t", "f"⟩ := by
  refine ⟨by decide, ?_, ?_, ?_, by decide, by decide, by decide⟩
  · intro G h
    have := congrArg List.head? h
    simp at this
  · intro G h
    have := congrArg List.head? h
    simp at this
  · intro T F h
    have := congrArg List.head? h
    simp at this

/-- C14, witness: the tag `pk, fk:Owner(Id)`, whose first option holds no
foreign key and whose second is `fk:Owner(Id)`. -/
theorem tag_grammar_witness :
    Field.Fk ⟨.string "", "pk, fk:Owner(Id)", "OwnerId", "", 0, false⟩ =
      some ⟨"Owner", "Id"⟩ :=
  (tag_grammar ⟨.string "", "pk, fk:Owner(Id)", "OwnerId", "", 0, false⟩).2.2.2.2.2.2.1
    ["pk".toList] [] "Owner".toList "Id".toList (by decide)
    (fun o ho => by
      rw [List.mem_singleton] at ho
      subst ho
      exact (findFk_none _).mp (by decide))
    (by decide) (by decide) (by decide) (by decide) (by decide)

theorem addToGroup_eq (g n : String) : ∀ (m : List (String × List String)),
    addToGroup g n m = groupInto g n m
  | [] => rfl
  | (k, ns) :: rest => by
    simp only [addToGroup, groupInto, addToGroup_eq g n rest]

theorem addToIndex_eq (g : String) (f : Field) : ∀ (m : List (String × List Field)),
    addToIndex g f m = groupInto g f m
  | [] => rfl
  | (k, ns) :: rest => by
    simp only [addToIndex, groupInto, addToIndex_eq g f rest]

theorem groupInto_keys {α : Type} (g : String) (a : α) : ∀ (m : List (String × List α)),
    (groupInto g a m).map (fun e => e.1) =
      if g ∈ m.map (fun e => e.1) then m.map (fun e => e.1) else m.map (fun e => e.1) ++ [g]
  | [] => by simp [groupInto]
  | (k, as) :: rest => by
    unfold groupInto
    by_cases h : k = g
    · simp [h]
    · have ih := groupInto_keys g a rest
      have hne : ¬ g = k := fun hh => h hh.symm
      simp only [h, if_false, List.map_cons, List.mem_cons, hne, false_or, ih]
      split <;> simp

theorem groupInto_mem {α : Type} (g : String) (a : α) : ∀ (m : List (String × List α)),
    (m.map (fun e => e.1)).Nodup → ∀ k as, (k, as) ∈ groupInto g a m →
      (k ≠ g ∧ (k, as) ∈ m) ∨
      (k = g ∧ ∃ old, as = old ++ [a] ∧ ((g, old) ∈ m ∨ (old = [] ∧ g ∉ m.map (fun e => e.1))))
  | [], _, k, as, h => by
    simp only [groupInto, List.mem_singleton, Prod.mk.injEq] at h
    exact Or.inr ⟨h.1, [], by simp [h.2], Or.inr ⟨rfl, by simp⟩⟩
  | (k0, as0) :: rest, hnd, k, as, h => by
    simp only [List.map_cons, List.nodup_cons] at hnd
    unfold groupInto at h
    by_cases h0 : k0 = g
    · simp only [h0, if_true, List.mem_cons, Prod.mk.injEq] at h
      rcases h with h | h
      · exact Or.inr ⟨h.1, as0, h.2, Or.inl (by rw [h0]; exact List.mem_cons_self _ _)⟩
      · have hk : k ≠ g := by
          intro hk
          apply hnd.1
          rw [h0, ← hk]
          exact List.mem_map.mpr ⟨(k, as), h, rfl⟩
        exact Or.inl ⟨hk, List.mem_cons_of_mem _ h⟩
    · simp only [h0, if_false, List.mem_cons, Prod.mk.injEq] at h
      rcases h with h | h
      · refine Or.inl ⟨by rw [h.1]; exact h0, ?_⟩
        rw [h.1, h.2]; exact List.mem_cons_self _ _
      · rcases groupInto_mem g a rest hnd.2 k as h with h1 | ⟨h1, old, h2, h3⟩
        · exact Or.inl ⟨h1.1, List.mem_cons_of_mem _ h1.2⟩
        · refine Or.inr ⟨h1, old, h2, ?_⟩
          rcases h3 with h3 | h3
          · exact Or.inl (List.mem_cons_of_mem _ h3)
          · refine Or.inr ⟨h3.1, ?_⟩
            simp only [List.map_cons, List.mem_cons, not_or]
            exact ⟨fun hh => h0 hh.symm, h3.2⟩

theorem valuesOf_append {α : Type} (g : String) (es : List (String × α)) (e : String × α) :
    valuesOf g (es ++ [e]) = valuesOf g es ++ (if e.1 = g then [e.2] else []) := by
  unfold valuesOf
  by_cases h : e.1 = g <;> simp [List.filter_append, h]

theorem valuesOf_nil_of_not_mem {α : Type} (g : String) (es : List (String × α))
    (h : g ∉ es.map (fun e => e.1)) : valuesOf g es = [] := by
  unfold valuesOf
  simp only [List.map_eq_nil_iff, List.filter_eq_nil_iff, decide_eq_true_eq]
  intro e he hg
  exact h (List.mem_map.mpr ⟨e, he, hg⟩)

theorem collected_step {α : Type} (m : List (String × List α)) (es : List (String × α))
    (e : String × α) (h : Collected m es) : Collected (groupInto e.1 e.2 m) (es ++ [e]) := by
  obtain ⟨hnd, hkeys, hvals⟩ := h
  refine ⟨?_, ?_, ?_⟩
  · rw [groupInto_keys]
    by_cases hm : e.1 ∈ m.map (fun e => e.1)
    · simp only [hm, if_true]; exact hnd
    · simp only [hm, if_false]
      exact List.Nodup.append hnd (List.nodup_singleton _) (by
        simpa [List.disjoint_singleton] using hm)
  · intro g
    rw [groupInto_keys]
    by_cases hm : e.1 ∈ m.map (fun e => e.1)
    · simp only [hm, if_true, List.map_append, List.mem_append, List.map_cons, List.map_nil,
        List.mem_singleton]
      constructor
      · intro hg; exact Or.inl ((hkeys g).mp hg)
      · rintro (hg | hg)
        · exact (hkeys g).mpr hg
        · rw [hg]; exact hm
    · simp only [hm, if_false, List.map_append, List.mem_append, List.map_cons, List.map_nil,
        List.mem_singleton, hkeys g]
  · intro g as hmem
    rw [valuesOf_append]
    rcases groupInto_mem e.1 e.2 m hnd g as hmem with ⟨hne, hin⟩ | ⟨heq, old, has, hold⟩
    · have : ¬ e.1 = g := fun hh => hne hh.symm
      simp only [this, if_false, List.append_nil]
      exact hvals g as hin
    · simp only [heq, if_true]
      rw [has]
      congr 1
      rcases hold with hold | ⟨hold, hnot⟩
      · exact hvals _ _ hold
      · rw [hold, valuesOf_nil_of_not_mem]
        rw [← hkeys]; exact hnot

theorem collected_foldl {α : Type} : ∀ (rest : List (String × α)) (m : List (String × List α))
    (es : List (String × α)), Collected m es →
    Collected (rest.foldl (fun m e => groupInto e.1 e.2 m) m) (es ++ rest)
  | [], m, es, h => by simpa using h
  | e :: rest, m, es, h => by
    have := collected_foldl rest (groupInto e.1 e.2 m) (es ++ [e]) (collected_step m es e h)
    simpa using this

theorem collected_nil {α : Type} : Collected ([] : List (String × List α)) [] :=
  ⟨List.nodup_nil, fun _ => Iff.rfl, fun _ _ h => by cases h⟩

theorem uniqueGroups_foldl : ∀ (fields : List Field) (m : List (String × List String)),
    fields.foldl (fun m f => f.Unique.foldl (fun m g => addToGroup g f.Name m) m) m =
      (uniqueEntries fields).foldl (fun m e => groupInto e.1 e.2 m) m
  | [], m => rfl
  | f :: fs, m => by
    simp only [List.foldl_cons, uniqueEntries, List.flatMap_cons, List.foldl_append,
      List.foldl_map]
    have h1 : List.foldl (fun m g => addToGroup g f.Name m) m f.Unique =
        List.foldl (fun m g => groupInto g f.Name m) m f.Unique := by
      congr 1; funext m g; exact addToGroup_eq g f.Name m
    rw [h1]
    exact uniqueGroups_foldl fs _

theorem indexGroups_foldl : ∀ (fields : List Field) (m : List (String × List Field)),
    fields.foldl (fun m f => f.Index.foldl (fun m g => addToIndex g f m) m) m =
      (indexEntries fields).foldl (fun m e => groupInto e.1 e.2 m) m
  | [], m => rfl
  | f :: fs, m => by
    simp only [List.foldl_cons, indexEntries, List.flatMap_cons, List.foldl_append,
      List.foldl_map]
    have h1 : List.foldl (fun m g => addToIndex g f m) m f.Index =
        List.foldl (fun m g => groupInto g f m) m f.Index := by
      congr 1; funext m g; exact addToIndex_eq g f m
    rw [h1]
    exact indexGroups_foldl fs _

theorem uniqueGroups_collected (fields : List Field) :
    Collected (uniqueGroups fields) (uniqueEntries fields) := by
  unfold uniqueGroups
  rw [uniqueGroups_foldl]
  simpa using collected_foldl (uniqueEntries fields) [] [] collected_nil

theorem indexGroups_collected (fields : List Field) :
    Collected (indexGroups fields) (indexEntries fields) := by
  unfold indexGroups
  rw [indexGroups_foldl]
  simpa using collected_foldl (indexEntries fields) [] [] collected_nil

theorem rangeRest_lines (sep : String) : ∀ (cs : List String),
    rangeRest sep cs = (cs.map (fun c => sep ++ c ++ "\n")).foldr (fun a b => a ++ b) ""
  | [] => rfl
  | c :: cs => by
    simp only [rangeRest, List.map_cons, List.foldr_cons, rangeRest_lines sep cs]

theorem fieldDDL_valid (f : Field) (h : f.Validate = .ok ()) : f.DDL = columnLine f := by
  unfold Field.Validate at h
  unfold Field.DDL columnLine
  have h3 : ∀ a b c : String, " ".intercalate [a, b, c] = a ++ (" " ++ (b ++ (" " ++ c))) := by
    intro a b c
    rw [intercalate_cons_cons, intercalate_cons_cons]
    simp [String.intercalate, String.intercalate.go, String.append_assoc]
  rw [h3]
  cases hk : f.Value.Kind with
  | string =>
    by_cases hp : f.Pk = true
    · simp only [hp, if_true, String.append_assoc]; rfl
    · simp only [hp, if_false, if_true, String.append_assoc]; rfl
  | int =>
    by_cases hp : f.Pk = true
    · simp only [hp, if_true, String.append_assoc]; rfl
    · simp only [hp, if_false, if_true, String.append_assoc]; rfl
  | struct => rw [hk] at h; cases h
  | other => rw [hk] at h; cases h

theorem valuesOf_map_const {α : Type} (g : String) (a : α) : ∀ (l : List String),
    valuesOf g (l.map (fun k => (k, a))) = List.replicate (l.count g) a
  | [] => rfl
  | k :: l => by
    have ih := valuesOf_map_const g a l
    unfold valuesOf at ih ⊢
    by_cases h : k = g
    · simp [h, List.filter_cons, ih, List.replicate_succ]
    · have h2 : ¬ (k == g) = true := by simpa using h
      simp [h, List.filter_cons, ih, List.count_cons, h2]

theorem valuesOf_flatMap {α β : Type} (g : String) (F : α → List (String × β)) :
    ∀ (l : List α), valuesOf g (l.flatMap F) = l.flatMap (fun a => valuesOf g (F a))
  | [] => rfl
  | a :: l => by
    have ih := valuesOf_flatMap g F l
    unfold valuesOf at ih ⊢
    simp only [List.flatMap_cons, List.filter_append, List.map_append, ih]

theorem valuesOf_indexEntries (g : String) (fields : List Field) :
    valuesOf g (indexEntries fields) = declaring Field.Index g fields := by
  unfold indexEntries declaring
  rw [valuesOf_flatMap]
  congr 1
  funext f
  exact valuesOf_map_const g f f.Index

theorem valuesOf_uniqueEntries (g : String) (fields : List Field) :
    valuesOf g (uniqueEntries fields) = (declaring Field.Unique g fields).map (fun f => f.Name) := by
  unfold uniqueEntries declaring
  rw [valuesOf_flatMap, List.map_flatMap]
  congr 1
  funext f
  rw [valuesOf_map_const, List.map_replicate]

theorem declaring_once (groups : Field → List String) (g : String) : ∀ (fields : List Field),
    (∀ f ∈ fields, (groups f).count g ≤ 1) →
    declaring groups g fields = fields.filter (fun f => decide (g ∈ groups f))
  | [], _ => rfl
  | f :: fs, h => by
    have ih := declaring_once groups g fs (fun x hx => h x (List.mem_cons_of_mem _ hx))
    have hf := h f (List.mem_cons_self _ _)
    unfold declaring at ih ⊢
    simp only [List.flatMap_cons, ih, List.filter_cons]
    by_cases hg : g ∈ groups f
    · have hc : (groups f).count g = 1 := by
        have := List.count_pos_iff.mpr hg
        omega
      simp [hg, hc]
    · have hc : (groups f).count g = 0 := List.count_eq_zero.mpr hg
      simp [hg, hc]

theorem entries_keys_unique (fields : List Field) (g : String) :
    g ∈ (uniqueEntries fields).map (fun e => e.1) ↔ ∃ f ∈ fields, g ∈ f.Unique := by
  unfold uniqueEntries
  simp only [List.mem_map, List.mem_flatMap, Prod.exists]
  constructor
  · rintro ⟨a, b, ⟨f, hf, x, hx, hxe⟩, rfl⟩
    simp only [Prod.mk.injEq] at hxe
    exact ⟨f, hf, by rw [← hxe.1]; exact hx⟩
  · rintro ⟨f, hf, hg⟩
    exact ⟨g, f.Name, ⟨f, hf, g, hg, rfl⟩, rfl⟩

theorem entries_keys_index (fields : List Field) (g : String) :
    g ∈ (indexEntries fields).map (fun e => e.1) ↔ ∃ f ∈ fields, g ∈ f.Index := by
  unfold indexEntries
  simp only [List.mem_map, List.mem_flatMap, Prod.exists]
  constructor
  · rintro ⟨a, b, ⟨f, hf, x, hx, hxe⟩, rfl⟩
    simp only [Prod.mk.injEq] at hxe
    exact ⟨f, hf, by rw [← hxe.1]; exact hx⟩
  · rintro ⟨f, hf, hg⟩
    exact ⟨g, f, ⟨f, hf, g, hg, rfl⟩, rfl⟩

theorem visited_groups {α : Type} (order : RangeOrder) (m : List (String × List α))
    (es : List (String × α)) (h : Collected m es) :
    ((order.visit m).map (fun e => e.1)).Nodup ∧
    (∀ g, g ∈ (order.visit m).map (fun e => e.1) ↔ g ∈ es.map (fun e => e.1)) ∧
    order.visit m = ((order.visit m).map (fun e => e.1)).map (fun g => (g, valuesOf g es)) := by
  have hp := order.perm m
  obtain ⟨hnd, hkeys, hvals⟩ := h
  refine ⟨(hp.map _).nodup_iff.mpr hnd, ?_, ?_⟩
  · intro g
    rw [(hp.map _).mem_iff]
    exact hkeys g
  · rw [List.map_map]
    conv_lhs => rw [← List.map_id (order.visit m)]
    apply List.map_congr_left
    intro e he
    have := hvals e.1 e.2 (hp.mem_iff.mp he)
    simp only [id, Function.comp]
    rw [← this]

/-- C15: for every valid descriptor list, the statement of the table is
`CREATE TABLE IF NOT EXISTS`, the table name, the column definition of every
descriptor in descriptor order (its name, `TEXT` or `INTEGER`, `PRIMARY KEY`
for a primary key and `NOT NULL` otherwise), then the constraints: one
`UNIQUE (...)` for each distinct unique-group name, naming the fields that
declare the group in descriptor order, and after these one `FOREIGN KEY (field)
REFERENCES table (ref) ON DELETE CASCADE` for each field with a foreign key, in
descriptor order. -/
theorem create_table_statement (order : RangeOrder) (n : String) (fields : List Field)
    (hvalid : ∀ f ∈ fields, f.Validate = .ok ()) :
    ∃ groups : List String,
      groups.Nodup ∧ (∀ g, g ∈ groups ↔ ∃ f ∈ fields, g ∈ f.Unique) ∧
      Table.Constraints order fields =
        groups.map (fun g => "UNIQUE (" ++
          String.intercalate "," ((declaring Field.Unique g fields).map (fun f => f.Name)) ++
          ")") ++
        fields.filterMap (fun f => f.Fk.map (fun fk =>
          "FOREIGN KEY (" ++ f.Name ++ ") REFERENCES " ++ fk.Table ++ " (" ++ fk.Field ++
            ") ON DELETE CASCADE")) ∧
      (TableDDL { TmplData.zero n with
          Constraints := Table.Constraints order fields,
          Fields := fields }).text =
        "\nCREATE TABLE IF NOT EXISTS " ++ n ++ " (\n" ++
          joinLines "," (fields.map columnLine) ++
          constraintLines (Table.Constraints order fields) ++ ");\n" ∧
      (∀ g, (∀ f ∈ fields, f.Unique.count g ≤ 1) →
        declaring Field.Unique g fields = fields.filter (fun f => decide (g ∈ f.Unique))) := by
  obtain ⟨hnd, hkeys, hvis⟩ :=
    visited_groups order (uniqueGroups fields) (uniqueEntries fields)
      (uniqueGroups_collected fields)
  refine ⟨(order.visit (uniqueGroups fields)).map (fun e => e.1), hnd, ?_, ?_, ?_, ?_⟩
  · intro g
    rw [hkeys g, entries_keys_unique]
  · unfold Table.Constraints
    congr 1
    conv_lhs => rw [hvis]
    simp only [List.map_map]
    apply List.map_congr_left
    intro g _
    simp only [Function.comp, valuesOf_uniqueEntries]
  · have hcols : fields.map Field.DDL = fields.map columnLine :=
      List.map_congr_left (fun f hf => fieldDDL_valid f (hvalid f hf))
    simp only [TableDDL, DDLStmt.text, TmplData.zero, hcols, rangeLines_eq, rangeRest_lines,
      constraintLines]
  · intro g hg
    exact declaring_once Field.Unique g fields hg

/-- C15, witness: the record type `Demo` with the groups a (fields A, B) and
b (field B) and a foreign key on B, with the groups visited as first added. -/
theorem create_table_statement_witness :
    (∃ groups : List String,
      groups.Nodup ∧ (∀ g, g ∈ groups ↔ ∃ f ∈ demoDecl.descriptors, g ∈ f.Unique) ∧
      Table.Constraints RangeOrder.added demoDecl.descriptors =
        groups.map (fun g => "UNIQUE (" ++
          String.intercalate ","
            ((declaring Field.Unique g demoDecl.descriptors).map (fun f => f.Name)) ++
          ")") ++
        demoDecl.descriptors.filterMap (fun f => f.Fk.map (fun fk =>
          "FOREIGN KEY (" ++ f.Name ++ ") REFERENCES " ++ fk.Table ++ " (" ++ fk.Field ++
            ") ON DELETE CASCADE")) ∧
      (TableDDL { TmplData.zero "Demo" with
          Constraints := Table.Constraints RangeOrder.added demoDecl.descriptors,
          Fields := demoDecl.descriptors }).text =
        "\nCREATE TABLE IF NOT EXISTS " ++ "Demo" ++ " (\n" ++
          joinLines "," (demoDecl.descriptors.map columnLine) ++
          constraintLines (Table.Constraints RangeOrder.added demoDecl.descriptors) ++ ");\n" ∧
      (∀ g, (∀ f ∈ demoDecl.descriptors, f.Unique.count g ≤ 1) →
        declaring Field.Unique g demoDecl.descriptors =
          demoDecl.descriptors.filter (fun f => decide (g ∈ f.Unique)))) ∧
    (TableDDL { TmplData.zero "Demo" with
        Constraints := Table.Constraints RangeOrder.added demoDecl.descriptors,
        Fields := demoDecl.descriptors }).text =
      "\nCREATE TABLE IF NOT EXISTS Demo (\nId INTEGER PRIMARY KEY\n,A TEXT NOT NULL\n,B TEXT NOT NULL\n,C INTEGER NOT NULL\n,UNIQUE (A,B)\n,UNIQUE (B)\n,FOREIGN KEY (B) REFERENCES T (Id) ON DELETE CASCADE\n);\n" :=
  ⟨create_table_statement RangeOrder.added "Demo" demoDecl.descriptors (by decide),
    by set_option maxRecDepth 20000 in decide⟩

theorem ddl_shape (uo io : RangeOrder) (n : String) (fs : GoFields)
    (m : Option ModelMethods) :
    ∃ groups : List String,
      groups.Nodup ∧ (∀ g, g ∈ groups ↔ ∃ f ∈ fs.descriptors, g ∈ f.Index) ∧
      Table.DDL uo io (.ptr (.struct n fs) m) =
        .ok (DDLStmt.table n fs.descriptors (Table.Constraints uo fs.descriptors) ::
          (if fs.descriptors.any Field.Key then
            [DDLStmt.index n n (fs.descriptors.filter Field.Key)] else []) ++
          groups.map (fun g =>
            DDLStmt.index (n ++ g) n (declaring Field.Index g fs.descriptors))) := by
  obtain ⟨hnd, hkeys, hvis⟩ :=
    visited_groups io (indexGroups fs.descriptors) (indexEntries fs.descriptors)
      (indexGroups_collected fs.descriptors)
  have hmem : ∀ g, g ∈ (io.visit (indexGroups fs.descriptors)).map (fun e => e.1) ↔
      ∃ f ∈ fs.descriptors, g ∈ f.Index := by
    intro g
    rw [hkeys g, entries_keys_index]
  have hf : Table.Fields (.ptr (.struct n fs) m) = .ok fs.descriptors := rfl
  have hname : Table.Name (.ptr (.struct n fs) m) = n := rfl
  have hkeylen : (decide ((Table.KeyFields fs.descriptors).length > 0)) =
      fs.descriptors.any Field.Key := by
    unfold Table.KeyFields
    rw [Bool.eq_iff_iff]
    simp only [gt_iff_lt, decide_eq_true_eq, List.length_pos, ne_eq, List.filter_eq_nil_iff,
      not_forall, List.any_eq_true]
    constructor
    · rintro ⟨f, hf1, hf2⟩; exact ⟨f, hf1, by simpa using hf2⟩
    · rintro ⟨f, hf1, hf2⟩; exact ⟨f, hf1, by simpa using hf2⟩
  refine ⟨_, hnd, hmem, ?_⟩
  simp only [Table.DDL, hf, hname, validateAll_ok _ (descriptors_valid fs), TableDDL,
    IndexDDL, TmplData.zero, List.singleton_append, List.cons_append, List.nil_append]
  congr 2
  congr 1
  · by_cases hk : fs.descriptors.any Field.Key = true
    · have := hkeylen.trans hk
      simp only [decide_eq_true_eq] at this
      simp only [this, hk, if_true]
      rfl
    · have := hkeylen.trans (by simpa using hk : fs.descriptors.any Field.Key = false)
      simp only [decide_eq_false_iff_not] at this
      simp only [this, hk, if_false, Bool.false_eq_true]
  · conv_lhs => rw [hvis]
    simp only [List.map_map]
    apply List.map_congr_left
    intro g _
    simp only [Function.comp, valuesOf_indexEntries]

theorem within_refl (c : Catalog) : c.within c :=
  ⟨fun _ _ h => h, fun _ h => h⟩

theorem within_trans (c d e : Catalog) (h1 : c.within d) (h2 : d.within e) : c.within e :=
  ⟨fun n t h => h2.1 n t (h1.1 n t h), fun i h => h2.2 i (h1.2 i h)⟩

theorem sqliteCreate_ok (name : String) (fields : List Field) (s s1 : Store)
    (h : sqliteCreate name fields s = .ok s1) :
    (∀ n t, s n = some t → s1 n = some t) ∧ (∃ t, s1 name = some t) ∧
    (∀ s2 : Store, (∃ t, s2 name = some t) → sqliteCreate name fields s2 = .ok s2) := by
  unfold sqliteCreate at h
  by_cases h1 : fields.isEmpty = true
  · simp [h1] at h
  by_cases h2 : (!decide (fields.map (fun f => f.Name)).Nodup) = true
  · simp [h1, h2] at h
  by_cases h3 : 1 < (fields.filter Field.Pk).length
  · simp [h1, h2, h3] at h
  simp only [h1, h2, h3, if_false, Bool.false_eq_true] at h
  have hlater : ∀ s2 : Store, (∃ t, s2 name = some t) → sqliteCreate name fields s2 = .ok s2 := by
    rintro s2 ⟨t, ht⟩
    unfold sqliteCreate
    simp only [h1, h2, h3, if_false, Bool.false_eq_true, ht]
  cases hs : s name with
  | some t =>
    rw [hs] at h
    simp only [Except.ok.injEq] at h
    subst h
    exact ⟨fun _ _ h => h, ⟨t, hs⟩, hlater⟩
  | none =>
    rw [hs] at h
    simp only [Except.ok.injEq] at h
    subst h
    refine ⟨?_, ⟨_, Store.set_same _ _ _⟩, hlater⟩
    intro n t hn
    have hne : n ≠ name := by
      intro hh; rw [hh, hs] at hn; cases hn
    rw [Store.set_other _ _ _ _ hne]
    exact hn

theorem sqliteDDL_within (stmt : DDLStmt) (c c1 : Catalog) (h : sqliteDDL stmt c = .ok c1) :
    c.within c1 := by
  cases stmt with
  | table name fields cs =>
    unfold sqliteDDL at h
    cases hc : sqliteCreate name fields c.tables with
    | error e => simp [hc] at h
    | ok tables =>
      simp only [hc, Except.ok.injEq] at h
      subst h
      exact ⟨(sqliteCreate_ok name fields _ _ hc).1, fun _ h => h⟩
  | index stem onTable fields =>
    unfold sqliteDDL at h
    by_cases h1 : fields.isEmpty = true
    · simp [h1] at h
    simp only [h1, if_false, Bool.false_eq_true] at h
    cases ht : c.tables onTable with
    | none => simp [ht] at h
    | some t =>
      simp only [ht] at h
      by_cases h2 : (c.indexes.any fun i => decide (i.1 = stem ++ "Index")) = true
      · simp only [h2, if_true, Except.ok.injEq] at h
        subst h
        exact within_refl c
      · simp only [h2, if_false, Bool.false_eq_true] at h
        by_cases h3 : (!knownColumns t.schema (fields.map (fun f => f.Name))) = true
        · simp [h3] at h
        · simp only [h3, if_false, Bool.false_eq_true, Except.ok.injEq] at h
          subst h
          exact ⟨fun _ _ h => h, fun i hi => List.mem_append_left _ hi⟩

theorem sqliteDDL_again (stmt : DDLStmt) (c c1 d : Catalog) (h : sqliteDDL stmt c = .ok c1)
    (hd : c1.within d) : sqliteDDL stmt d = .ok d := by
  cases stmt with
  | table name fields cs =>
    unfold sqliteDDL at h ⊢
    cases hc : sqliteCreate name fields c.tables with
    | error e => simp [hc] at h
    | ok tables =>
      simp only [hc, Except.ok.injEq] at h
      subst h
      obtain ⟨_, ⟨t, ht⟩, hlater⟩ := sqliteCreate_ok name fields _ _ hc
      simp only [hlater d.tables ⟨t, hd.1 name t ht⟩]
  | index stem onTable fields =>
    unfold sqliteDDL at h ⊢
    by_cases h1 : fields.isEmpty = true
    · simp [h1] at h
    simp only [h1, if_false, Bool.false_eq_true] at h ⊢
    cases ht : c.tables onTable with
    | none => simp [ht] at h
    | some t =>
      simp only [ht] at h
      by_cases h2 : (c.indexes.any fun i => decide (i.1 = stem ++ "Index")) = true
      · simp only [h2, if_true, Except.ok.injEq] at h
        subst h
        have hany : (d.indexes.any fun i => decide (i.1 = stem ++ "Index")) = true := by
          obtain ⟨i, hi, hn⟩ := List.any_eq_true.mp h2
          exact List.any_eq_true.mpr ⟨i, hd.2 i hi, hn⟩
        simp only [hd.1 onTable t ht, hany, if_true]
      · simp only [h2, if_false, Bool.false_eq_true] at h
        by_cases h3 : (!knownColumns t.schema (fields.map (fun f => f.Name))) = true
        · simp [h3] at h
        · simp only [h3, if_false, Bool.false_eq_true, Except.ok.injEq] at h
          subst h
          have hany : (d.indexes.any fun i => decide (i.1 = stem ++ "Index")) = true :=
            List.any_eq_true.mpr ⟨_, hd.2 _ (List.mem_append_right _ (List.mem_singleton_self _)),
              by simp⟩
          simp only [hd.1 onTable t ht, hany, if_true]

theorem applyDDL_within : ∀ (stmts : List DDLStmt) (c c1 : Catalog),
    applyDDL stmts c = .ok c1 → c.within c1
  | [], c, c1, h => by
    simp only [applyDDL, Except.ok.injEq] at h
    subst h
    exact within_refl c
  | stmt :: rest, c, c1, h => by
    unfold applyDDL at h
    cases hs : sqliteDDL stmt c with
    | error e => simp [hs] at h
    | ok c2 =>
      simp only [hs] at h
      exact within_trans _ _ _ (sqliteDDL_within stmt c c2 hs) (applyDDL_within rest c2 c1 h)

theorem applyDDL_again : ∀ (stmts : List DDLStmt) (c c1 : Catalog),
    applyDDL stmts c = .ok c1 → ∀ stmt ∈ stmts, sqliteDDL stmt c1 = .ok c1
  | [], c, c1, h, stmt, hm => by cases hm
  | s0 :: rest, c, c1, h, stmt, hm => by
    unfold applyDDL at h
    cases hs : sqliteDDL s0 c with
    | error e => simp [hs] at h
    | ok c2 =>
      simp only [hs] at h
      rcases List.mem_cons.mp hm with hm | hm
      · subst hm
        exact sqliteDDL_again stmt c c2 c1 hs (applyDDL_within rest c2 c1 h)
      · exact applyDDL_again rest c2 c1 h stmt hm

theorem applyDDL_fixed : ∀ (stmts : List DDLStmt) (c : Catalog),
    (∀ stmt ∈ stmts, sqliteDDL stmt c = .ok c) → applyDDL stmts c = .ok c
  | [], c, _ => rfl
  | s0 :: rest, c, h => by
    unfold applyDDL
    rw [h s0 (List.mem_cons_self _ _)]
    exact applyDDL_fixed rest c (fun s hs => h s (List.mem_cons_of_mem _ hs))

theorem sqliteDDL_constraints (name : String) (fields : List Field) (cs cs2 : List String)
    (c : Catalog) : sqliteDDL (.table name fields cs) c = sqliteDDL (.table name fields cs2) c :=
  rfl

/-- C17: every statement that DDL returns is a `CREATE TABLE IF NOT EXISTS` or
a `CREATE INDEX IF NOT EXISTS` statement; and when the statements of one
invocation have been run on the reference store without error, running the
statements of a second invocation on the result gives no error and leaves it as
it is: the same tables with the same schemas and rows, and the same indexes.
The first run keeps every table that was there, with its rows, and every
index. -/
theorem ddl_idempotent (uo io uo2 io2 : RangeOrder) (n : String) (fs : GoFields)
    (m : Option ModelMethods) (stmts stmts2 : List DDLStmt) (c c1 : Catalog)
    (h1 : Table.DDL uo io (.ptr (.struct n fs) m) = .ok stmts)
    (h2 : Table.DDL uo2 io2 (.ptr (.struct n fs) m) = .ok stmts2)
    (happ : applyDDL stmts c = .ok c1) :
    (∀ stmt ∈ stmts, ∃ rest, stmt.text = "\nCREATE TABLE IF NOT EXISTS " ++ rest ∨
      stmt.text = "\nCREATE INDEX IF NOT EXISTS " ++ rest) ∧
    applyDDL stmts2 c1 = .ok c1 ∧
    (∀ name t, c.tables name = some t → c1.tables name = some t) ∧
    (∀ i, i ∈ c.indexes → i ∈ c1.indexes) := by
  have hw := applyDDL_within stmts c c1 happ
  refine ⟨?_, ?_, hw.1, hw.2⟩
  · intro stmt _
    cases stmt with
    | table name fields cs =>
      exact ⟨name ++ " (\n" ++ rangeLines "," (fields.map Field.DDL) ++ rangeRest "," cs ++
        ");\n", Or.inl (by simp only [DDLStmt.text, String.append_assoc])⟩
    | index stem onTable fields =>
      exact ⟨stem ++ "Index\nON " ++ onTable ++ "\n(\n" ++
        rangeLines "," (fields.map (fun f => f.Name)) ++ ");\n",
        Or.inr (by simp only [DDLStmt.text, String.append_assoc])⟩
  · obtain ⟨g1, _, hm1, hd1⟩ := ddl_shape uo io n fs m
    obtain ⟨g2, _, hm2, hd2⟩ := ddl_shape uo2 io2 n fs m
    rw [h1] at hd1
    rw [h2] at hd2
    simp only [Except.ok.injEq] at hd1 hd2
    have hagain := applyDDL_again stmts c c1 happ
    apply applyDDL_fixed
    intro stmt hstmt
    rw [hd2] at hstmt
    rw [hd1] at hagain
    simp only [List.mem_cons, List.mem_append, List.mem_map] at hstmt
    rcases hstmt with (hstmt | hstmt) | ⟨g, hg, hstmt⟩
    · rw [hstmt, sqliteDDL_constraints _ _ _ (Table.Constraints uo fs.descriptors)]
      exact hagain _ (List.mem_append_left _ (List.mem_cons_self _ _))
    · exact hagain _ (List.mem_append_left _ (List.mem_cons_of_mem _ hstmt))
    · refine hagain _ (List.mem_append_right _ ?_)
      exact List.mem_map.mpr ⟨g, (hm1 g).mpr ((hm2 g).mp hg), hstmt⟩

/-- C17, witness: the statements of `Demo` are run on the store of three
widgets; the statements of a second invocation, which ranges over the maps in
the reverse order, leave the result as it is, and the table of the widgets is
as it was. -/
theorem ddl_idempotent_witness :
    applyDDL (demoDDL RangeOrder.reversed) demoCatalog = .ok demoCatalog ∧
    (∀ name t, threeWidgets name = some t → demoCatalog.tables name = some t) :=
  have h := ddl_idempotent RangeOrder.added RangeOrder.added RangeOrder.reversed
    RangeOrder.reversed "Demo" demoDecl none (demoDDL RangeOrder.added)
    (demoDDL RangeOrder.reversed) ⟨threeWidgets, []⟩ demoCatalog rfl rfl rfl
  ⟨h.2.1, h.2.2.1⟩

/-- C19, the code at the failing input: for the record type `Ent`, the list
statements for the label `app` with the values a and b have different texts;
the value `x' OR '1'='1` stands in the text between the quotes that the
template writes, where it ends the literal and adds a condition; and no
parameter is bound for a label. -/
theorem label_value_spliced :
    stmtText (Table.listSQL "Ent" (entDecl "" "").descriptors
        ⟨false, [("app", "a")], none, []⟩) ≠
      stmtText (Table.listSQL "Ent" (entDecl "" "").descriptors
        ⟨false, [("app", "b")], none, []⟩) ∧
    stmtText (Table.listSQL "Ent" (entDecl "" "").descriptors
        ⟨false, [("app", "x' OR '1'='1")], none, []⟩) =
      some "\nSELECT\nPK\n,Name\nFROM Ent\nWHERE\nPK IN\n(\nSELECT parent\nFROM Label\nWHERE kind = 'Ent' AND\nname = 'app' AND\nvalue = 'x' OR '1'='1'\n)\n;\n" ∧
    (Table.listSQL "Ent" (entDecl "" "").descriptors
        ⟨false, [("app", "x' OR '1'='1")], none, []⟩).map (fun r => Table.Params r.2) =
      .ok [] := by
  refine ⟨by set_option maxRecDepth 40000 in decide,
    by set_option maxRecDepth 40000 in decide, by decide⟩

theorem exec_error_returned {σ : Type} (db : DB σ) (model : Any) (s s1 : σ)
    (fields : List Field) (e : Error) (hf : Table.Fields model = .ok fields) :
    (∀ stmt fields', Table.updateSQL (Table.Name model) fields = .ok (stmt, fields') →
      db.Exec stmt (Table.Params fields') s = (.error e, s1) →
      Table.Update db model s = (.error e, s1)) ∧
    (∀ stmt fields', Table.deleteSQL (Table.Name model) fields = .ok (stmt, fields') →
      db.Exec stmt (Table.Params fields') s = (.error e, s1) →
      Table.Delete db model s = (.error e, s1)) ∧
    (∀ stmt fields', Table.insertSQL (Table.Name model) fields = .ok (stmt, fields') →
      db.Exec stmt (Table.Params fields') s = (.error e, s1) → e ≠ .constraint →
      Table.Insert db model s = (.error e, s1)) ∧
    (∀ stmt fields', Table.updateSQL (Table.Name model) fields = .ok (stmt, fields') →
      db.Exec stmt (Table.Params fields') s = (.ok ⟨.error e⟩, s1) →
      Table.Update db model s = (.error e, s1)) ∧
    (∀ stmt fields', Table.deleteSQL (Table.Name model) fields = .ok (stmt, fields') →
      db.Exec stmt (Table.Params fields') s = (.ok ⟨.error e⟩, s1) →
      Table.Delete db model s = (.error e, s1)) ∧
    (∀ stmt fields', Table.insertSQL (Table.Name model) fields = .ok (stmt, fields') →
      db.Exec stmt (Table.Params fields') s = (.ok ⟨.error e⟩, s1) →
      Table.Insert db model s = (.error e, s1)) ∧
    (∀ options stmt fields',
      Table.listSQL (Table.Name model) fields options = .ok (stmt, fields') →
      db.Query stmt (Table.Params fields') s = .error e →
      Table.List db model options s = .error e) := by
  refine ⟨?_, ?_, ?_, ?_, ?_, ?_, ?_⟩
  · intro stmt fields' hs hx
    simp only [Table.Update, Table.UpdateWith, hf, hs, hx]
  · intro stmt fields' hs hx
    simp only [Table.Delete, Table.DeleteWith, hf, hs, hx]
  · intro stmt fields' hs hx hne
    simp only [Table.Insert, Table.InsertWith, hf, hs, hx]
  · intro stmt fields' hs hx
    simp only [Table.Update, Table.UpdateWith, hf, hs, hx]
  · intro stmt fields' hs hx
    simp only [Table.Delete, Table.DeleteWith, hf, hs, hx]
  · intro stmt fields' hs hx
    simp only [Table.Insert, Table.InsertWith, hf, hs, hx, insertDone]
  · intro options stmt fields' hs hx
    simp only [Table.List, hf, hs, hx]

/-- C20, the code at the failing input: the cursor of the store steps through
one row and then fails with a disk error; List returns the one record and no
error. For every store, what List returns is what the loop over the rows
returns, whatever error the cursor holds. -/
theorem list_swallows_cursor_error :
    (failingCursorDB.Query (.list "Widget" none [] none [] none) [] ()).map (fun c => c.err) =
      .ok (some (.engine "disk I/O error")) ∧
    (Table.List failingCursorDB (Widget 0 "" "") ListOptions.none ()).map
        (fun l => l.map (fun r => r.map (fun f => (f.Name, f.Value)))) =
      .ok [[("Id", .int 1), ("Group", .string "g1"), ("Name", .string "a")]] ∧
    (∀ (σ : Type) (db : DB σ) (model : Any) (options : ListOptions) (s : σ)
        (fields : List Field) (stmt : Stmt) (fields' : List Field) (cursor : Cursor),
      Table.Fields model = .ok fields →
      Table.listSQL (Table.Name model) fields options = .ok (stmt, fields') →
      db.Query stmt (Table.Params fields') s = .ok cursor →
      Table.List db model options s = listLoop model cursor.rows) := by
  refine ⟨by decide, by decide, ?_⟩
  intro σ db model options s fields stmt fields' cursor hf hs hq
  simp only [Table.List, hf, hs, hq]

theorem eq_of_name (fields : List Field) (hnd : (fields.map (fun f => f.Name)).Nodup)
    (f g : Field) (hf : f ∈ fields) (hg : g ∈ fields) (h : f.Name = g.Name) : f = g :=
  List.inj_on_of_nodup_map hnd hf hg h

theorem placeholder_mem (fields sel : List Field)
    (hnd : (fields.map (fun f => f.Name)).Nodup) (hsel : ∀ g ∈ sel, g ∈ fields)
    (f : Field) (hf : f ∈ fields) :
    ":" ++ f.Name ∈ (sel.map Field.eqParam).map (fun c => c.2) ↔ f ∈ sel := by
  simp only [List.map_map, List.mem_map, Function.comp_apply, Field.eqParam, Field.Param]
  constructor
  · rintro ⟨g, hg, hname⟩
    have := eq_of_name fields hnd g f (hsel g hg) hf (colon_inj _ _ hname)
    rw [← this]; exact hg
  · intro h
    exact ⟨f, h, rfl⟩

theorem mem_keyFields (fields : List Field) (hnd : (fields.map (fun f => f.Name)).Nodup)
    (f : Field) (hf : f ∈ fields) :
    f ∈ keyFields fields ↔ isKeyField fields f = true := by
  constructor
  · intro h; exact (keyFields_mem fields f h).2
  · intro h
    unfold keyFields
    unfold isKeyField at h
    cases hfind : fields.find? (fun f => f.hasOpt "pk") with
    | none =>
      rw [hfind] at h
      simp only [List.mem_filter]
      exact ⟨hf, h⟩
    | some pk =>
      rw [hfind] at h
      simp only [decide_eq_true_eq] at h
      have := eq_of_name fields hnd f pk hf (List.mem_of_find?_eq_some hfind) h
      simp [this]

theorem map_mark (fields : List Field) : fields.map Field.mark = markAll (fun _ => true) fields := by
  unfold markAll
  simp

theorem markGetWhere_role (fields : List Field) (hf : ∀ f ∈ fields, f.Fresh)
    (hnd : (fields.map (fun f => f.Name)).Nodup) :
    markGetWhere fields = markAll (isGetKeyField fields) fields := by
  unfold markGetWhere Table.PkField
  have hpk : (fun f : Field => f.Pk) = (fun f => f.hasOpt "pk") := by funext f; rfl
  cases hfind : fields.find? (fun f => f.Pk) with
  | none =>
    simp only
    congr 1
    funext f
    rw [hpk] at hfind
    simp only [isGetKeyField, hfind]
    rfl
  | some pk =>
    have hmem : pk ∈ fields := List.mem_of_find?_eq_some hfind
    simp only [empty_eq_not_isSet pk (hf pk hmem), Bool.not_not]
    have hfind2 := hfind
    rw [hpk] at hfind2
    by_cases hset : pk.isSet = true
    · simp only [hset, if_true]
      rw [markFirst_eq _ _ hnd pk hfind]
      congr 1
      funext f
      simp only [isGetKeyField, hfind2, hset, if_true]
    · simp only [hset, if_false, Bool.false_eq_true]
      congr 1
      funext f
      simp only [isGetKeyField, hfind2, hset, if_false, Bool.false_eq_true]
      rfl

theorem getWhere_role (fields : List Field) (hf : ∀ f ∈ fields, f.Fresh) (d : TmplData)
    (hk : d.Keys = Table.KeyFields fields) (hp : d.Pk = Table.PkField fields) :
    ∃ sel : List Field, d.getWhere = sel.map Field.eqParam ∧ (∀ g ∈ sel, g ∈ fields) ∧
      ∀ f ∈ fields, (fields.map (fun f => f.Name)).Nodup →
        (f ∈ sel ↔ isGetKeyField fields f = true) := by
  unfold TmplData.getWhere
  rw [hp, hk]
  unfold Table.PkField Table.KeyFields
  have hpk : (fun f : Field => f.Pk) = (fun f => f.hasOpt "pk") := by funext f; rfl
  have hkey : (fun f : Field => f.Key) = (fun f => f.hasOpt "key") := by funext f; rfl
  rw [hpk, hkey]
  cases hfind : fields.find? (fun f => f.hasOpt "pk") with
  | none =>
    refine ⟨fields.filter (fun f => f.hasOpt "key"), rfl, fun g hg => (List.mem_filter.mp hg).1, ?_⟩
    intro f hfm _
    simp only [isGetKeyField, hfind, List.mem_filter, hfm, true_and]
  | some pk =>
    have hmem : pk ∈ fields := List.mem_of_find?_eq_some hfind
    simp only [empty_eq_not_isSet pk (hf pk hmem), Bool.not_not]
    by_cases hset : pk.isSet = true
    · refine ⟨[pk], by simp [hset], fun g hg => by simp at hg; rw [hg]; exact hmem, ?_⟩
      intro f hfm hnd
      simp only [isGetKeyField, hfind, hset, if_true, List.mem_singleton, decide_eq_true_eq]
      constructor
      · intro h; rw [h]
      · intro h; exact eq_of_name fields hnd f pk hfm hmem h
    · refine ⟨fields.filter (fun f => f.hasOpt "key"), by simp [hset],
        fun g hg => (List.mem_filter.mp hg).1, ?_⟩
      intro f hfm _
      simp only [isGetKeyField, hfind, hset, if_false, Bool.false_eq_true, List.mem_filter, hfm,
        true_and]

theorem params_emptied (fields : List Field) (hf : ∀ f ∈ fields, f.Fresh) :
    Table.Params (markAll (fun f => !f.Empty.1) (fields.map (fun f => f.Empty.2))) =
      (fields.filter Field.isSet).map Field.arg := by
  unfold Table.Params markAll
  induction fields with
  | nil => rfl
  | cons f fs ih =>
    have hfr := hf f (List.mem_cons_self _ _)
    have ih' := ih (fun g hg => hf g (List.mem_cons_of_mem _ hg))
    simp only [List.map_cons, List.filter_cons, pulled_empty, empty_eq_not_isSet f hfr,
      Bool.not_not]
    by_cases hq : f.isSet = true
    · have hpull : f.Empty.2.Pull.1 = some f.toSql := by
        rw [emptied_eq_pulled]
        obtain ⟨hk, -⟩ := hfr
        obtain ⟨v, tag, name, s, i, p⟩ := f
        cases v <;> simp [GoValue.Kind] at hk <;> rfl
      simp only [hq, if_true, mark_isParam, List.map_cons, ih', mark_name, mark_pull,
        emptied_name, hpull, Field.arg]
    · have hp : f.Empty.2.isParam = false := by
        rw [emptied_eq_pulled, pulled_isParam]; exact hfr.2.2.2
      simp only [hq, if_false, hp, Bool.false_eq_true, ih']

theorem notEmpty_sel (fields : List Field) (hf : ∀ f ∈ fields, f.Fresh) :
    (Table.NotEmptyFields fields).map Field.eqParam =
      (fields.filter Field.isSet).map Field.eqParam := by
  unfold Table.NotEmptyFields
  induction fields with
  | nil => rfl
  | cons f fs ih =>
    have hfr := hf f (List.mem_cons_self _ _)
    have ih' := ih (fun g hg => hf g (List.mem_cons_of_mem _ hg))
    simp only [List.map_cons, List.filter_cons, pulled_empty, empty_eq_not_isSet f hfr,
      Bool.not_not]
    by_cases hq : f.isSet = true
    · simp only [hq, if_true, List.map_cons, ih', List.cons.injEq, and_true]
      simp only [Field.eqParam, Field.Param, emptied_name]
    · simp only [hq, if_false, Bool.false_eq_true, ih']

/-- C23: for a fresh descriptor list with distinct names, the parameters that
Params returns after a builder built its statement are one named parameter for
each descriptor of the builder's selection, in descriptor order, with the
descriptor's name and its current value, and a descriptor is in the selection
iff its placeholder `:name` is in the statement: every descriptor for Insert;
the mutable descriptors and the key descriptors (the pk, or without a pk the
natural keys) for Update; the key descriptors for Delete; for Get the pk when
there is one and it is not empty, and otherwise the natural keys; and the
descriptors that are not empty for List and Count. -/
theorem params_match_placeholders (n : String) (fields : List Field)
    (hf : ∀ f ∈ fields, f.Fresh) (hnd : (fields.map (fun f => f.Name)).Nodup) :
    (∀ stmt fields', Table.insertSQL n fields = .ok (stmt, fields') →
      Table.Params fields' = fields.map Field.arg ∧
      ∀ f ∈ fields, ":" ++ f.Name ∈ stmt.placeholders) ∧
    (∀ stmt fields', Table.updateSQL n fields = .ok (stmt, fields') →
      Table.Params fields' =
        (fields.filter (fun f => f.Mutable || isKeyField fields f)).map Field.arg ∧
      ∀ f ∈ fields, (":" ++ f.Name ∈ stmt.placeholders ↔
        (f.Mutable || isKeyField fields f) = true)) ∧
    (∀ stmt fields', Table.deleteSQL n fields = .ok (stmt, fields') →
      Table.Params fields' = (fields.filter (isKeyField fields)).map Field.arg ∧
      ∀ f ∈ fields, (":" ++ f.Name ∈ stmt.placeholders ↔ isKeyField fields f = true)) ∧
    (∀ stmt fields', Table.getSQL n fields = .ok (stmt, fields') →
      Table.Params fields' = (fields.filter (isGetKeyField fields)).map Field.arg ∧
      ∀ f ∈ fields, (":" ++ f.Name ∈ stmt.placeholders ↔ isGetKeyField fields f = true)) ∧
    (∀ options stmt fields', Table.listSQL n fields options = .ok (stmt, fields') →
      Table.Params fields' = (fields.filter Field.isSet).map Field.arg ∧
      ∀ f ∈ fields, (":" ++ f.Name ∈ stmt.placeholders ↔ f.isSet = true)) ∧
    (∀ q : Field → Bool, (((fields.filter q).map Field.arg).map (fun a => a.Name)).Nodup ∧
      ∀ f ∈ fields.filter q, f.arg = ⟨f.Name, f.Pull.1⟩) := by
  have h0 : markAll (fun _ => false) fields = fields := markAll_id _ _ (fun _ _ => rfl)
  have hkeys : ∀ g ∈ keyFields fields, g ∈ fields := fun g hg => (keyFields_mem fields g hg).1
  refine ⟨?_, ?_, ?_, ?_, ?_, ?_⟩
  · intro stmt fields' h
    simp only [Table.insertSQL, Except.ok.injEq, Prod.mk.injEq] at h
    obtain ⟨hs, hfs⟩ := h
    refine ⟨?_, ?_⟩
    · rw [← hfs, map_mark, params_markAll _ _ hf]
      simp
    · intro f hfm
      rw [← hs]
      simp only [InsertSQL, Stmt.placeholders, TmplData.zero, List.mem_map]
      exact ⟨f, hfm, rfl⟩
  · intro stmt fields' h
    simp only [Table.updateSQL, Except.ok.injEq, Prod.mk.injEq] at h
    obtain ⟨hs, hfs⟩ := h
    refine ⟨?_, ?_⟩
    · rw [← hfs, markWhere_eq _ _ hnd, params_markAll _ _ hf]
    · intro f hfm
      rw [← hs]
      simp only [UpdateSQL, Stmt.placeholders, List.mem_append]
      rw [where_eq_keyFields fields _ rfl rfl,
        placeholder_mem fields (keyFields fields) hnd hkeys f hfm,
        placeholder_mem fields (Table.MutableFields fields) hnd
          (fun g hg => (List.mem_filter.mp hg).1) f hfm,
        mem_keyFields fields hnd f hfm]
      simp only [Table.MutableFields, List.mem_filter, hfm, true_and, Bool.or_eq_true]
  · intro stmt fields' h
    simp only [Table.deleteSQL, Except.ok.injEq, Prod.mk.injEq] at h
    obtain ⟨hs, hfs⟩ := h
    refine ⟨?_, ?_⟩
    · have hm := markWhere_eq (fun _ => false) fields hnd
      rw [h0] at hm
      rw [← hfs, hm, params_markAll _ _ hf]
      simp
    · intro f hfm
      rw [← hs]
      simp only [DeleteSQL, Stmt.placeholders]
      rw [where_eq_keyFields fields _ rfl rfl,
        placeholder_mem fields (keyFields fields) hnd hkeys f hfm,
        mem_keyFields fields hnd f hfm]
  · intro stmt fields' h
    simp only [Table.getSQL, Except.ok.injEq, Prod.mk.injEq] at h
    obtain ⟨hs, hfs⟩ := h
    refine ⟨?_, ?_⟩
    · rw [← hfs, markGetWhere_role fields hf hnd, params_markAll _ _ hf]
    · intro f hfm
      rw [← hs]
      simp only [GetSQL, Stmt.placeholders]
      obtain ⟨sel, hsel, hin, hiff⟩ := getWhere_role fields hf
        { TmplData.zero n with
          Keys := Table.KeyFields fields,
          Pk := Table.PkField fields,
          Fields := fields } rfl rfl
      rw [hsel, placeholder_mem fields sel hnd hin f hfm]
      exact hiff f hfm hnd
  · intro options stmt fields' h
    have hcond : ∀ cols lab srt pg,
        ∀ f ∈ fields, (":" ++ f.Name ∈
          (Stmt.list n cols ((Table.NotEmptyFields fields).map Field.eqParam) lab srt
            pg).placeholders ↔ f.isSet = true) := by
      intro cols lab srt pg f hfm
      simp only [Stmt.placeholders]
      rw [notEmpty_sel fields hf,
        placeholder_mem fields _ hnd (fun g hg => (List.mem_filter.mp hg).1) f hfm]
      simp only [List.mem_filter, hfm, true_and]
    unfold Table.listSQL ListSQL at h
    simp only [TmplData.Labels, TmplData.zero] at h
    by_cases hl : options.Labels.isEmpty = true
    · simp only [hl, if_true, Except.ok.injEq, Prod.mk.injEq] at h
      obtain ⟨hs, hfs⟩ := h
      refine ⟨by rw [← hfs]; exact params_emptied fields hf, ?_⟩
      rw [← hs]
      exact hcond _ _ _ _
    · simp only [hl, if_false, Bool.false_eq_true] at h
      cases hpk : Table.PkField fields with
      | none => rw [hpk] at h; cases h
      | some pk =>
        rw [hpk] at h
        simp only [Except.ok.injEq, Prod.mk.injEq] at h
        obtain ⟨hs, hfs⟩ := h
        refine ⟨by rw [← hfs]; exact params_emptied fields hf, ?_⟩
        rw [← hs]
        exact hcond _ _ _ _
  · intro q
    refine ⟨?_, ?_⟩
    · rw [List.map_map]
      exact filter_names_nodup q fields hnd
    · intro f hfm
      have := fresh_pull f (hf f (List.mem_filter.mp hfm).1)
      simp only [Field.arg, this]

/-- C23, witness: the `Widget` with the pk 1, the natural key g1 and the name
a: the parameters of its update statement are those of all three fields, and
those of its delete statement the one of the pk. -/
theorem params_match_placeholders_witness :
    (Table.updateSQL "Widget" (widgetFields 1 "g1" "a")).map (fun r => Table.Params r.2) =
      .ok [⟨"Id", some (.int 1)⟩, ⟨"Group", some (.text "g1")⟩, ⟨"Name", some (.text "a")⟩] ∧
    (Table.deleteSQL "Widget" (widgetFields 1 "g1" "a")).map (fun r => Table.Params r.2) =
      .ok [⟨"Id", some (.int 1)⟩] ∧
    ∀ stmt fields', Table.deleteSQL "Widget" (widgetFields 1 "g1" "a") = .ok (stmt, fields') →
      Table.Params fields' =
        ((widgetFields 1 "g1" "a").filter (isKeyField (widgetFields 1 "g1" "a"))).map
          Field.arg ∧
      ∀ f ∈ widgetFields 1 "g1" "a", (":" ++ f.Name ∈ stmt.placeholders ↔
        isKeyField (widgetFields 1 "g1" "a") f = true) :=
  ⟨by decide, by decide,
    (params_match_placeholders "Widget" (widgetFields 1 "g1" "a")
      (fun f hf => descriptors_fresh (widgetDecl 1 "g1" "a") f hf) (by decide)).2.2.1⟩

theorem count_stmt (n : String) (fields : List Field) (options : ListOptions)
    (hl : options.Labels = []) :
    Table.listSQL n fields { options with Count := true } =
      .ok (.list n none ((Table.NotEmptyFields fields).map Field.eqParam) none
        options.SortKeys options.Page,
        markAll (fun f => !f.Empty.1) (fields.map (fun f => f.Empty.2))) := by
  unfold Table.listSQL ListSQL
  simp [TmplData.Labels, TmplData.zero, hl]

theorem holds_append : ∀ (a b : Trace) (d : Nat),
    holds d (a ++ b) = (holds d a).bind (fun k => holds k b)
  | [], b, d => rfl
  | .RLock :: a, b, d => by
    simp only [List.cons_append, holds]
    exact holds_append a b (d + 1)
  | .RUnlock :: a, b, d => by
    simp only [List.cons_append, holds]
    by_cases h : d ≤ 1
    · simp [h]
    · simp only [h, if_false]
      exact holds_append a b (d - 1)
  | .Exec _ :: a, b, d => by
    simp only [List.cons_append, holds]
    by_cases h : d = 0
    · simp [h]
    · simp only [h, if_false]
      exact holds_append a b d

theorem safe_nil : Safe [] := fun _ _ => rfl

theorem safe_append (a b : Trace) (ha : Safe a) (hb : Safe b) : Safe (a ++ b) := by
  intro d hd
  rw [holds_append, ha d hd]
  exact hb d hd

theorem safe_exec (stmt : Stmt) : Safe [.Exec stmt] := by
  intro d hd
  have : d ≠ 0 := by omega
  simp [holds, this]

theorem safe_locked (ev : Trace) (h : Safe ev) : Safe (.RLock :: ev ++ [.RUnlock]) := by
  intro d hd
  show holds (d + 1) (ev ++ [.RUnlock]) = some d
  rw [holds_append, h (d + 1) (by omega)]
  have : ¬ d + 1 ≤ 1 := by omega
  simp [holds, this]

theorem traces_noLabels {σ : Type} (k : String) (mm : ModelMethods) :
    Traces (noLabels k mm : σ × Trace → Except Error Unit × (σ × Trace)) (noLabels k mm) :=
  fun _ tr => ⟨rfl, rfl, [], by simp [noLabels], safe_nil⟩

theorem traces_withRLock {σ : Type} (body : σ × Trace → Except Error Unit × (σ × Trace))
    (plain : σ → Except Error Unit × σ) (h : Traces body plain) :
    (∀ s tr, (withRLock body (s, tr)).1 = (plain s).1 ∧
      (withRLock body (s, tr)).2.1 = (plain s).2 ∧
      ∃ ev, (withRLock body (s, tr)).2.2 = tr ++ .RLock :: ev ++ [.RUnlock] ∧ Safe ev) ∧
    Traces (withRLock body) plain := by
  have key : ∀ s tr, (withRLock body (s, tr)).1 = (plain s).1 ∧
      (withRLock body (s, tr)).2.1 = (plain s).2 ∧
      ∃ ev, (withRLock body (s, tr)).2.2 = tr ++ .RLock :: ev ++ [.RUnlock] ∧ Safe ev := by
    intro s tr
    obtain ⟨h1, h2, ev, h3, h4⟩ := h s (tr ++ [.RLock])
    refine ⟨h1, h2, ev, ?_, h4⟩
    simp only [withRLock, h3]
    simp
  refine ⟨key, ?_⟩
  intro s tr
  obtain ⟨h1, h2, ev, h3, h4⟩ := key s tr
  exact ⟨h1, h2, .RLock :: ev ++ [.RUnlock], by rw [h3]; simp, safe_locked ev h4⟩

theorem traces_updateWith {σ : Type} (db : DB σ)
    (cb : String → ModelMethods → σ × Trace → Except Error Unit × (σ × Trace))
    (plain : String → ModelMethods → σ → Except Error Unit × σ)
    (hcb : ∀ k mm, Traces (cb k mm) (plain k mm)) (model : Any) :
    Traces (Table.UpdateWith (recording db) cb model) (Table.UpdateWith db plain model) := by
  intro s tr
  unfold Table.UpdateWith
  cases hf : Table.Fields model with
  | error e => exact ⟨rfl, rfl, [], by simp, safe_nil⟩
  | ok fields =>
    dsimp only
    cases hs : Table.updateSQL (Table.Name model) fields with
    | error e => exact ⟨rfl, rfl, [], by simp, safe_nil⟩
    | ok r =>
      obtain ⟨stmt, fields'⟩ := r
      dsimp only [recording]
      cases hx : db.Exec stmt (Table.Params fields') s with
      | mk res s1 =>
        cases res with
        | error e => exact ⟨rfl, rfl, [.Exec stmt], rfl, safe_exec stmt⟩
        | ok r =>
          dsimp only
          cases hr : r.RowsAffected with
          | error e => exact ⟨rfl, rfl, [.Exec stmt], rfl, safe_exec stmt⟩
          | ok nRows =>
            dsimp only
            by_cases hn : nRows = 0
            · rw [if_pos hn, if_pos hn]
              exact ⟨rfl, rfl, [.Exec stmt], rfl, safe_exec stmt⟩
            · rw [if_neg hn, if_neg hn]
              cases hm : model.asModel with
              | none => exact ⟨rfl, rfl, [.Exec stmt], rfl, safe_exec stmt⟩
              | some mm =>
                dsimp only
                obtain ⟨h1, h2, ev, h3, h4⟩ := hcb (Table.Name model) mm s1 (tr ++ [.Exec stmt])
                exact ⟨h1, h2, [.Exec stmt] ++ ev, by rw [h3]; simp,
                  safe_append _ _ (safe_exec stmt) h4⟩

theorem traces_deleteWith {σ : Type} (db : DB σ)
    (cb : String → ModelMethods → σ × Trace → Except Error Unit × (σ × Trace))
    (plain : String → ModelMethods → σ → Except Error Unit × σ)
    (hcb : ∀ k mm, Traces (cb k mm) (plain k mm)) (model : Any) :
    Traces (Table.DeleteWith (recording db) cb model) (Table.DeleteWith db plain model) := by
  intro s tr
  unfold Table.DeleteWith
  cases hf : Table.Fields model with
  | error e => exact ⟨rfl, rfl, [], by simp, safe_nil⟩
  | ok fields =>
    dsimp only
    cases hs : Table.deleteSQL (Table.Name model) fields with
    | error e => exact ⟨rfl, rfl, [], by simp, safe_nil⟩
    | ok r =>
      obtain ⟨stmt, fields'⟩ := r
      dsimp only [recording]
      cases hx : db.Exec stmt (Table.Params fields') s with
      | mk res s1 =>
        cases res with
        | error e => exact ⟨rfl, rfl, [.Exec stmt], rfl, safe_exec stmt⟩
        | ok r =>
          dsimp only
          cases hr : r.RowsAffected with
          | error e => exact ⟨rfl, rfl, [.Exec stmt], rfl, safe_exec stmt⟩
          | ok nRows =>
            dsimp only
            by_cases hn : nRows = 0
            · rw [if_pos hn, if_pos hn]
              exact ⟨rfl, rfl, [.Exec stmt], rfl, safe_exec stmt⟩
            · rw [if_neg hn, if_neg hn]
              cases hm : model.asModel with
              | none => exact ⟨rfl, rfl, [.Exec stmt], rfl, safe_exec stmt⟩
              | some mm =>
                dsimp only
                obtain ⟨h1, h2, ev, h3, h4⟩ := hcb (Table.Name model) mm s1 (tr ++ [.Exec stmt])
                exact ⟨h1, h2, [.Exec stmt] ++ ev, by rw [h3]; simp,
                  safe_append _ _ (safe_exec stmt) h4⟩

theorem traces_insertWith {σ : Type} (db : DB σ)
    (up : Any → σ × Trace → Except Error Unit × (σ × Trace))
    (upPlain : Any → σ → Except Error Unit × σ)
    (cb : String → ModelMethods → σ × Trace → Except Error Unit × (σ × Trace))
    (plain : String → ModelMethods → σ → Except Error Unit × σ)
    (hup : ∀ model, Traces (up model) (upPlain model))
    (hcb : ∀ k mm, Traces (cb k mm) (plain k mm)) (model : Any) :
    Traces (Table.InsertWith (recording db) up cb model)
      (Table.InsertWith db upPlain plain model) := by
  intro s tr
  unfold Table.InsertWith
  cases hf : Table.Fields model with
  | error e => exact ⟨rfl, rfl, [], by simp, safe_nil⟩
  | ok fields =>
    dsimp only
    cases hs : Table.insertSQL (Table.Name model) fields with
    | error e => exact ⟨rfl, rfl, [], by simp, safe_nil⟩
    | ok r =>
      obtain ⟨stmt, fields'⟩ := r
      dsimp only [recording]
      cases hx : db.Exec stmt (Table.Params fields') s with
      | mk res s1 =>
        cases res with
        | error e =>
          by_cases he : e = .constraint
          · subst he
            dsimp only
            obtain ⟨h1, h2, ev, h3, h4⟩ := hup model s1 (tr ++ [.Exec stmt])
            exact ⟨h1, h2, [.Exec stmt] ++ ev, by rw [h3]; simp,
              safe_append _ _ (safe_exec stmt) h4⟩
          · cases e <;>
              first
              | exact absurd rfl he
              | exact ⟨rfl, rfl, [.Exec stmt], rfl, safe_exec stmt⟩
        | ok r =>
          dsimp only [insertDone]
          cases hr : r.RowsAffected with
          | error e => exact ⟨rfl, rfl, [.Exec stmt], rfl, safe_exec stmt⟩
          | ok nRows =>
            dsimp only
            by_cases hn : nRows = 0
            · rw [if_pos hn, if_pos hn]
              exact ⟨rfl, rfl, [.Exec stmt], rfl, safe_exec stmt⟩
            · rw [if_neg hn, if_neg hn]
              cases hm : model.asModel with
              | none => exact ⟨rfl, rfl, [.Exec stmt], rfl, safe_exec stmt⟩
              | some mm =>
                dsimp only
                obtain ⟨h1, h2, ev, h3, h4⟩ := hcb (Table.Name model) mm s1 (tr ++ [.Exec stmt])
                exact ⟨h1, h2, [.Exec stmt] ++ ev, by rw [h3]; simp,
                  safe_append _ _ (safe_exec stmt) h4⟩

theorem traces_updateLabel {σ : Type} (db : DB σ) (label : Any) :
    Traces (Table.UpdateLabelLocked db label) (Table.UpdateLabel db label) :=
  (traces_withRLock _ _ (traces_updateWith db noLabels noLabels traces_noLabels label)).2

theorem traces_insertLabel {σ : Type} (db : DB σ) (label : Any) :
    Traces (Table.InsertLabelLocked db label) (Table.InsertLabel db label) :=
  (traces_withRLock _ _ (traces_insertWith db _ _ noLabels noLabels (traces_updateLabel db)
    traces_noLabels label)).2

theorem traces_deleteLabel {σ : Type} (db : DB σ) (label : Any) :
    Traces (Table.DeleteLabelLocked db label) (Table.DeleteLabel db label) :=
  (traces_withRLock _ _ (traces_deleteWith db noLabels noLabels traces_noLabels label)).2

theorem traces_insertLabelsLoop {σ : Type} (db : DB σ) (kind parent : String) :
    ∀ labels : List (String × String),
      Traces (insertLabelsLoopLocked db kind parent labels)
        (insertLabelsLoop db kind parent labels)
  | [] => fun _ tr => ⟨rfl, rfl, [], by simp [insertLabelsLoopLocked], safe_nil⟩
  | (l, v) :: rest => by
    intro s tr
    obtain ⟨h1, h2, ev, h3, h4⟩ := traces_insertLabel db (Label parent kind l v) s tr
    unfold insertLabelsLoopLocked insertLabelsLoop
    cases hp : Table.InsertLabel db (Label parent kind l v) s with
    | mk res s1 =>
      rw [hp] at h1 h2
      cases hq : Table.InsertLabelLocked db (Label parent kind l v) (s, tr) with
      | mk res2 st =>
        obtain ⟨s2, tr2⟩ := st
        rw [hq] at h1 h2 h3
        simp only at h1 h2 h3
        subst h1; subst h2; subst h3
        cases res2 with
        | error e => exact ⟨rfl, rfl, ev, rfl, h4⟩
        | ok u =>
          dsimp only
          obtain ⟨g1, g2, ev2, g3, g4⟩ := traces_insertLabelsLoop db kind parent rest s2 (tr ++ ev)
          exact ⟨g1, g2, ev ++ ev2, by rw [g3]; simp, safe_append _ _ h4 g4⟩

theorem traces_insertLabels {σ : Type} (db : DB σ) (kind : String) (mm : ModelMethods) :
    Traces (Table.InsertLabelsLocked db kind mm) (Table.InsertLabels db kind mm) :=
  traces_insertLabelsLoop db kind mm.Pk mm.Labels

theorem traces_deleteLabels {σ : Type} (db : DB σ) (kind : String) (mm : ModelMethods) :
    Traces (Table.DeleteLabelsLocked db kind mm) (Table.DeleteLabels db kind mm) :=
  traces_deleteLabel db _

theorem traces_replaceLabels {σ : Type} (db : DB σ) (kind : String) (mm : ModelMethods) :
    Traces (Table.ReplaceLabelsLocked db kind mm) (Table.ReplaceLabels db kind mm) := by
  intro s tr
  obtain ⟨h1, h2, ev, h3, h4⟩ := traces_deleteLabels db kind mm s tr
  unfold Table.ReplaceLabelsLocked Table.ReplaceLabels
  cases hp : Table.DeleteLabels db kind mm s with
  | mk res s1 =>
    rw [hp] at h1 h2
    cases hq : Table.DeleteLabelsLocked db kind mm (s, tr) with
    | mk res2 st =>
      obtain ⟨s2, tr2⟩ := st
      rw [hq] at h1 h2 h3
      simp only at h1 h2 h3
      subst h1; subst h2; subst h3
      cases res2 with
      | error e => exact ⟨rfl, rfl, ev, rfl, h4⟩
      | ok u =>
        dsimp only
        obtain ⟨g1, g2, ev2, g3, g4⟩ := traces_insertLabels db kind mm s2 (tr ++ ev)
        exact ⟨g1, g2, ev ++ ev2, by rw [g3]; simp, safe_append _ _ h4 g4⟩

theorem traces_update_body {σ : Type} (db : DB σ) (model : Any) :
    Traces (Table.UpdateWith (recording db) (Table.ReplaceLabelsLocked db) model)
      (Table.Update db model) :=
  traces_updateWith db _ _ (traces_replaceLabels db) model

theorem traces_update {σ : Type} (db : DB σ) (model : Any) :
    Traces (Table.UpdateLocked db model) (Table.Update db model) :=
  (traces_withRLock _ _ (traces_update_body db model)).2

theorem traces_insert_body {σ : Type} (db : DB σ) (model : Any) :
    Traces (Table.InsertWith (recording db) (Table.UpdateLocked db)
        (Table.InsertLabelsLocked db) model)
      (Table.Insert db model) :=
  traces_insertWith db _ _ _ _ (traces_update db) (traces_insertLabels db) model

theorem traces_delete_body {σ : Type} (db : DB σ) (model : Any) :
    Traces (Table.DeleteWith (recording db) (Table.DeleteLabelsLocked db) model)
      (Table.Delete db model) :=
  traces_deleteWith db _ _ (traces_deleteLabels db) model

/-- C22: Insert, Update and Delete each take the lock `Mutex` on its shared
side before anything else and give it back as the last thing they do; between
the two the lock stays held, every statement they execute is executed there,
the label operations and the Update that an Insert falls back to among them,
each of which takes and gives back the lock once more inside; and with the calls
on the lock they return what they return without, and leave the store as they
leave it without. Get, List and Count make no call on the lock: they return
what they return on the store alone, and their results hold no trace. -/
theorem lock_protocol {σ : Type} (db : DB σ) (model : Any) (s : σ) (tr : Trace) :
    (∃ ev, (Table.InsertLocked db model (s, tr)).2.2 = tr ++ .RLock :: ev ++ [.RUnlock] ∧
      holds 1 ev = some 1) ∧
    (∃ ev, (Table.UpdateLocked db model (s, tr)).2.2 = tr ++ .RLock :: ev ++ [.RUnlock] ∧
      holds 1 ev = some 1) ∧
    (∃ ev, (Table.DeleteLocked db model (s, tr)).2.2 = tr ++ .RLock :: ev ++ [.RUnlock] ∧
      holds 1 ev = some 1) ∧
    ((Table.InsertLocked db model (s, tr)).1 = (Table.Insert db model s).1 ∧
      (Table.InsertLocked db model (s, tr)).2.1 = (Table.Insert db model s).2) ∧
    ((Table.UpdateLocked db model (s, tr)).1 = (Table.Update db model s).1 ∧
      (Table.UpdateLocked db model (s, tr)).2.1 = (Table.Update db model s).2) ∧
    ((Table.DeleteLocked db model (s, tr)).1 = (Table.Delete db model s).1 ∧
      (Table.DeleteLocked db model (s, tr)).2.1 = (Table.Delete db model s).2) ∧
    Table.Get (recording db) model (s, tr) = Table.Get db model s ∧
    (∀ options, Table.List (recording db) model options (s, tr) =
        Table.List db model options s ∧
      Table.Count (recording db) model options (s, tr) = Table.Count db model options s) := by
  obtain ⟨i1, i2, iev, i3, i4⟩ := (traces_withRLock _ _ (traces_insert_body db model)).1 s tr
  obtain ⟨u1, u2, uev, u3, u4⟩ := (traces_withRLock _ _ (traces_update_body db model)).1 s tr
  obtain ⟨d1, d2, dev, d3, d4⟩ := (traces_withRLock _ _ (traces_delete_body db model)).1 s tr
  exact ⟨⟨iev, i3, i4 1 (Nat.le_refl 1)⟩, ⟨uev, u3, u4 1 (Nat.le_refl 1)⟩,
    ⟨dev, d3, d4 1 (Nat.le_refl 1)⟩, ⟨i1, i2⟩, ⟨u1, u2⟩, ⟨d1, d2⟩, rfl, fun _ => ⟨rfl, rfl⟩⟩

/-- C22, witness: the Insert of an `Ent` with one label into the empty
tables: the lock is taken, the row is inserted, the lock is taken again for the
Insert of the label and given back after it, and the lock is given back. -/
theorem lock_protocol_witness :
    (∃ ev, (Table.InsertLocked sqlite (Ent "p1" "n" [("a", "1")]) (entStore [] [], [])).2.2 =
        [] ++ .RLock :: ev ++ [.RUnlock] ∧ holds 1 ev = some 1) ∧
    (Table.InsertLocked sqlite (Ent "p1" "n" [("a", "1")]) (entStore [] [], [])).2.2 =
      [.RLock, .Exec (.insert "Ent" ["PK", "Name"] [":PK", ":Name"]),
        .RLock,
        .Exec (.insert "Label" ["Parent", "Kind", "Name", "Value"]
          [":Parent", ":Kind", ":Name", ":Value"]),
        .RUnlock, .RUnlock] :=
  ⟨(lock_protocol sqlite (Ent "p1" "n" [("a", "1")]) (entStore [] []) []).1, by decide⟩

theorem fieldsCall_value (a : Any) (h : a.sealed = false) :
    Table.FieldsCall (.value a) = .returned (Table.Fields a) := by
  simp [Table.FieldsCall, h]

theorem entered_value {α : Type} (a : Any) (h : a.sealed = false) (onError : Error → α)
    (body : Any → Outcome α) : Table.entered (.value a) onError body = body a := by
  simp [Table.entered, h]

/-- C11 (as amended): Fields returns "must be pointer" on every value that is
not a pointer and "must be object" on every pointer to a value that is not a
struct and on every nil pointer; it returns the descriptors on every pointer to
a struct whose fields of kind struct are exported, at every depth; so it
returns an error exactly on the arguments that are neither the nil interface
nor a pointer to a struct; and whenever Fields returns an error, each of
Insert, Update, Delete, Get, List and Count returns that error, whatever the
store behind `DB` is, and Insert, Update and Delete leave the store in the
state they found it in. -/
theorem fields_needs_struct_pointer :
    (∀ v, Table.FieldsCall (.value (.val v)) = .returned (.error .mustBePointer)) ∧
    (∀ v m, v.Kind ≠ .struct →
      Table.FieldsCall (.value (.ptr v m)) = .returned (.error .mustBeObject)) ∧
    (∀ elem, Table.FieldsCall (.nilPtr elem) = .returned (.error .mustBeObject)) ∧
    (∀ n fs m, fs.sealed = false →
      Table.FieldsCall (.value (.ptr (.struct n fs) m)) = .returned (.ok fs.descriptors)) ∧
    (∀ model, (∃ e, Table.FieldsCall model = .returned (.error e)) ↔
      model ≠ .nil ∧ ¬ ∃ n fs m, model = .value (.ptr (.struct n fs) m)) ∧
    (∀ (model : Input) (e : Error), Table.FieldsCall model = .returned (.error e) →
      ∀ (σ : Type) (db : DB σ) (s : σ) (options : ListOptions),
        Table.InsertCall db model s = .returned (.error e, s) ∧
        Table.UpdateCall db model s = .returned (.error e, s) ∧
        Table.DeleteCall db model s = .returned (.error e, s) ∧
        Table.GetCall db model s = .returned (.error e, []) ∧
        Table.ListCall db model options s = .returned (.error e) ∧
        Table.CountCall db model options s = .returned (.error e)) := by
  have hval : ∀ v, Table.FieldsCall (.value (.val v)) = .returned (.error .mustBePointer) :=
    fun _ => rfl
  have hptr : ∀ v m, v.Kind ≠ .struct →
      Table.FieldsCall (.value (.ptr v m)) = .returned (.error .mustBeObject) := by
    intro v m h
    cases v with
    | struct n fs => exact absurd rfl h
    | string s => rfl
    | int i => rfl
    | other k => rfl
  refine ⟨hval, hptr, fun _ => rfl, ?_, ?_, ?_⟩
  · intro n fs m h
    simp [Table.FieldsCall, Any.sealed, h, Table.Fields]
  · intro model
    constructor
    · rintro ⟨e, he⟩
      refine ⟨?_, ?_⟩
      · rintro rfl
        cases he
      · rintro ⟨n, fs, m, rfl⟩
        simp only [Table.FieldsCall, Any.sealed, Table.Fields] at he
        split at he <;> cases he
    · rintro ⟨h1, h2⟩
      cases model with
      | nil => exact absurd rfl h1
      | nilPtr elem => exact ⟨_, rfl⟩
      | value a =>
        cases a with
        | val v => exact ⟨_, hval v⟩
        | ptr v m =>
          cases v with
          | struct n fs => exact absurd ⟨n, fs, m, rfl⟩ h2
          | string s => exact ⟨_, rfl⟩
          | int i => exact ⟨_, rfl⟩
          | other k => exact ⟨_, rfl⟩
  · intro model e he σ db s options
    cases model with
    | nil => cases he
    | nilPtr elem =>
      simp only [Table.FieldsCall, Outcome.returned.injEq, Except.error.injEq] at he
      subst he
      exact ⟨rfl, rfl, rfl, rfl, rfl, rfl⟩
    | value a =>
      simp only [Table.FieldsCall] at he
      by_cases hs : a.sealed = true
      · simp only [hs, if_true] at he
        cases he
      · simp only [hs, Bool.false_eq_true, if_false, Outcome.returned.injEq] at he
        have hs' : a.sealed = false := by simpa using hs
        refine ⟨?_, ?_, ?_, ?_, ?_, ?_⟩
        · simp only [Table.InsertCall, entered_value a hs', Table.Insert, Table.InsertWith, he]
        · simp only [Table.UpdateCall, entered_value a hs', Table.Update, Table.UpdateWith, he]
        · simp only [Table.DeleteCall, entered_value a hs', Table.Delete, Table.DeleteWith, he]
        · simp only [Table.GetCall, entered_value a hs', he]
        · simp only [Table.ListCall, entered_value a hs', he]
        · simp only [Table.CountCall, entered_value a hs', Table.Count, he]

/-- C11, witness: the int 3 passed by value, a pointer to a string and a nil
pointer to a `Gadget`: every operation returns the error of Fields, and the
store is as it was. -/
theorem fields_needs_struct_pointer_witness :
    (Table.InsertCall idleDB (.value (.val (.int 3))) () = .returned (.error .mustBePointer, ()) ∧
      Table.UpdateCall idleDB (.value (.val (.int 3))) () = .returned (.error .mustBePointer, ()) ∧
      Table.DeleteCall idleDB (.value (.val (.int 3))) () = .returned (.error .mustBePointer, ()) ∧
      Table.GetCall idleDB (.value (.val (.int 3))) () = .returned (.error .mustBePointer, []) ∧
      Table.ListCall idleDB (.value (.val (.int 3))) ListOptions.none () =
        .returned (.error .mustBePointer) ∧
      Table.CountCall idleDB (.value (.val (.int 3))) ListOptions.none () =
        .returned (.error .mustBePointer)) ∧
    Table.FieldsCall (.value (.ptr (.string "Gadget") none)) = .returned (.error .mustBeObject) ∧
    Table.FieldsCall (.nilPtr (.struct "Gadget" (gadgetDecl 0 "" ""))) =
      .returned (.error .mustBeObject) ∧
    Table.FieldsCall (.value (Gadget 1 "t1" "a")) =
      .returned (.ok (gadgetDecl 1 "t1" "a").descriptors) :=
  ⟨fields_needs_struct_pointer.2.2.2.2.2 (.value (.val (.int 3))) .mustBePointer rfl Unit idleDB
      () ListOptions.none,
    fields_needs_struct_pointer.2.1 (.string "Gadget") none (by decide),
    fields_needs_struct_pointer.2.2.1 _,
    fields_needs_struct_pointer.2.2.2.1 "Gadget" (gadgetDecl 1 "t1" "a") none (by decide)⟩

/-- C11, counterexample: the nil interface is no pointer to a struct, yet
Fields and the six operations return no error on it: they panic; and on a
pointer to a struct with a nested struct in a field that is not exported Fields
does not succeed: it panics. -/
theorem fields_needs_struct_pointer_fails :
    (Table.FieldsCall .nil = .panicked nilDereference ∧
      Table.InsertCall idleDB .nil () = .panicked nilDereference ∧
      Table.UpdateCall idleDB .nil () = .panicked nilDereference ∧
      Table.DeleteCall idleDB .nil () = .panicked nilDereference ∧
      Table.GetCall idleDB .nil () = .panicked nilDereference ∧
      Table.ListCall idleDB .nil ListOptions.none () = .panicked nilDereference ∧
      Table.CountCall idleDB .nil ListOptions.none () = .panicked nilDereference) ∧
    Table.FieldsCall (.value (.ptr (.struct "Wrapped" (wrappedDecl 1 "a")) none)) =
      .panicked unexportedInterface :=
  ⟨⟨rfl, rfl, rfl, rfl, rfl, rfl, rfl⟩, by decide⟩

/-- C13 (as amended): for every pointer to a struct whose leaf fields are all
text or int and whose fields of kind struct are exported, at every depth,
Fields returns one descriptor per leaf field, in declaration order with the
leaves of a nested struct in the place of that struct, each with the name, the
tag and the value of its leaf field, its staging cells empty and not marked as
a parameter. -/
theorem fields_flatten (n : String) (fs : GoFields) (m : Option ModelMethods)
    (h : ∀ l ∈ fs.leaves, l.2.2.supported = true) (hx : fs.sealed = false) :
    ∃ fields, Table.FieldsCall (.value (.ptr (.struct n fs) m)) = .returned (.ok fields) ∧
      fields.map (fun f => (f.Name, f.Tag, f.Value)) = fs.leaves ∧
      fields.length = fs.leaves.length ∧
      ∀ f ∈ fields, f.string = "" ∧ f.int = 0 ∧ f.isParam = false := by
  have hmap : fs.descriptors.map (fun f => (f.Name, f.Tag, f.Value)) = fs.leaves := by
    rw [descriptors_leaves, List.filter_eq_self]
    exact h
  refine ⟨fs.descriptors, ?_, hmap, ?_, ?_⟩
  · simp [Table.FieldsCall, Any.sealed, hx, Table.Fields]
  · rw [← hmap, List.length_map]
  · intro f hf
    exact (descriptors_fresh fs f hf).2

/-- C13, witness: a record with a nested record between two fields. -/
theorem fields_flatten_witness :
    ∃ fields, Table.FieldsCall (.value (.ptr (.struct "Nested" (nestedDecl 7 "n" 2 "x")) none)) =
        .returned (.ok fields) ∧
      fields.map (fun f => (f.Name, f.Tag, f.Value)) =
        [("Id", "pk", .int 7), ("Name", "key", .string "n"), ("Rev", "", .int 2),
         ("Note", "", .string "x")] ∧
      fields.length = 4 ∧
      ∀ f ∈ fields, f.string = "" ∧ f.int = 0 ∧ f.isParam = false :=
  fields_flatten "Nested" (nestedDecl 7 "n" 2 "x") none (by decide) (by decide)

/-- C13, counterexample: the leaf fields of `Wrapped` are an int and a text,
the second inside a nested struct in a field that is not exported; Fields
returns no descriptors: it panics. -/
theorem fields_flatten_fails :
    (wrappedDecl 1 "a").leaves = [("Id", "pk", .int 1), ("Name", "", .string "a")] ∧
    (∀ l ∈ (wrappedDecl 1 "a").leaves, l.2.2.supported = true) ∧
    Table.FieldsCall (.value (.ptr (.struct "Wrapped" (wrappedDecl 1 "a")) none)) =
      .panicked unexportedInterface := by
  decide

theorem names_insertSQL (n : String) (fields : List Field) (stmt : Stmt) (fields' : List Field)
    (h : Table.insertSQL n fields = .ok (stmt, fields')) :
    stmt.names = n :: fields.map (fun f => f.Name) := by
  simp only [Table.insertSQL, Except.ok.injEq, Prod.mk.injEq] at h
  rw [← h.1]
  rfl

theorem all_of_subset {α : Type} (p : α → Bool) (l1 l2 : List α) (hsub : ∀ x ∈ l1, x ∈ l2)
    (h : l2.all p = true) : l1.all p = true := by
  rw [List.all_eq_true] at h ⊢
  exact fun x hx => h x (hsub x hx)

theorem where_names (fields : List Field) (d : TmplData)
    (hk : d.Keys = Table.KeyFields fields) (hp : d.Pk = Table.PkField fields) :
    ∀ x ∈ d.where.map (fun c => c.1), x ∈ fields.map (fun f => f.Name) := by
  intro x hx
  unfold TmplData.where at hx
  rw [hp, hk] at hx
  cases hpk : Table.PkField fields with
  | none =>
    simp only [hpk, List.map_map, List.mem_map, Function.comp_apply] at hx
    obtain ⟨f, hf, rfl⟩ := hx
    exact List.mem_map_of_mem _ (List.mem_of_mem_filter hf)
  | some pk =>
    simp only [hpk, List.map_cons, List.map_nil, List.mem_singleton] at hx
    subst hx
    exact List.mem_map_of_mem _ (List.mem_of_find?_eq_some hpk)

theorem names_updateSQL (n : String) (fields : List Field) (stmt : Stmt) (fields' : List Field)
    (h : Table.updateSQL n fields = .ok (stmt, fields')) :
    ∀ x ∈ stmt.names, x ∈ n :: fields.map (fun f => f.Name) := by
  simp only [Table.updateSQL, Except.ok.injEq, Prod.mk.injEq] at h
  rw [← h.1]
  intro x hx
  simp only [UpdateSQL, Stmt.names, List.mem_cons, List.mem_append] at hx
  rcases hx with hx | hx | hx
  · exact hx ▸ List.mem_cons_self _ _
  · simp only [TmplData.zero, List.map_map, List.mem_map, Function.comp_apply] at hx
    obtain ⟨f, hf, rfl⟩ := hx
    exact List.mem_cons_of_mem _ (List.mem_map_of_mem _ (List.mem_of_mem_filter hf))
  · exact List.mem_cons_of_mem _ (where_names fields _ rfl rfl x hx)

theorem names_deleteSQL (n : String) (fields : List Field) (stmt : Stmt) (fields' : List Field)
    (h : Table.deleteSQL n fields = .ok (stmt, fields')) :
    ∀ x ∈ stmt.names, x ∈ n :: fields.map (fun f => f.Name) := by
  simp only [Table.deleteSQL, Except.ok.injEq, Prod.mk.injEq] at h
  rw [← h.1]
  intro x hx
  simp only [DeleteSQL, Stmt.names, List.mem_cons] at hx
  rcases hx with hx | hx
  · exact hx ▸ List.mem_cons_self _ _
  · exact List.mem_cons_of_mem _ (where_names fields _ rfl rfl x hx)

theorem sqlNames_all (n : String) (fields : List Field) (h : sqlNames n fields = true) :
    (n :: fields.map (fun f => f.Name)).all isName = true := by
  unfold sqlNames at h
  simp only [Bool.and_eq_true] at h
  rw [List.all_cons, h.1, Bool.true_and, List.all_eq_true]
  intro x hx
  obtain ⟨f, hf, rfl⟩ := List.mem_map.mp hx
  exact List.all_eq_true.mp h.2 f hf

theorem engineExec_names (stmt : Stmt) (args : List NamedArg) (s : Store)
    (h : stmt.names.all isName = true) : engineExec stmt args s = sqliteExec stmt args s := by
  simp [engineExec, h]

theorem insertWith_engine (e : Engine) (up1 up2 : Any → Store → Except Error Unit × Store)
    (il1 il2 : String → ModelMethods → Store → Except Error Unit × Store)
    (n : String) (fs : GoFields) (m : Option ModelMethods)
    (hnames : sqlNames n fs.descriptors = true)
    (hup : ∀ s, up1 (.ptr (.struct n fs) m) s = up2 (.ptr (.struct n fs) m) s)
    (hil : ∀ mm s, il1 n mm s = il2 n mm s) (s : Store) :
    Table.InsertWith (engine e) up1 il1 (.ptr (.struct n fs) m) s =
      Table.InsertWith sqlite up2 il2 (.ptr (.struct n fs) m) s := by
  unfold Table.InsertWith
  simp only [Table.Fields, Table.Name, GoValue.typeName]
  cases hq : Table.insertSQL n fs.descriptors with
  | error err => rfl
  | ok r =>
    obtain ⟨stmt, fields'⟩ := r
    have hn : stmt.names.all isName = true := by
      rw [names_insertSQL _ _ _ _ hq]
      exact sqlNames_all _ _ hnames
    simp only [engine, sqlite, engineExec_names stmt _ s hn]
    cases hx : sqliteExec stmt (Table.Params fields') s with
    | mk r1 s1 =>
      cases r1 with
      | error err =>
        cases err <;> simp only [hup]
      | ok res =>
        simp only [insertDone, Table.Name, GoValue.typeName, hil]

theorem updateWith_engine (e : Engine)
    (rl1 rl2 : String → ModelMethods → Store → Except Error Unit × Store)
    (n : String) (fs : GoFields) (m : Option ModelMethods)
    (hnames : sqlNames n fs.descriptors = true)
    (hrl : ∀ mm s, rl1 n mm s = rl2 n mm s) (s : Store) :
    Table.UpdateWith (engine e) rl1 (.ptr (.struct n fs) m) s =
      Table.UpdateWith sqlite rl2 (.ptr (.struct n fs) m) s := by
  unfold Table.UpdateWith
  simp only [Table.Fields, Table.Name, GoValue.typeName]
  cases hq : Table.updateSQL n fs.descriptors with
  | error err => rfl
  | ok r =>
    obtain ⟨stmt, fields'⟩ := r
    have hn : stmt.names.all isName = true :=
      all_of_subset _ _ _ (names_updateSQL _ _ _ _ hq) (sqlNames_all _ _ hnames)
    simp only [engine, sqlite, engineExec_names stmt _ s hn, hrl]

theorem deleteWith_engine (e : Engine)
    (dl1 dl2 : String → ModelMethods → Store → Except Error Unit × Store)
    (n : String) (fs : GoFields) (m : Option ModelMethods)
    (hnames : sqlNames n fs.descriptors = true)
    (hdl : ∀ mm s, dl1 n mm s = dl2 n mm s) (s : Store) :
    Table.DeleteWith (engine e) dl1 (.ptr (.struct n fs) m) s =
      Table.DeleteWith sqlite dl2 (.ptr (.struct n fs) m) s := by
  unfold Table.DeleteWith
  simp only [Table.Fields, Table.Name, GoValue.typeName]
  cases hq : Table.deleteSQL n fs.descriptors with
  | error err => rfl
  | ok r =>
    obtain ⟨stmt, fields'⟩ := r
    have hn : stmt.names.all isName = true :=
      all_of_subset _ _ _ (names_deleteSQL _ _ _ _ hq) (sqlNames_all _ _ hnames)
    simp only [engine, sqlite, engineExec_names stmt _ s hn, hdl]

theorem label_names (p k nm v : String) :
    sqlNames "Label" (labelDecl p k nm v).descriptors = true := by
  simp only [sqlNames, labelDecl, GoFields.descriptors, List.cons_append, List.nil_append,
    List.all_cons, List.all_nil, Bool.and_true]
  decide

theorem insertLabel_engine (e : Engine) (p k nm v : String) (s : Store) :
    Table.InsertLabel (engine e) (Label p k nm v) s = Table.InsertLabel sqlite (Label p k nm v) s := by
  unfold Table.InsertLabel Label
  apply insertWith_engine e _ _ _ _ _ _ _ (label_names p k nm v)
  · intro s
    exact updateWith_engine e _ _ _ _ _ (label_names p k nm v) (fun _ _ => rfl) s
  · intro _ _
    rfl

theorem deleteLabel_engine (e : Engine) (p k nm v : String) (s : Store) :
    Table.DeleteLabel (engine e) (Label p k nm v) s = Table.DeleteLabel sqlite (Label p k nm v) s :=
  deleteWith_engine e _ _ _ _ _ (label_names p k nm v) (fun _ _ => rfl) s

theorem insertLabelsLoop_engine (e : Engine) (kind parent : String) :
    ∀ (labels : List (String × String)) (s : Store),
    insertLabelsLoop (engine e) kind parent labels s = insertLabelsLoop sqlite kind parent labels s
  | [], _ => rfl
  | (l, v) :: rest, s => by
    simp only [insertLabelsLoop, insertLabel_engine]
    cases Table.InsertLabel sqlite (Label parent kind l v) s with
    | mk r s1 =>
      cases r with
      | error err => rfl
      | ok u => exact insertLabelsLoop_engine e kind parent rest s1

theorem insertLabels_engine (e : Engine) (kind : String) (mm : ModelMethods) (s : Store) :
    Table.InsertLabels (engine e) kind mm s = Table.InsertLabels sqlite kind mm s :=
  insertLabelsLoop_engine e kind mm.Pk mm.Labels s

theorem deleteLabels_engine (e : Engine) (kind : String) (mm : ModelMethods) (s : Store) :
    Table.DeleteLabels (engine e) kind mm s = Table.DeleteLabels sqlite kind mm s :=
  deleteLabel_engine e mm.Pk kind "" "" s

theorem replaceLabels_engine (e : Engine) (kind : String) (mm : ModelMethods) (s : Store) :
    Table.ReplaceLabels (engine e) kind mm s = Table.ReplaceLabels sqlite kind mm s := by
  unfold Table.ReplaceLabels
  rw [deleteLabels_engine]
  cases Table.DeleteLabels sqlite kind mm s with
  | mk r s1 =>
    cases r with
    | error err => rfl
    | ok u => exact insertLabels_engine e kind mm s1

theorem update_engine (e : Engine) (n : String) (fs : GoFields) (m : Option ModelMethods)
    (hnames : sqlNames n fs.descriptors = true) (s : Store) :
    Table.Update (engine e) (.ptr (.struct n fs) m) s =
      Table.Update sqlite (.ptr (.struct n fs) m) s :=
  updateWith_engine e _ _ n fs m hnames (fun mm s => replaceLabels_engine e n mm s) s

theorem insert_engine (e : Engine) (n : String) (fs : GoFields) (m : Option ModelMethods)
    (hnames : sqlNames n fs.descriptors = true) (s : Store) :
    Table.Insert (engine e) (.ptr (.struct n fs) m) s =
      Table.Insert sqlite (.ptr (.struct n fs) m) s :=
  insertWith_engine e _ _ _ _ n fs m hnames (fun s => update_engine e n fs m hnames s)
    (fun mm s => insertLabels_engine e n mm s) s

theorem delete_engine (e : Engine) (n : String) (fs : GoFields) (m : Option ModelMethods)
    (hnames : sqlNames n fs.descriptors = true) (s : Store) :
    Table.Delete (engine e) (.ptr (.struct n fs) m) s =
      Table.Delete sqlite (.ptr (.struct n fs) m) s :=
  deleteWith_engine e _ _ n fs m hnames (fun mm s => deleteLabels_engine e n mm s) s

theorem generated_names (n : String) (fs : GoFields) (s : Store) (t : TableState)
    (h : Generated n fs s t) : sqlNames n fs.descriptors = true := by
  obtain ⟨-, ⟨s1, h1⟩, -, -⟩ := h
  unfold engineCreate at h1
  by_cases hn : sqlNames n fs.descriptors = true
  · exact hn
  · simp [hn] at h1

theorem generated_nodup (n : String) (fs : GoFields) (s : Store) (t : TableState)
    (h : Generated n fs s t) : (fs.descriptors.map (fun f => f.Name)).Nodup := by
  have hn := generated_names n fs s t h
  obtain ⟨-, ⟨s1, h1⟩, -, -⟩ := h
  unfold engineCreate at h1
  simp only [hn, Bool.not_true, Bool.false_eq_true, if_false] at h1
  by_cases hd : (fs.descriptors.map (fun f => foldName f.Name)).Nodup
  · have : (fs.descriptors.map (fun f => foldName f.Name)) =
        (fs.descriptors.map (fun f => f.Name)).map foldName := by
      rw [List.map_map]; rfl
    rw [this] at hd
    exact List.Nodup.of_map _ hd
  · simp [hd] at h1

theorem insertCall_engine (e : Engine) (n : String) (fs : GoFields) (m : Option ModelMethods)
    (s s0 : Store) (t : TableState) (h : Generated n fs s0 t) :
    Table.InsertCall (engine e) (.value (.ptr (.struct n fs) m)) s =
      .returned (Table.Insert sqlite (.ptr (.struct n fs) m) s) := by
  unfold Table.InsertCall
  rw [entered_value (.ptr (.struct n fs) m) h.1, insert_engine e n fs m (generated_names _ _ _ _ h)]

theorem updateCall_engine (e : Engine) (n : String) (fs : GoFields) (m : Option ModelMethods)
    (s s0 : Store) (t : TableState) (h : Generated n fs s0 t) :
    Table.UpdateCall (engine e) (.value (.ptr (.struct n fs) m)) s =
      .returned (Table.Update sqlite (.ptr (.struct n fs) m) s) := by
  unfold Table.UpdateCall
  rw [entered_value (.ptr (.struct n fs) m) h.1, update_engine e n fs m (generated_names _ _ _ _ h)]

theorem deleteCall_engine (e : Engine) (n : String) (fs : GoFields) (m : Option ModelMethods)
    (s s0 : Store) (t : TableState) (h : Generated n fs s0 t) :
    Table.DeleteCall (engine e) (.value (.ptr (.struct n fs) m)) s =
      .returned (Table.Delete sqlite (.ptr (.struct n fs) m) s) := by
  unfold Table.DeleteCall
  rw [entered_value (.ptr (.struct n fs) m) h.1, delete_engine e n fs m (generated_names _ _ _ _ h)]

/-- C2 (as amended): for every record type with a pk field whose table is the
one the generated DDL creates, every record and every store state in which a
row with the record's pk exists, Insert returns the same result and leaves the
same store as Update: the INSERT raises a constraint violation and the
operation is retried as Update on the same record. -/
theorem insert_is_update (e : Engine) (n : String) (fs : GoFields) (m : Option ModelMethods)
    (s : Store) (t : TableState) (pk : Field)
    (hgen : Generated n fs s t)
    (hpk : fs.descriptors.find? (fun f => f.hasOpt "pk") = some pk)
    (hrow : keyRows fs.descriptors t.rows ≠ []) :
    Table.InsertCall (engine e) (.value (.ptr (.struct n fs) m)) s =
      Table.UpdateCall (engine e) (.value (.ptr (.struct n fs) m)) s ∧
    ∃ r, Table.UpdateCall (engine e) (.value (.ptr (.struct n fs) m)) s = .returned r := by
  have hnd := generated_nodup n fs s t hgen
  rw [insertCall_engine e n fs m s s t hgen, updateCall_engine e n fs m s s t hgen,
    insert_is_update_plain n fs m s t pk hnd hgen.2.2.1 hgen.2.2.2 hpk hrow]
  exact ⟨rfl, _, rfl⟩

theorem generated_intro (n : String) (fs : GoFields) (s : Store) (t : TableState)
    (hx : fs.sealed = false) (h1 : sqlNames n fs.descriptors = true)
    (h2 : (fs.descriptors.map (fun f => foldName f.Name)).Nodup)
    (h3 : (fs.descriptors.filter Field.Pk).length ≤ 1) (h4 : fs.descriptors ≠ [])
    (hs : s n = some t) (hsch : t.schema = schemaOf fs.descriptors) : Generated n fs s t := by
  refine ⟨hx, ?_, hs, hsch⟩
  have hnd : (fs.descriptors.map (fun f => f.Name)).Nodup := by
    have : (fs.descriptors.map (fun f => foldName f.Name)) =
        (fs.descriptors.map (fun f => f.Name)).map foldName := by
      rw [List.map_map]; rfl
    rw [this] at h2
    exact List.Nodup.of_map _ h2
  have h5 : ¬ 1 < (fs.descriptors.filter Field.Pk).length := by omega
  have h6 : fs.descriptors.isEmpty = false := by
    cases hd : fs.descriptors with
    | nil => exact absurd hd h4
    | cons a l => rfl
  exact ⟨Store.empty.set n ⟨schemaOf fs.descriptors, []⟩,
    by simp [engineCreate, sqliteCreate, h1, h2, hnd, h5, h6, Store.empty]⟩

theorem engineSelect_count (e : Engine) (stmt0 : Stmt) (s : Store) (table : String)
    (cond : List (String × String)) (sort : List Int) (page : Option Page)
    (args : List NamedArg) :
    engineSelect e stmt0 s table none cond none sort page args =
      sqliteSelect s table none cond none sort page args := by
  unfold engineSelect sqliteSelect
  cases s table with
  | none => rfl
  | some t =>
    simp only [engineLabelFilter, labelFilter, selected, selectWidth, (e.perm _ _).length_eq]

theorem count_engine (e : Engine) (n : String) (fs : GoFields) (m : Option ModelMethods)
    (options : ListOptions) (s : Store) (hnames : sqlNames n fs.descriptors = true)
    (hl : options.Labels = []) :
    Table.Count (engine e) (.ptr (.struct n fs) m) options s =
      Table.Count sqlite (.ptr (.struct n fs) m) options s := by
  have hf : Table.Fields (.ptr (.struct n fs) m) = .ok fs.descriptors := rfl
  have hname : Table.Name (.ptr (.struct n fs) m) = n := rfl
  have hlegal : (Stmt.list n none ((Table.NotEmptyFields fs.descriptors).map Field.eqParam) none
      options.SortKeys options.Page).names.all isName = true := by
    apply all_of_subset _ _ _ _ (sqlNames_all _ _ hnames)
    intro x hx
    simp only [Stmt.names, Option.getD_none, List.nil_append, List.append_nil, List.mem_cons] at hx
    rcases hx with hx | hx
    · exact hx ▸ List.mem_cons_self _ _
    · rw [notEmpty_sel _ (descriptors_fresh fs)] at hx
      simp only [List.map_map, List.mem_map, Function.comp_apply] at hx
      obtain ⟨f, hf, rfl⟩ := hx
      exact List.mem_cons_of_mem _ (List.mem_map_of_mem _ (List.mem_of_mem_filter hf))
  have hrow : ∀ args, engineQueryRow e (Stmt.list n none
        ((Table.NotEmptyFields fs.descriptors).map Field.eqParam) none
        options.SortKeys options.Page) args s =
      sqliteQueryRow (Stmt.list n none
        ((Table.NotEmptyFields fs.descriptors).map Field.eqParam) none
        options.SortKeys options.Page) args s := by
    intro args
    unfold engineQueryRow sqliteQueryRow engineRows sqliteRows
    rw [if_pos hlegal]
    simp only [engineSelect_count]
  simp only [Table.Count, hf, hname, count_stmt n fs.descriptors options hl, engine, sqlite, hrow]

theorem countCall_engine (e : Engine) (n : String) (fs : GoFields) (m : Option ModelMethods)
    (options : ListOptions) (s s0 : Store) (t : TableState) (h : Generated n fs s0 t)
    (hl : options.Labels = []) :
    Table.CountCall (engine e) (.value (.ptr (.struct n fs) m)) options s =
      .returned (Table.Count sqlite (.ptr (.struct n fs) m) options s) := by
  unfold Table.CountCall
  rw [entered_value (.ptr (.struct n fs) m) h.1,
    count_engine e n fs m options s (generated_names _ _ _ _ h) hl]

theorem insertCall_value {σ : Type} (db : DB σ) (a : Any) (h : a.sealed = false) (s : σ) :
    Table.InsertCall db (.value a) s = .returned (Table.Insert db a s) := by
  unfold Table.InsertCall
  rw [entered_value a h]

/-- C2, witness: a `Gadget` whose pk 1 is already stored. -/
theorem insert_is_update_witness :
    Table.InsertCall (engine Engine.backward) (.value (Gadget 1 "t1" "b"))
        (gadgetStore [gadgetRow 1 "t1" "a"]) =
      Table.UpdateCall (engine Engine.backward) (.value (Gadget 1 "t1" "b"))
        (gadgetStore [gadgetRow 1 "t1" "a"]) ∧
    ∃ r, Table.UpdateCall (engine Engine.backward) (.value (Gadget 1 "t1" "b"))
        (gadgetStore [gadgetRow 1 "t1" "a"]) = .returned r :=
  insert_is_update Engine.backward "Gadget" (gadgetDecl 1 "t1" "b") none
    (gadgetStore [gadgetRow 1 "t1" "a"])
    ⟨schemaOf (gadgetDecl 0 "" "").descriptors, [gadgetRow 1 "t1" "a"]⟩
    ⟨.int 1, "pk", "Id", "", 0, false⟩
    (generated_intro _ _ _ _ (by decide) (by decide) (by decide) (by decide) (by decide)
      (by decide) (by decide)) (by decide) (by decide)

/-- C2, counterexample: for `Duo`, a record type with a natural key and no pk,
the store holds a row with the record's key `Team` t1; Insert adds a second
row, Update rewrites the first. -/
theorem insert_is_not_update :
    keyRows (duoDecl "t1" "b").descriptors [duoRow "t1" "a"] ≠ [] ∧
    (Table.InsertCall (engine Engine.stored) (.value (Duo "t1" "b"))
        (tableStore "Duo" (duoDecl "" "") [duoRow "t1" "a"])).result.map
        (fun r => (r.1, r.2 "Duo")) =
      some (.ok (), some ⟨schemaOf (duoDecl "" "").descriptors,
        [duoRow "t1" "a", duoRow "t1" "b"]⟩) ∧
    (Table.UpdateCall (engine Engine.stored) (.value (Duo "t1" "b"))
        (tableStore "Duo" (duoDecl "" "") [duoRow "t1" "a"])).result.map
        (fun r => (r.1, r.2 "Duo")) =
      some (.ok (), some ⟨schemaOf (duoDecl "" "").descriptors, [duoRow "t1" "b"]⟩) := by
  decide

/-- C3 (as amended): for every record type with a pk field whose table is the
one the generated DDL creates, once Insert of a record has succeeded exactly
one row carries the record's pk, and a second Insert of the record leaves the
rows of its table as the first left them. And for `Gadget`, the record type of
the scenario with the column `Group` under the name `Team`: after the Insert of
the gadget 1, t1, a and after the Insert of the gadget 1, t1, b that follows
it, Count for `Team` t1 is 1. A record with labels is not of the type `Label`
itself. -/
theorem insert_twice :
    (∀ (e : Engine) (n : String) (fs : GoFields) (m : Option ModelMethods) (s s1 : Store)
        (t : TableState) (pk : Field),
      Generated n fs s t →
      fs.descriptors.find? (fun f => f.hasOpt "pk") = some pk →
      (m = none ∨ n ≠ "Label") →
      Table.InsertCall (engine e) (.value (.ptr (.struct n fs) m)) s = .returned (.ok (), s1) →
      ∃ t1, s1 n = some t1 ∧ (keyRows fs.descriptors t1.rows).length = 1 ∧
        ∃ r s2, Table.InsertCall (engine e) (.value (.ptr (.struct n fs) m)) s1 =
            .returned (r, s2) ∧ s2 n = some t1) ∧
    (∀ e : Engine, ∃ s1 s2,
      Table.InsertCall (engine e) (.value (Gadget 1 "t1" "a")) (gadgetStore []) =
        .returned (.ok (), s1) ∧
      Table.InsertCall (engine e) (.value (Gadget 1 "t1" "b")) s1 = .returned (.ok (), s2) ∧
      Table.CountCall (engine e) (.value (Gadget 0 "t1" "")) ListOptions.none s1 =
        .returned (.ok 1) ∧
      Table.CountCall (engine e) (.value (Gadget 0 "t1" "")) ListOptions.none s2 =
        .returned (.ok 1)) := by
  refine ⟨?_, ?_⟩
  · intro e n fs m s s1 t pk hgen hpk hlabel hins
    have hnd := generated_nodup n fs s t hgen
    rw [insertCall_engine e n fs m s s t hgen] at hins
    have hins' : Table.Insert sqlite (.ptr (.struct n fs) m) s = (.ok (), s1) := by
      simpa using hins
    obtain ⟨t1, h1, h2, h3⟩ := insert_twice_plain n fs m s s1 t pk hnd hgen.2.2.1 hgen.2.2.2 hpk
      hlabel hins'
    refine ⟨t1, h1, h2, (Table.Insert sqlite (.ptr (.struct n fs) m) s1).1,
      (Table.Insert sqlite (.ptr (.struct n fs) m) s1).2, ?_, h3⟩
    rw [insertCall_engine e n fs m s1 s t hgen]
  · intro e
    have hgen1 : Generated "Gadget" (gadgetDecl 1 "t1" "a") (gadgetStore [])
        ⟨schemaOf (gadgetDecl 0 "" "").descriptors, []⟩ :=
      generated_intro _ _ _ _ (by decide) (by decide) (by decide) (by decide) (by decide)
        (by decide) (by decide)
    have hgen2 : Generated "Gadget" (gadgetDecl 1 "t1" "b") (gadgetStore [])
        ⟨schemaOf (gadgetDecl 0 "" "").descriptors, []⟩ :=
      generated_intro _ _ _ _ (by decide) (by decide) (by decide) (by decide) (by decide)
        (by decide) (by decide)
    have hgen0 : Generated "Gadget" (gadgetDecl 0 "t1" "") (gadgetStore [])
        ⟨schemaOf (gadgetDecl 0 "" "").descriptors, []⟩ :=
      generated_intro _ _ _ _ (by decide) (by decide) (by decide) (by decide) (by decide)
        (by decide) (by decide)
    refine ⟨(Table.Insert sqlite (Gadget 1 "t1" "a") (gadgetStore [])).2,
      (Table.Insert sqlite (Gadget 1 "t1" "b")
        (Table.Insert sqlite (Gadget 1 "t1" "a") (gadgetStore [])).2).2, ?_, ?_, ?_, ?_⟩
    · exact (insertCall_engine e _ _ none _ _ _ hgen1).trans
        (congrArg Outcome.returned (Prod.ext (by decide) rfl))
    · exact (insertCall_engine e _ _ none _ _ _ hgen2).trans
        (congrArg Outcome.returned (Prod.ext (by decide) rfl))
    · exact (countCall_engine e _ _ none _ _ _ _ hgen0 rfl).trans
        (congrArg Outcome.returned (by decide))
    · exact (countCall_engine e _ _ none _ _ _ _ hgen0 rfl).trans
        (congrArg Outcome.returned (by decide))

/-- C3, witness: the `Gadget` with pk 1, inserted twice into the empty
table. -/
theorem insert_twice_witness :
    ∃ t1, (Table.Insert (engine Engine.backward) (Gadget 1 "t1" "a") (gadgetStore [])).2
          "Gadget" = some t1 ∧
      (keyRows (gadgetDecl 1 "t1" "a").descriptors t1.rows).length = 1 ∧
      ∃ r s2, Table.InsertCall (engine Engine.backward) (.value (Gadget 1 "t1" "a"))
          (Table.Insert (engine Engine.backward) (Gadget 1 "t1" "a") (gadgetStore [])).2 =
            .returned (r, s2) ∧ s2 "Gadget" = some t1 :=
  insert_twice.1 Engine.backward "Gadget" (gadgetDecl 1 "t1" "a") none (gadgetStore [])
    (Table.Insert (engine Engine.backward) (Gadget 1 "t1" "a") (gadgetStore [])).2
    ⟨schemaOf (gadgetDecl 0 "" "").descriptors, []⟩ ⟨.int 1, "pk", "Id", "", 0, false⟩
    (generated_intro _ _ _ _ (by decide) (by decide) (by decide) (by decide) (by decide)
      (by decide) (by decide)) (by decide) (Or.inl rfl)
    ((insertCall_value _ _ (by decide) _).trans
      (congrArg Outcome.returned (Prod.ext (by decide) rfl)))

/-- C3, counterexample: for `Duo`, a record type with a natural key and no pk,
two Inserts of one record leave two rows that carry its key. And the scenario
itself does not run: `Group` is a reserved word of SQLite, so the statement
that creates the table of `Widget`, the Insert of the widget 1, g1, a and the
Count for `Group` g1 all end with the syntax error of the store. -/
theorem insert_twice_duplicates :
    ((Table.InsertCall (engine Engine.stored) (.value (Duo "t1" "a"))
          (Table.Insert (engine Engine.stored) (Duo "t1" "a")
            (tableStore "Duo" (duoDecl "" "") [])).2).result.map
          (fun r => (r.1, r.2 "Duo")) =
        some (.ok (), some ⟨schemaOf (duoDecl "" "").descriptors,
          [duoRow "t1" "a", duoRow "t1" "a"]⟩) ∧
      (keyRows (duoDecl "t1" "a").descriptors [duoRow "t1" "a", duoRow "t1" "a"]).length = 2) ∧
    (errorOf (engineCreate "Widget" (widgetDecl 0 "" "").descriptors Store.empty) =
        some (.engine "syntax error") ∧
      (Table.InsertCall (engine Engine.stored) (.value (Widget 1 "g1" "a"))
          (widgetStore [])).result.map (fun r => r.1) = some (.error (.engine "syntax error")) ∧
      Table.CountCall (engine Engine.stored) (.value (Widget 0 "g1" "")) ListOptions.none
          (widgetStore []) = .returned (.error (.engine "syntax error"))) := by
  decide

theorem generated_ne (n : String) (fs : GoFields) (s : Store) (t : TableState)
    (h : Generated n fs s t) : fs.descriptors ≠ [] := by
  have hn := generated_names n fs s t h
  have hnd := generated_nodup n fs s t h
  obtain ⟨-, ⟨s1, h1⟩, -, -⟩ := h
  intro hnil
  rw [hnil] at h1
  simp [engineCreate, sqliteCreate, sqlNames] at h1

theorem labelRowsOf_other (s : Store) (n : String) (t : TableState) (hn : n ≠ "Label")
    (kind parent : String) : labelRowsOf (s.set n t) kind parent = labelRowsOf s kind parent := by
  unfold labelRowsOf
  rw [Store.set_other _ _ _ _ (fun h => hn h.symm)]

/-- C5 (as amended): for every record that exposes a label mapping, of a type
other than `Label`, on a store where the table of the record and the `Label`
table are the ones the generated DDL creates: after a successful Update the
Label rows of the record's kind and key are exactly one row per (name, value)
pair of its label mapping; after a successful Insert they are exactly those
rows when the Insert fell back to Update, which it does when a stored row has
the record's pk or its values on a unique group, and otherwise the rows held
before followed by one row per pair; and after a successful Delete there is
none. For Delete, and for Insert to leave exactly one row per pair whenever the
type has a pk field, the store holds Label rows of the record's kind and key
only while a row with the record's key is stored. -/
theorem label_consistency (e : Engine) (n : String) (fs : GoFields) (mm : ModelMethods)
    (s : Store) (t lt : TableState)
    (hgen : Generated n fs s t)
    (hn : n ≠ "Label") (hl : s "Label" = some lt) (hlsch : lt.schema = labelSchema) :
    (∀ s1, Table.UpdateCall (engine e) (.value (.ptr (.struct n fs) (some mm))) s =
        .returned (.ok (), s1) →
      labelRowsOf s1 n mm.Pk = mm.Labels.map (labelRow mm.Pk n)) ∧
    (∀ s1, Table.InsertCall (engine e) (.value (.ptr (.struct n fs) (some mm))) s =
        .returned (.ok (), s1) →
      (collides fs.descriptors t = true →
        labelRowsOf s1 n mm.Pk = mm.Labels.map (labelRow mm.Pk n)) ∧
      (collides fs.descriptors t = false →
        labelRowsOf s1 n mm.Pk = labelRowsOf s n mm.Pk ++ mm.Labels.map (labelRow mm.Pk n)) ∧
      (∀ pk, fs.descriptors.find? (fun f => f.hasOpt "pk") = some pk →
        (keyRows fs.descriptors t.rows = [] → labelRowsOf s n mm.Pk = []) →
        labelRowsOf s1 n mm.Pk = mm.Labels.map (labelRow mm.Pk n))) ∧
    (∀ s1, (keyRows fs.descriptors t.rows = [] → labelRowsOf s n mm.Pk = []) →
      Table.DeleteCall (engine e) (.value (.ptr (.struct n fs) (some mm))) s =
        .returned (.ok (), s1) →
      labelRowsOf s1 n mm.Pk = []) := by
  have hnd := generated_nodup n fs s t hgen
  have hne := generated_ne n fs s t hgen
  have hs := hgen.2.2.1
  have hsch := hgen.2.2.2
  have hupd : ∀ s1, Table.Update sqlite (.ptr (.struct n fs) (some mm)) s = (.ok (), s1) →
      labelRowsOf s1 n mm.Pk = mm.Labels.map (labelRow mm.Pk n) := by
    intro s1 h
    obtain ⟨s', hfr, hrl⟩ := updateWith_ok _ (.ptr (.struct n fs) (some mm)) mm rfl s s1 h
    have hl' : s' "Label" = some lt := by
      rw [hfr "Label" (fun h => hn h.symm), hl]
    rw [replaceLabels_eval _ mm s' lt hl' hlsch] at hrl
    injection hrl with _ h2
    rw [← h2, labelRowsOf_set]
    simp only [List.filter_append, filter_owned_rest, filter_owned_new, List.nil_append,
      Table.Name, GoValue.typeName]
  have hins : ∀ s1, Table.Insert sqlite (.ptr (.struct n fs) (some mm)) s = (.ok (), s1) →
      (collides fs.descriptors t = true →
        labelRowsOf s1 n mm.Pk = mm.Labels.map (labelRow mm.Pk n)) ∧
      (collides fs.descriptors t = false →
        labelRowsOf s1 n mm.Pk =
          labelRowsOf s n mm.Pk ++ mm.Labels.map (labelRow mm.Pk n)) := by
    intro s1 h
    unfold Table.Insert at h
    rw [insertWith_eval _ _ n fs (some mm) hnd hne s t hs hsch] at h
    unfold collides
    constructor
    · intro hc
      simp only [hc, if_true] at h
      exact hupd s1 h
    · intro hc
      simp only [hc, Bool.false_eq_true, if_false] at h
      have hl' : (s.set n { t with rows := t.rows ++ [recordRow fs.descriptors] }) "Label" =
          some lt := by
        rw [Store.set_other _ _ _ _ (fun h => hn h.symm), hl]
      unfold Table.InsertLabels at h
      rw [insertLabelsLoop_eval _ mm.Pk mm.Labels _ lt hl' hlsch] at h
      injection h with _ h2
      rw [← h2, labelRowsOf_set]
      simp only [List.filter_append, filter_owned_new, labelRowsOf, hl]
  refine ⟨?_, ?_, ?_⟩
  · intro s1 h
    rw [updateCall_engine e n fs (some mm) s s t hgen] at h
    exact hupd s1 (by simpa using h)
  · intro s1 h
    rw [insertCall_engine e n fs (some mm) s s t hgen] at h
    have h' : Table.Insert sqlite (.ptr (.struct n fs) (some mm)) s = (.ok (), s1) := by
      simpa using h
    refine ⟨(hins s1 h').1, (hins s1 h').2, ?_⟩
    intro pk hpk hkept
    by_cases hc : collides fs.descriptors t = true
    · exact (hins s1 h').1 hc
    · have hc' : collides fs.descriptors t = false := by simpa using hc
      have hfree : keyRows fs.descriptors t.rows = [] :=
        not_conflict_not_key _ hnd pk hpk _ (by rw [← hsch]; exact hc')
      rw [(hins s1 h').2 hc', hkept hfree, List.nil_append]
  · intro s1 hkept h
    rw [deleteCall_engine e n fs (some mm) s s t hgen] at h
    have h' : Table.Delete sqlite (.ptr (.struct n fs) (some mm)) s = (.ok (), s1) := by
      simpa using h
    unfold Table.Delete at h'
    rw [deleteWith_eval _ n fs (some mm) hnd s t hs hsch] at h'
    by_cases hk : keyFields fs.descriptors = []
    · simp only [hk, if_true] at h'; cases h'
    · by_cases hrows : keyRows fs.descriptors t.rows = []
      · simp only [hk, if_false, hrows, if_true] at h'
        injection h' with _ h2
        rw [← h2, labelRowsOf_other _ _ _ hn]
        exact hkept hrows
      · simp only [hk, if_false, hrows] at h'
        have hl' : (s.set n { t with rows := remainingRows fs.descriptors t.rows }) "Label" =
            some lt := by
          rw [Store.set_other _ _ _ _ (fun h => hn h.symm), hl]
        rw [deleteLabels_eval n mm _ lt hl' hlsch] at h'
        injection h' with _ h2
        rw [← h2, labelRowsOf_set]
        exact filter_owned_rest n mm.Pk lt.rows

/-- C5, witness: an Update of an entity with two labels replaces the one
label row it had. -/
theorem label_consistency_witness :
    labelRowsOf (Table.Update (engine Engine.backward) (Ent "p1" "x" [("a", "1"), ("b", "2")])
        (entStore [[("PK", .text "p1"), ("Name", .text "y")]]
          [labelRow "p1" "Ent" ("a", "0")])).2 "Ent" "p1" =
      [labelRow "p1" "Ent" ("a", "1"), labelRow "p1" "Ent" ("b", "2")] :=
  (label_consistency Engine.backward "Ent" (entDecl "p1" "x") ⟨"p1", [("a", "1"), ("b", "2")]⟩
    (entStore [[("PK", .text "p1"), ("Name", .text "y")]] [labelRow "p1" "Ent" ("a", "0")])
    ⟨schemaOf (entDecl "" "").descriptors, [[("PK", .text "p1"), ("Name", .text "y")]]⟩
    ⟨labelSchema, [labelRow "p1" "Ent" ("a", "0")]⟩
    (generated_intro _ _ _ _ (by decide) (by decide) (by decide) (by decide) (by decide)
      (by decide) (by decide)) (by decide) (by decide) (by decide)).1 _
    (congrArg Outcome.returned (Prod.ext (by decide) rfl))

/-- C5, counterexample: `Tagged` has a natural key and no pk. On a store with
no row and no label, the Insert of a record with one label succeeds twice, and
then two Label rows stand for the one pair of its label mapping. -/
theorem label_consistency_fails :
    (Table.InsertCall (engine Engine.stored) (.value (Tagged "t1" "a" [("app", "web")]))
        (taggedStore [] [])).result.map (fun r => r.1) = some (.ok ()) ∧
    (Table.InsertCall (engine Engine.stored) (.value (Tagged "t1" "a" [("app", "web")]))
        (Table.Insert (engine Engine.stored) (Tagged "t1" "a" [("app", "web")])
          (taggedStore [] [])).2).result.map
        (fun r => (r.1, labelRowsOf r.2 "Tagged" "t1")) =
      some (.ok (), [labelRow "t1" "Tagged" ("app", "web"),
        labelRow "t1" "Tagged" ("app", "web")]) := by
  decide

theorem sqlLE_total (a b : SqlValue) : SqlValue.le a b = true ∨ SqlValue.le b a = true := by
  cases a <;> cases b <;> simp only [SqlValue.le, decide_eq_true_eq, Bool.not_eq_true',
    decide_eq_false_iff_not, or_true, true_or]
  · rename_i x y
    rcases lt_or_ge y x with h | h
    · right; exact not_lt.mpr (le_of_lt h)
    · left; exact not_lt.mpr h
  · exact Int.le_total _ _

theorem sqlLE_trans (a b c : SqlValue) (h1 : SqlValue.le a b = true)
    (h2 : SqlValue.le b c = true) : SqlValue.le a c = true := by
  cases a <;> cases b <;> cases c <;>
    simp only [SqlValue.le, decide_eq_true_eq, Bool.not_eq_true', decide_eq_false_iff_not,
      Bool.false_eq_true] at h1 h2 ⊢
  · exact not_lt.mpr ((not_lt.mp h1).trans (not_lt.mp h2))
  · exact Int.le_trans h1 h2

theorem sqlLE_antisymm (a b : SqlValue) (h1 : SqlValue.le a b = true)
    (h2 : SqlValue.le b a = true) : a = b := by
  cases a <;> cases b <;>
    simp only [SqlValue.le, decide_eq_true_eq, Bool.not_eq_true', decide_eq_false_iff_not,
      Bool.false_eq_true] at h1 h2 ⊢
  · exact congrArg _ ((not_lt.mp h1).antisymm (not_lt.mp h2))
  · exact congrArg _ (Int.le_antisymm h1 h2)

theorem get?_none_of_length {α : Type} (a b : List α) (h : a.length = b.length) (i : Nat)
    (ha : a.get? i = none) : b.get? i = none := by
  rw [List.get?_eq_none] at ha ⊢
  omega

theorem rowLE_total : ∀ (keys : List Int) (a b : List SqlValue), a.length = b.length →
    rowLE keys a b = true ∨ rowLE keys b a = true
  | [], _, _, _ => Or.inl rfl
  | k :: ks, a, b, h => by
    unfold rowLE
    cases ha : a.get? (k - 1).toNat with
    | none =>
      rw [get?_none_of_length a b h _ ha]
      exact rowLE_total ks a b h
    | some x =>
      cases hb : b.get? (k - 1).toNat with
      | none =>
        have := get?_none_of_length b a h.symm _ hb
        rw [ha] at this
        cases this
      | some y =>
        simp only
        by_cases hxy : x = y
        · simp only [hxy, if_true]
          exact rowLE_total ks a b h
        · have hyx : ¬ y = x := fun h => hxy h.symm
          simp only [hxy, hyx, if_false]
          exact sqlLE_total x y

theorem rowLE_trans : ∀ (keys : List Int) (a b c : List SqlValue),
    a.length = b.length → b.length = c.length →
    rowLE keys a b = true → rowLE keys b c = true → rowLE keys a c = true
  | [], _, _, _, _, _, _, _ => rfl
  | k :: ks, a, b, c, hab, hbc, h1, h2 => by
    unfold rowLE at h1 h2 ⊢
    cases ha : a.get? (k - 1).toNat with
    | none =>
      have hb := get?_none_of_length a b hab _ ha
      have hc := get?_none_of_length b c hbc _ hb
      rw [ha, hb] at h1
      rw [hb, hc] at h2
      rw [hc]
      exact rowLE_trans ks a b c hab hbc h1 h2
    | some x =>
      cases hb : b.get? (k - 1).toNat with
      | none =>
        have := get?_none_of_length b a hab.symm _ hb
        rw [ha] at this
        cases this
      | some y =>
        cases hc : c.get? (k - 1).toNat with
        | none =>
          have := get?_none_of_length c b hbc.symm _ hc
          rw [hb] at this
          cases this
        | some z =>
          rw [ha, hb] at h1
          rw [hb, hc] at h2
          simp only at h1 h2 ⊢
          by_cases hxy : x = y
          · subst hxy
            simp only [if_true] at h1
            by_cases hxz : x = z
            · subst hxz
              simp only [if_true] at h2 ⊢
              exact rowLE_trans ks a b c hab hbc h1 h2
            · simp only [hxz, if_false] at h2 ⊢
              exact h2
          · simp only [hxy, if_false] at h1
            by_cases hyz : y = z
            · subst hyz
              simp only [hxy, if_false]
              exact h1
            · simp only [hyz, if_false] at h2
              have hxz : ¬ x = z := by
                intro h
                subst h
                exact hxy (sqlLE_antisymm _ _ h1 h2)
              simp only [hxz, if_false]
              exact sqlLE_trans _ _ _ h1 h2

theorem orderedInsert_sorted (keys : List Int) (w : Nat) (a : List SqlValue) (ha : a.length = w) :
    ∀ (l : List (List SqlValue)), (∀ x ∈ l, x.length = w) →
    l.Pairwise (fun x y => rowLE keys x y = true) →
    (l.orderedInsert (fun x y => rowLE keys x y = true) a).Pairwise
      (fun x y => rowLE keys x y = true)
  | [], _, _ => by simp [List.orderedInsert]
  | b :: l, hl, hs => by
    have hb : b.length = w := hl b (List.mem_cons_self _ _)
    have hl' : ∀ x ∈ l, x.length = w := fun x hx => hl x (List.mem_cons_of_mem _ hx)
    rw [List.pairwise_cons] at hs
    unfold List.orderedInsert
    by_cases hab : rowLE keys a b = true
    · simp only [hab, if_true]
      rw [List.pairwise_cons]
      refine ⟨?_, List.pairwise_cons.mpr hs⟩
      intro x hx
      rcases List.mem_cons.mp hx with h | h
      · rw [h]; exact hab
      · exact rowLE_trans keys a b x (by rw [ha, hb]) (by rw [hb, hl' x h]) hab (hs.1 x h)
    · simp only [hab, if_false, Bool.false_eq_true]
      rw [List.pairwise_cons]
      refine ⟨?_, orderedInsert_sorted keys w a ha l hl' hs.2⟩
      intro x hx
      rcases (List.mem_orderedInsert _).mp hx with h | h
      · rw [h]
        rcases rowLE_total keys a b (by rw [ha, hb]) with h1 | h1
        · exact absurd h1 hab
        · exact h1
      · exact hs.1 x h

theorem sortRows_sorted (keys : List Int) (w : Nat) : ∀ (rows : List (List SqlValue)),
    (∀ x ∈ rows, x.length = w) →
    (sortRows keys rows).Pairwise (fun x y => rowLE keys x y = true)
  | [], _ => by simp [sortRows]
  | a :: l, h => by
    have ih := sortRows_sorted keys w l (fun x hx => h x (List.mem_cons_of_mem _ hx))
    unfold sortRows at ih ⊢
    rw [List.insertionSort]
    apply orderedInsert_sorted keys w a (h a (List.mem_cons_self _ _)) _ _ ih
    intro x hx
    exact h x (List.mem_cons_of_mem _ ((List.mem_insertionSort _).mp hx))

theorem sortRows_perm (keys : List Int) (rows : List (List SqlValue)) :
    (sortRows keys rows).Perm rows :=
  List.perm_insertionSort _ rows

theorem eq_of_perm_sorted {α : Type} (r : α → α → Prop) : ∀ (l1 l2 : List α),
    (∀ a ∈ l2, ∀ b ∈ l2, r a b → r b a → a = b) →
    l1.Perm l2 → l1.Pairwise r → l2.Pairwise r → l1 = l2
  | [], l2, _, hp, _, _ => (List.Perm.eq_nil hp.symm).symm
  | a :: l1, [], _, hp, _, _ => absurd (List.Perm.eq_nil hp) (by simp)
  | a :: l1, b :: l2, hanti, hp, h1, h2 => by
    rw [List.pairwise_cons] at h1 h2
    have ha2 : a ∈ b :: l2 := hp.mem_iff.mp (List.mem_cons_self _ _)
    have hb1 : b ∈ a :: l1 := hp.mem_iff.mpr (List.mem_cons_self _ _)
    have hab : a = b := by
      rcases List.mem_cons.mp ha2 with h | h
      · exact h
      · rcases List.mem_cons.mp hb1 with h' | h'
        · exact h'.symm
        · exact hanti a ha2 b (List.mem_cons_self _ _) (h1.1 b h') (h2.1 a h)
    subst hab
    have hp' : l1.Perm l2 := List.Perm.cons_inv hp
    rw [eq_of_perm_sorted r l1 l2
      (fun x hx y hy => hanti x (List.mem_cons_of_mem _ hx) y (List.mem_cons_of_mem _ hy))
      hp' h1.2 h2.2]

theorem selected_perm (columns : Option (List String)) (f1 f2 : List StoredRow)
    (h : f1.Perm f2) : (selected columns f1).Perm (selected columns f2) := by
  cases columns with
  | none => simp only [selected, h.length_eq]; exact List.Perm.refl _
  | some cs => exact h.map _

theorem engineSelect_cases (e : Engine) (s : Store) (table : String)
    (columns : Option (List String)) (cond : List (String × String))
    (labels : Option (String × List (String × String))) (sort : List Int)
    (args : List NamedArg) :
    (∃ err, ∀ stmt page,
      engineSelect e stmt s table columns cond labels sort page args = .error err) ∨
    (∃ found : List StoredRow, ∀ stmt page,
      engineSelect e stmt s table columns cond labels sort page args =
        .ok (pageRows page (sortRows sort (selected columns (e.visit stmt found))))) := by
  unfold engineSelect
  cases hs : s table with
  | none => exact Or.inl ⟨.engine "no such table", fun _ _ => rfl⟩
  | some t =>
    simp only
    by_cases h1 : columns = some []
    · exact Or.inl ⟨.engine "syntax error", fun _ _ => by simp only [h1, if_true]⟩
    · simp only [h1, if_false]
      cases h2 : (!(knownColumns t.schema (columns.getD []) &&
          knownColumns t.schema (cond.map (fun x => x.1))))
      · simp only [Bool.false_eq_true, if_false]
        cases hk : engineLabelFilter e s table t labels with
        | error err =>
          cases hb : bindAll args cond with
          | none => exact Or.inl ⟨.engine "parameter", fun _ _ => rfl⟩
          | some c => exact Or.inl ⟨err, fun _ _ => rfl⟩
        | ok keep =>
          cases hb : bindAll args cond with
          | none => exact Or.inl ⟨.engine "parameter", fun _ _ => rfl⟩
          | some c =>
            simp only
            cases h3 : (sort.all fun k => decide (1 ≤ k ∧ k ≤ selectWidth columns))
            · exact Or.inl ⟨.engine "ORDER BY term out of range", fun _ _ => rfl⟩
            · exact Or.inr ⟨t.rows.filter (fun r => rowMatches c r && keep r), fun _ _ => rfl⟩
      · exact Or.inl ⟨.engine "no such column", fun _ _ => by simp only [if_true]⟩

theorem pushAll_returned : ∀ (l gs : List Field), pushAll l = .returned gs → gs = l.map Field.Push
  | [], gs, h => by
    simp only [pushAll, Outcome.returned.injEq] at h
    rw [← h]; rfl
  | f :: fs, gs, h => by
    unfold pushAll at h
    cases hp : f.PushCall with
    | panicked msg => rw [hp] at h; cases h
    | returned g =>
      rw [hp] at h
      simp only at h
      cases hr : pushAll fs with
      | panicked msg => rw [hr] at h; cases h
      | returned gs' =>
        rw [hr] at h
        simp only [Outcome.returned.injEq] at h
        have hg : g = f.Push := by
          unfold Field.PushCall at hp
          cases hk : f.Value.Kind <;> rw [hk] at hp <;> simp only at hp
          · split at hp
            · exact (Outcome.returned.inj hp).symm
            · cases hp
          · split at hp
            · exact (Outcome.returned.inj hp).symm
            · cases hp
          · exact (Outcome.returned.inj hp).symm
          · exact (Outcome.returned.inj hp).symm
        rw [← h, hg, pushAll_returned fs gs' hr, List.map_cons]

theorem scanCall_ok (row : Row) (fields record : List Field)
    (h : Table.scanCall row fields = .returned (.ok (), record)) :
    Table.scan row fields = (.ok (), record) := by
  unfold Table.scanCall at h
  unfold Table.scan
  cases hs : row.Scan ((fields.map (fun f => f.Pull.2)).map Field.Ptr) with
  | error err =>
    simp only [hs, Outcome.returned.injEq, Prod.mk.injEq] at h
    cases h.1
  | ok cells =>
    simp only [hs] at h ⊢
    cases hp : pushAll (storeAll (fields.map (fun f => f.Pull.2)) cells) with
    | panicked msg => rw [hp] at h; cases h
    | returned gs =>
      rw [hp] at h
      simp only [Outcome.returned.injEq, Prod.mk.injEq, true_and] at h
      rw [← h, pushAll_returned _ _ hp]

theorem scanCell_holds (f : Field) (v : SqlValue) (c : Cell)
    (h : scanCell v (f.Pull.2.Ptr) = .ok c) : f.holds v := by
  unfold Field.holds
  obtain ⟨fv, tag, name, st, i, p⟩ := f
  cases fv <;> cases v <;> first | rfl | cases h

theorem scanValues_holds : ∀ (fields : List Field) (vals : List SqlValue) (cells : List Cell),
    scanValues vals ((fields.map (fun f => f.Pull.2)).map Field.Ptr) = .ok cells →
    List.Forall₂ Field.holds fields vals
  | [], [], _, _ => List.Forall₂.nil
  | [], _ :: _, _, h => by cases h
  | _ :: _, [], _, h => by cases h
  | f :: fs, v :: vs, cells, h => by
    simp only [List.map_cons, scanValues] at h
    cases h1 : scanCell v (f.Pull.2.Ptr) with
    | error err =>
      rw [h1] at h
      cases h2 : scanValues vs ((fs.map (fun f => f.Pull.2)).map Field.Ptr) <;>
        rw [h2] at h <;> cases h
    | ok c =>
      rw [h1] at h
      cases h2 : scanValues vs ((fs.map (fun f => f.Pull.2)).map Field.Ptr) with
      | error err => rw [h2] at h; cases h
      | ok cs =>
        exact List.Forall₂.cons (scanCell_holds f v c h1) (scanValues_holds fs vs cs h2)

theorem scan_ok_holds (fields : List Field) (vals : List SqlValue) (record : List Field)
    (h : Table.scan (rowOf vals) fields = (.ok (), record)) :
    List.Forall₂ Field.holds fields vals := by
  unfold Table.scan at h
  cases hs : (rowOf vals).Scan ((fields.map (fun f => f.Pull.2)).map Field.Ptr) with
  | error err =>
    simp only [hs, Prod.mk.injEq] at h
    cases h.1
  | ok cells => exact scanValues_holds fields vals cells hs

theorem scanned_toSql : ∀ (fields : List Field) (vals : List SqlValue),
    List.Forall₂ Field.holds fields vals →
    (List.zipWith Field.scanned fields vals).map Field.toSql = vals
  | [], [], _ => rfl
  | [], _ :: _, h => by cases h
  | _ :: _, [], h => by cases h
  | f :: fs, v :: vs, h => by
    have hfv : f.holds v := by cases h; assumption
    have hrest : List.Forall₂ Field.holds fs vs := by cases h; assumption
    simp only [List.zipWith_cons_cons, List.map_cons, scanned_toSql fs vs hrest, List.cons.injEq,
      and_true]
    have := (scanned_value f v hfv).2
    unfold Field.toSql
    rw [this]
    cases v <;> rfl

theorem listLoopCall_ok (model : Any) (newFields : List Field)
    (hnew : Table.Fields model.new = .ok newFields) :
    ∀ (rows : List (List SqlValue)) (records : List (List Field)),
    listLoopCall model (rows.map rowOf) = .returned (.ok records) →
    (∀ vals ∈ rows, List.Forall₂ Field.holds newFields vals ∧
      Table.scanCall (rowOf vals) newFields =
        .returned (.ok (), List.zipWith Field.scanned newFields vals)) ∧
    records = recordsOf newFields rows
  | [], records, h => by
    simp only [List.map_nil, listLoopCall, Outcome.returned.injEq, Except.ok.injEq] at h
    exact ⟨fun _ hv => absurd hv (List.not_mem_nil _), h.symm⟩
  | vals :: rows, records, h => by
    simp only [List.map_cons, listLoopCall, hnew] at h
    cases hsc : Table.scanCall (rowOf vals) newFields with
    | panicked msg => rw [hsc] at h; cases h
    | returned r =>
      obtain ⟨r1, scanned⟩ := r
      rw [hsc] at h
      cases r1 with
      | error err => cases h
      | ok u =>
        simp only at h
        cases hrest : listLoopCall model (rows.map rowOf) with
        | panicked msg => rw [hrest] at h; cases h
        | returned r2 =>
          rw [hrest] at h
          cases r2 with
          | error err => cases h
          | ok list =>
            simp only [Outcome.returned.injEq, Except.ok.injEq] at h
            have ih := listLoopCall_ok model newFields hnew rows list hrest
            have hscan := scanCall_ok _ _ _ hsc
            have hholds := scan_ok_holds newFields vals scanned hscan
            have hval : scanned = List.zipWith Field.scanned newFields vals := by
              have := scan_rowOf newFields vals hholds
              rw [hscan] at this
              exact (Prod.mk.inj this).2
            refine ⟨?_, ?_⟩
            · intro v hv
              rcases List.mem_cons.mp hv with h1 | h1
              · rw [h1]
                exact ⟨hholds, by rw [hsc, hval]⟩
              · exact ih.1 v h1
            · rw [← h, ih.2, hval]
              rfl

theorem listLoopCall_of (model : Any) (newFields : List Field)
    (hnew : Table.Fields model.new = .ok newFields) :
    ∀ (rows : List (List SqlValue)),
    (∀ vals ∈ rows, Table.scanCall (rowOf vals) newFields =
        .returned (.ok (), List.zipWith Field.scanned newFields vals)) →
    listLoopCall model (rows.map rowOf) = .returned (.ok (recordsOf newFields rows))
  | [], _ => rfl
  | vals :: rows, h => by
    have ih := listLoopCall_of model newFields hnew rows
      (fun v hv => h v (List.mem_cons_of_mem _ hv))
    simp only [List.map_cons, listLoopCall, hnew, h vals (List.mem_cons_self _ _), ih]
    rfl

theorem ordered_recordsOf (keys : List Int) (newFields : List Field)
    (rows : List (List SqlValue))
    (hholds : ∀ vals ∈ rows, List.Forall₂ Field.holds newFields vals)
    (hs : rows.Pairwise (fun x y => rowLE keys x y = true)) :
    ordered keys (recordsOf newFields rows) := by
  unfold ordered recordsOf
  rw [List.pairwise_map]
  refine List.Pairwise.imp_of_mem ?_ hs
  intro a b ha hb hab
  rw [scanned_toSql _ _ (hholds a ha), scanned_toSql _ _ (hholds b hb)]
  exact hab

theorem pageRows_some (L O : Nat) (rows : List (List SqlValue)) :
    pageRows (some ⟨L, O⟩) rows = (rows.drop O).take L := rfl

theorem listCall_eval (e : Engine) (n : String) (fs : GoFields) (m : Option ModelMethods)
    (options : ListOptions) (s : Store) (hx : fs.sealed = false) :
    Table.ListCall (engine e) (.value (.ptr (.struct n fs) m)) options s =
      match Table.listSQL n fs.descriptors options with
      | .error err => .returned (.error err)
      | .ok (stmt, fields') =>
        match engineRows e stmt (Table.Params fields') s with
        | .error err => .returned (.error err)
        | .ok rows => listLoopCall (.ptr (.struct n fs) m) (rows.map rowOf) := by
  have hf : Table.Fields (.ptr (.struct n fs) m) = .ok fs.descriptors := rfl
  have hname : Table.Name (.ptr (.struct n fs) m) = n := rfl
  unfold Table.ListCall
  rw [entered_value (.ptr (.struct n fs) m) hx]
  simp only [hf, hname]
  cases hq : Table.listSQL n fs.descriptors options with
  | error err => rfl
  | ok r =>
    obtain ⟨stmt, fields'⟩ := r
    simp only [engine, engineQuery]
    cases hr : engineRows e stmt (Table.Params fields') s with
    | error err => rfl
    | ok rows => rfl

theorem listCall_sealed {σ : Type} (db : DB σ) (n : String) (fs : GoFields)
    (m : Option ModelMethods) (options : ListOptions) (s : σ) (r : Except Error Records)
    (h : Table.ListCall db (.value (.ptr (.struct n fs) m)) options s = .returned r) :
    fs.sealed = false := by
  by_contra hc
  have hc' : (Any.ptr (.struct n fs) m).sealed = true := by simpa [Any.sealed] using hc
  simp only [Table.ListCall, Table.entered, hc', if_true] at h
  cases h

theorem mem_of_perm_chain {α : Type} (l1 l2 : List α) (h : l1.Perm l2) (p : α → Prop)
    (h2 : ∀ x ∈ l2, p x) : ∀ x ∈ l1, p x :=
  fun x hx => h2 x (h.mem_iff.mp hx)

/-- C8: for every ListOptions the list statement ends with the ORDER BY
clause (the given positions in the order given; nothing for an empty sort
sequence), then the `LIMIT L OFFSET O` clause (nothing without a page), after a
text that depends on neither. And on SQLite, when List without a page returns
records, they stand in the order of the positions; and List with the page L, O
returns the records at positions [O, O+L), at most L of them, of a sequence
that holds the same records, stands in the order of the positions too, and is
the sequence List returns without a page whenever no two of its records may
each stand before the other. -/
theorem list_order_and_page (n : String) (fs : GoFields) (m : Option ModelMethods)
    (count : Bool) (labels : List (String × String)) :
    (∃ body : Option String, ∀ (sort : List Int) (page : Option Page),
      stmtText (Table.listSQL n fs.descriptors ⟨count, labels, page, sort⟩) =
        body.map (fun b => b ++ orderByClause sort ++ limitClause page ++ ";\n")) ∧
    (∀ (e : Engine) (s : Store) (sort : List Int) (L O : Nat) (whole : List (List Field)),
      Table.ListCall (engine e) (.value (.ptr (.struct n fs) m)) ⟨count, labels, none, sort⟩ s =
        .returned (.ok whole) →
      ordered sort whole ∧
      ∃ full : List (List Field), full.Perm whole ∧ ordered sort full ∧
        ((∀ a ∈ whole, ∀ b ∈ whole,
            rowLE sort (a.map Field.toSql) (b.map Field.toSql) = true →
            rowLE sort (b.map Field.toSql) (a.map Field.toSql) = true → a = b) →
          full = whole) ∧
        Table.ListCall (engine e) (.value (.ptr (.struct n fs) m))
            ⟨count, labels, some ⟨L, O⟩, sort⟩ s = .returned (.ok ((full.drop O).take L)) ∧
        ((full.drop O).take L).length ≤ L) := by
  refine ⟨(list_order_and_page_plain n fs m count labels).1, ?_⟩
  intro e s sort L O whole h
  have hx := listCall_sealed _ n fs m _ s _ h
  have hnew : Table.Fields (Any.new (.ptr (.struct n fs) m)) = .ok fs.zero.descriptors := rfl
  rw [listCall_eval e n fs m _ s hx] at h
  rw [listCall_eval e n fs m _ s hx, listSQL_page]
  cases hq : Table.listSQL n fs.descriptors ⟨count, labels, none, sort⟩ with
  | error err => rw [hq] at h; cases h
  | ok r =>
    obtain ⟨stmt, fields'⟩ := r
    obtain ⟨cols, cond, lab, hstmt⟩ := listSQL_shape _ _ _ _ _ _ _ _ hq
    subst hstmt
    rw [hq] at h
    simp only at h ⊢
    have hnames : (Stmt.list n cols cond lab sort (some ⟨L, O⟩)).names =
        (Stmt.list n cols cond lab sort none).names := rfl
    unfold engineRows at h ⊢
    rw [hnames]
    by_cases hlegal : (Stmt.list n cols cond lab sort none).names.all isName = true
    · rw [if_pos hlegal] at h ⊢
      simp only at h ⊢
      rcases engineSelect_cases e s n cols cond lab sort (Table.Params fields') with
        ⟨err, herr⟩ | ⟨found, hfound⟩
      · rw [herr] at h
        cases h
      · rw [hfound] at h
        rw [hfound]
        simp only [pageRows] at h ⊢
        -- the rows without a page, and the rows before the page is cut
        have hperm : (sortRows sort (selected cols (e.visit
              (Stmt.list n cols cond lab sort (some ⟨L, O⟩)) found))).Perm
            (sortRows sort (selected cols (e.visit (Stmt.list n cols cond lab sort none) found))) :=
          (sortRows_perm _ _).trans
            ((selected_perm cols _ _ ((e.perm _ found).trans (e.perm _ found).symm)).trans
              (sortRows_perm _ _).symm)
        obtain ⟨hgood, hwhole⟩ := listLoopCall_ok _ _ hnew _ _ h
        have hgood' := mem_of_perm_chain _ _ hperm _ hgood
        have hlen : ∀ (rows : List (List SqlValue)),
            (∀ vals ∈ rows, List.Forall₂ Field.holds fs.zero.descriptors vals ∧
              Table.scanCall (rowOf vals) fs.zero.descriptors =
                .returned (.ok (), List.zipWith Field.scanned fs.zero.descriptors vals)) →
            ∀ x ∈ rows, x.length = fs.zero.descriptors.length :=
          fun rows hg x hx => ((hg x hx).1.length_eq).symm
        have hsorted0 := sortRows_sorted sort fs.zero.descriptors.length
          (selected cols (e.visit (Stmt.list n cols cond lab sort none) found))
          (fun x hx => hlen _ hgood x ((sortRows_perm _ _).mem_iff.mpr hx))
        have hsorted1 := sortRows_sorted sort fs.zero.descriptors.length
          (selected cols (e.visit (Stmt.list n cols cond lab sort (some ⟨L, O⟩)) found))
          (fun x hx => hlen _ hgood' x ((sortRows_perm _ _).mem_iff.mpr hx))
        have hord0 : ordered sort whole := by
          rw [hwhole]
          exact ordered_recordsOf sort _ _ (fun v hv => (hgood v hv).1) hsorted0
        refine ⟨hord0, recordsOf fs.zero.descriptors (sortRows sort (selected cols (e.visit
            (Stmt.list n cols cond lab sort (some ⟨L, O⟩)) found))), ?_, ?_, ?_, ?_, ?_⟩
        · rw [hwhole]
          exact hperm.map _
        · exact ordered_recordsOf sort _ _ (fun v hv => (hgood' v hv).1) hsorted1
        · intro hanti
          apply eq_of_perm_sorted _ _ _ hanti
          · rw [hwhole]
            exact hperm.map _
          · exact ordered_recordsOf sort _ _ (fun v hv => (hgood' v hv).1) hsorted1
          · exact hord0
        · have hpage := listLoopCall_of (.ptr (.struct n fs) m) fs.zero.descriptors hnew
            ((sortRows sort (selected cols (e.visit
              (Stmt.list n cols cond lab sort (some ⟨L, O⟩)) found))).drop O |>.take L)
            (fun v hv => (hgood' v (List.mem_of_mem_drop (List.mem_of_mem_take hv))).2)
          rw [hpage]
          simp only [recordsOf, List.map_take, List.map_drop]
        · simp [List.length_take]
    · rw [if_neg hlegal] at h
      cases h

/-- C8, witness: the `Gadget` table holds the gadgets 3, 1, 2 in that order of
insertion; List sorted by position 1 returns them as 1, 2, 3, and with the page
of limit 1 and offset 1 it returns the gadget 2. -/
theorem list_order_and_page_witness :
    Table.ListCall (engine Engine.backward) (.value (Gadget 0 "" "")) ⟨false, [], none, [1]⟩
        (gadgetStore [gadgetRow 3 "t2" "c", gadgetRow 1 "t1" "a", gadgetRow 2 "t1" "b"]) =
      .returned (.ok [scannedGadget 1 "t1" "a", scannedGadget 2 "t1" "b",
        scannedGadget 3 "t2" "c"]) ∧
    ordered [1] [scannedGadget 1 "t1" "a", scannedGadget 2 "t1" "b", scannedGadget 3 "t2" "c"] ∧
    Table.ListCall (engine Engine.backward) (.value (Gadget 0 "" ""))
        ⟨false, [], some ⟨1, 1⟩, [1]⟩
        (gadgetStore [gadgetRow 3 "t2" "c", gadgetRow 1 "t1" "a", gadgetRow 2 "t1" "b"]) =
      .returned (.ok [scannedGadget 2 "t1" "b"]) := by
  have hwhole : Table.ListCall (engine Engine.backward) (.value (Gadget 0 "" ""))
        ⟨false, [], none, [1]⟩
        (gadgetStore [gadgetRow 3 "t2" "c", gadgetRow 1 "t1" "a", gadgetRow 2 "t1" "b"]) =
      .returned (.ok [scannedGadget 1 "t1" "a", scannedGadget 2 "t1" "b",
        scannedGadget 3 "t2" "c"]) := by decide
  obtain ⟨hord, full, -, -, heq, hpage, -⟩ :=
    (list_order_and_page "Gadget" (gadgetDecl 0 "" "") none false []).2 Engine.backward
      (gadgetStore [gadgetRow 3 "t2" "c", gadgetRow 1 "t1" "a", gadgetRow 2 "t1" "b"]) [1] 1 1
      _ hwhole
  rw [heq (by decide)] at hpage
  exact ⟨hwhole, hord, hpage⟩

end Model
